import Mathlib

/-!
# Verification of the OpenQL list scheduler (`src/scheduler.cc`)

This file shallowly embeds the dependence-graph based list scheduler of the
repository and proves/refutes the frozen claims about it.

Conventions of the embedding:

* Node ids follow `lemon::ListDigraph` insertion order in `Scheduler::init`:
  the dummy SOURCE node has id `0`, the `i`-th circuit gate (0-based) has id
  `i+1`, and the dummy SINK node has id `n+1` where `n` is the circuit length.
* `size_t` cycle values are modelled as `Int` (no wrap-around occurs for the
  sentinel values the scheduler actually uses).
* The `float` arithmetic of `Scheduler::add_dep`
  (`int(std::ceil(static_cast<float>(duration) / cycle_time))`) is modelled
  exactly: IEEE-754 single precision round-to-nearest-even, see `fweight`.
* Fallible entry points (`FATAL`) are modelled with `Except String`.
-/

namespace QL

/-- Dependence kinds, from the `DepTypes` enum used by `Scheduler::add_dep`. -/
inductive DepType where
  | WAW | WAR | WAD | RAW | RAR | RAD | DAW | DAR | DAD
deriving DecidableEq, Repr

/-- The gate-type tags the scheduler dispatches on (`gate_type_t` values that
appear in `scheduler.cc`; every other tag behaves like `other`). -/
inductive GType where
  | classical | dummy | wait | remap | other
deriving DecidableEq, Repr

/-- A gate as the scheduler sees it: a (possibly parameterised) name, a type
tag, qubit operands, classical-register operands and a duration. The mutable
`cycle` field of the C++ gate is kept outside, as explicit state. -/
structure SGate where
  name : String
  gtype : GType
  operands : List Nat
  creg_operands : List Nat
  duration : Nat
deriving DecidableEq, Repr

/-- One arc of the dependence graph: source node, target node, the operand
that caused it (`cause`), the dependence kind and the latency weight. -/
structure Edge where
  src : Nat
  tgt : Nat
  cause : Nat
  dep : DepType
  weight : Nat
deriving DecidableEq, Repr

/-! ## The float-based edge weight of `Scheduler::add_dep`

`weight[arc] = int(std::ceil(static_cast<float>(duration) / cycle_time))`.
Both operands are converted to IEEE-754 single precision (24-bit significand,
round to nearest, ties to even), the division rounds the exact quotient to
single precision, and `ceil` is exact on floats.  We model float values by
their exact (integer or scaled-integer) magnitudes. -/

/-- Floor of base-2 logarithm, computed with structural fuel so that concrete
instances reduce inside the kernel (`n` itself is always enough fuel). -/
def log2f : Nat → Nat → Nat
  | 0, _ => 0
  | f + 1, n => if 2 ≤ n then log2f f (n / 2) + 1 else 0

/-- Floor of base-2 logarithm on naturals. -/
def nlog2 (n : Nat) : Nat := log2f n n

/-- Round `a / b` (with `b > 0`) to the nearest integer, ties to even. -/
def roundNEdiv (a b : Nat) : Nat :=
  let q := a / b
  let r := a % b
  if b < 2 * r ∨ (2 * r = b ∧ q % 2 = 1) then q + 1 else q

/-- The exact value of `static_cast<float>(n)` for a natural number `n`
(in the non-overflowing range): `n` itself when it fits in 24 bits of
significand, otherwise `n` rounded to nearest-even at the appropriate
binade. -/
def floatOfNat (n : Nat) : Nat :=
  if n ≤ 2 ^ 24 then n
  else
    let k := nlog2 n - 23
    roundNEdiv n (2 ^ k) * 2 ^ k

/-- Ceiling of base-2 logarithm on positive naturals. -/
def clog2 (c : Nat) : Nat :=
  if c ≤ 1 then 0 else nlog2 (c - 1) + 1

/-- `int(std::ceil(x / y))` where `x` and `y` are the exact magnitudes of two
single-precision floats, `y > 0`: the quotient is rounded to nearest-even
single precision (24-bit significand), then the ceiling is taken. -/
def ceilFloatDiv (x y : Nat) : Nat :=
  if x = 0 then 0
  else
    -- binade of the exact quotient: 2^e ≤ x/y < 2^(e+1)
    let e : Int := if y ≤ x then (nlog2 (x / y) : Int) else -(clog2 ((y + x - 1) / x) : Int)
    let s : Int := 23 - e
    if 0 ≤ s then
      -- significand m = roundNE(x·2^s / y); value m·2^(-s); ceiling
      let m := roundNEdiv (x * 2 ^ s.toNat) y
      (m + 2 ^ s.toNat - 1) / 2 ^ s.toNat
    else
      roundNEdiv x (y * 2 ^ (-s).toNat) * 2 ^ (-s).toNat

/-- `Scheduler::add_dep`'s weight computation:
`int(std::ceil(static_cast<float>(duration) / cycle_time))`. -/
def fweight (duration cycle_time : Nat) : Nat :=
  ceilFloatDiv (floatOfNat duration) (floatOfNat cycle_time)

/-- Exact ceiling division on naturals (what the spec asserts the weight is,
and what the commented-out line `(duration + cycle_time - 1)/cycle_time`
in `add_dep` would compute). -/
def exactCeilDiv (duration cycle_time : Nat) : Nat :=
  (duration + cycle_time - 1) / cycle_time

example : fweight 3 1 = 3 := by decide
example : fweight 1 2 = 1 := by decide
example : fweight 1 1 = 1 := by decide
example : fweight 0 5 = 0 := by decide
example : fweight 40 20 = 2 := by decide
example : fweight 45 20 = 3 := by decide

/-! ## Dependence-graph construction (`Scheduler::init`)

The graph is built by one pass over the circuit.  Per combined operand the
builder tracks the last writer, the readers since the last write and the
"D" (controlled-target) accesses since the last write, and emits arcs from
those to the current gate according to the gate's kind. -/

/-- Modelled from the spec: the `SOURCE` class of the missing `scheduler.h`.
A virtual dummy gate that implicitly writes every operand before any real
gate; §4.5 of the spec states that the dependences leaving SOURCE carry
weight 1, so its duration is one time unit. -/
def SOURCE_gate : SGate :=
  { name := "SOURCE", gtype := GType.dummy, operands := [], creg_operands := [], duration := 1 }

/-- Modelled from the spec: the `SINK` class of the missing `scheduler.h`.
A virtual dummy gate closing every dependence chain; it has no outgoing
arcs, so its duration is irrelevant and taken as 0. -/
def SINK_gate : SGate :=
  { name := "SINK", gtype := GType.dummy, operands := [], creg_operands := [], duration := 0 }

/-- The gate carried by a node id: id 0 is SOURCE, ids `1..n` are the
circuit's gates, id `n+1` (and anything beyond) is SINK. -/
def nodeGate (ckt : List SGate) (v : Nat) : SGate :=
  if v = 0 then SOURCE_gate else ckt.getD (v - 1) SINK_gate

/-- Duration of the gate at a node id. -/
def nodeDur (ckt : List SGate) (v : Nat) : Nat := (nodeGate ckt v).duration

/-- `Scheduler::stripname`: drop everything from the first space on. -/
def stripname (s : String) : String :=
  String.mk (s.data.takeWhile (fun c => c ≠ ' '))

/-- The per-operand bookkeeping state of `Scheduler::init` together with the
arcs emitted so far (`LastWriter`, `LastReaders`, `LastDs`). -/
structure BuildSt where
  edges : List Edge
  lastWriter : Nat → Nat
  lastReaders : Nat → List Nat
  lastDs : Nat → List Nat

/-- `Scheduler::add_dep`: append one arc with the float-computed weight. -/
def add_dep (ct : Nat) (dur : Nat → Nat) (src tgt : Nat) (d : DepType) (op : Nat)
    (es : List Edge) : List Edge :=
  es ++ [⟨src, tgt, op, d, fweight (dur src) ct⟩]

/-- Emit one arc per source in `srcs` (a `for (auto &readerID : ...)` loop). -/
def add_deps (ct : Nat) (dur : Nat → Nat) (tgt : Nat) (d : DepType) (op : Nat)
    (srcs : List Nat) (es : List Edge) : List Edge :=
  srcs.foldl (fun a r => add_dep ct dur r tgt d op a) es

/-- The arcs generated by a `W` event of node `cons` on operand `op`:
WAW from the last writer, WAR from every reader, WAD from every D. -/
def emitW (ct : Nat) (dur : Nat → Nat) (st : BuildSt) (cons op : Nat)
    (es : List Edge) : List Edge :=
  add_deps ct dur cons DepType.WAD op (st.lastDs op)
    (add_deps ct dur cons DepType.WAR op (st.lastReaders op)
      (add_dep ct dur (st.lastWriter op) cons DepType.WAW op es))

/-- Set `lastWriter := cons` and clear readers and Ds at every index of `l`. -/
def clearW (st : BuildSt) (cons : Nat) (l : List Nat) : BuildSt :=
  l.foldl (fun s o =>
    { s with lastWriter := Function.update s.lastWriter o cons
             lastReaders := Function.update s.lastReaders o []
             lastDs := Function.update s.lastDs o [] }) st

/-- The W arcs of a measure's classical operand: WAW and WAR only (the
measure branch of `Scheduler::init` has no `LastDs` loop for cregs). -/
def emitWnoD (ct : Nat) (dur : Nat → Nat) (st : BuildSt) (cons op : Nat)
    (es : List Edge) : List Edge :=
  add_deps ct dur cons DepType.WAR op (st.lastReaders op)
    (add_dep ct dur (st.lastWriter op) cons DepType.WAW op es)

/-- The bookkeeping update of a measure's classical operands: set the last
writer and clear the readers, leaving `LastDs` untouched. -/
def updWR (st : BuildSt) (cons : Nat) (l : List Nat) : BuildSt :=
  l.foldl (fun s o =>
    { s with lastWriter := Function.update s.lastWriter o cons
             lastReaders := Function.update s.lastReaders o [] }) st

/-- The arcs of one cnot operand: index 0 is a Read (RAW, RAR when commuting
is disabled, RAD), later indices are D events (DAW, DAD when commuting is
disabled, DAR). -/
def cnotEmit (commute : Bool) (ct : Nat) (dur : Nat → Nat) (st : BuildSt)
    (cons : Nat) (io : Nat × Nat) (es : List Edge) : List Edge :=
  let op := io.2
  if io.1 = 0 then
    add_deps ct dur cons DepType.RAD op (st.lastDs op)
      ((if commute then id
        else add_deps ct dur cons DepType.RAR op (st.lastReaders op))
        (add_dep ct dur (st.lastWriter op) cons DepType.RAW op es))
  else
    add_deps ct dur cons DepType.DAR op (st.lastReaders op)
      ((if commute then id
        else add_deps ct dur cons DepType.DAD op (st.lastDs op))
        (add_dep ct dur (st.lastWriter op) cons DepType.DAW op es))

/-- The bookkeeping update of one cnot operand: index 0 joins the readers
and clears the Ds, later indices join the Ds and clear the readers. -/
def cnotUpd (cons : Nat) (s : BuildSt) (io : Nat × Nat) : BuildSt :=
  let op := io.2
  if io.1 = 0 then
    { s with lastReaders := Function.update s.lastReaders op (s.lastReaders op ++ [cons])
             lastDs := Function.update s.lastDs op [] }
  else
    { s with lastDs := Function.update s.lastDs op (s.lastDs op ++ [cons])
             lastReaders := Function.update s.lastReaders op [] }

/-- The arcs of one cz/cphase operand: RAR (when commuting is disabled),
RAW, RAD. -/
def czEmit (commute : Bool) (ct : Nat) (dur : Nat → Nat) (st : BuildSt)
    (cons op : Nat) (es : List Edge) : List Edge :=
  add_deps ct dur cons DepType.RAD op (st.lastDs op)
    (add_dep ct dur (st.lastWriter op) cons DepType.RAW op
      ((if commute then id
        else add_deps ct dur cons DepType.RAR op (st.lastReaders op)) es))

/-- The bookkeeping update of one cz/cphase operand: clear the Ds, join the
readers. -/
def czUpd (cons : Nat) (s : BuildSt) (op : Nat) : BuildSt :=
  { s with lastDs := Function.update s.lastDs op []
           lastReaders := Function.update s.lastReaders op (s.lastReaders op ++ [cons]) }

/-- One operand of the catch-all branch: a W event followed immediately by
the bookkeeping update of that operand. -/
def genericStep (ct : Nat) (dur : Nat → Nat) (cons : Nat) (s : BuildSt) (op : Nat) : BuildSt :=
  clearW { s with edges := emitW ct dur s cons op s.edges } cons [op]

/-- One iteration of the instruction loop of `Scheduler::init`: dispatch on
the (stripped) gate name / gate type and emit this gate's dependences.
`commute` is `options::get("scheduler_commute") == "yes"`. -/
def processGate (commute : Bool) (qc cc ct : Nat) (dur : Nat → Nat)
    (cons : Nat) (g : SGate) (st : BuildSt) : BuildSt :=
  let iname := stripname g.name
  if iname = "measure" then
    -- Read+Write each qubit operand + Write corresponding creg
    let es1 := g.operands.foldl (fun a op => emitW ct dur st cons op a) st.edges
    let es2 := g.creg_operands.foldl (fun a co => emitWnoD ct dur st cons (qc + co) a) es1
    -- update LastWriter, clear LastReaders/LastDs for qubit operands,
    -- and update LastWriter / clear LastReaders (not LastDs!) for cregs
    updWR (clearW { st with edges := es2 } cons g.operands) cons
      (g.creg_operands.map (qc + ·))
  else if iname = "display" then
    -- no explicit operands: Read+Write every combined operand
    let ops := List.range (qc + cc)
    let es1 := ops.foldl (fun a op => emitW ct dur st cons op a) st.edges
    clearW { st with edges := es1 } cons ops
  else if g.gtype = GType.classical then
    -- Read+Write each classical operand
    let es1 := g.creg_operands.foldl (fun a co => emitW ct dur st cons (qc + co) a) st.edges
    clearW { st with edges := es1 } cons (g.creg_operands.map (qc + ·))
  else if iname = "cnot" then
    -- first operand is Read, second is D
    let es1 := g.operands.enum.foldl (fun a io => cnotEmit commute ct dur st cons io a) st.edges
    g.operands.enum.foldl (cnotUpd cons) { st with edges := es1 }
  else if iname = "cz" ∨ iname = "cphase" then
    -- all operands are Read
    let es1 := g.operands.foldl (fun a op => czEmit commute ct dur st cons op a) st.edges
    g.operands.foldl (czUpd cons) { st with edges := es1 }
  else
    -- catch-all: Read+Write each qubit operand, then each classical operand,
    -- with the bookkeeping update interleaved per operand (as in the source)
    let st1 := g.operands.foldl (genericStep ct dur cons) st
    g.creg_operands.foldl (fun s co => genericStep ct dur cons s (qc + co)) st1

/-- The initial bookkeeping: SOURCE (id 0) implicitly wrote every operand. -/
def initSt : BuildSt :=
  { edges := [], lastWriter := fun _ => 0, lastReaders := fun _ => [], lastDs := fun _ => [] }

/-- The whole of `Scheduler::init` (minus the DAG assertion): process each
circuit gate in order, then let SINK (id `n+1`) perform a `W` event on every
combined operand. -/
def buildGraph (commute : Bool) (ckt : List SGate) (qc cc ct : Nat) : List Edge :=
  let dur := nodeDur ckt
  let stAll := (ckt.enum.foldl (fun s ig => processGate commute qc cc ct dur (ig.1 + 1) ig.2 s) initSt)
  (List.range (qc + cc)).foldl
    (fun a op => emitW ct dur stAll (ckt.length + 1) op a) stAll.edges

/-! ## Cycle solver without resource constraints (`Scheduler::set_cycle`)

`size_t` cycles are modelled as `Int`.  `MAX_CYCLE` (the start value of the
min-fold in `set_cycle_gate`) and `ALAP_SINK_CYCLE` (the sentinel SINK cycle
of backward scheduling) live in the missing `scheduler.h`; the spec only
says they are large reserved constants, so they are parameters `MAXC` and
`S` here. -/

/-- `Scheduler::set_cycle_gate`, forward direction: max over incoming arcs
of source cycle plus weight (starting from 0). -/
def set_cycle_gate_fwd (E : List Edge) (c : Nat → Int) (v : Nat) : Int :=
  (E.filter (fun e => e.tgt = v)).foldl (fun m e => max m (c e.src + e.weight)) 0

/-- `Scheduler::set_cycle_gate`, backward direction: min over outgoing arcs
of target cycle minus weight (starting from `MAX_CYCLE`). -/
def set_cycle_gate_bwd (MAXC : Int) (E : List Edge) (c : Nat → Int) (v : Nat) : Int :=
  (E.filter (fun e => e.src = v)).foldl (fun m e => min m (c e.tgt - e.weight)) MAXC

/-- Process the nodes of `order` one at a time, overwriting each node's cycle
with the value `f` computes from the current assignment. -/
def sweep (f : (Nat → Int) → Nat → Int) (order : List Nat) (c : Nat → Int) : Nat → Int :=
  order.foldl (fun c v => Function.update c v (f c v)) c

/-- `[n, n-1, ..., 1]`: the circuit's node ids in reverse program order. -/
def countdown : Nat → List Nat
  | 0 => []
  | k + 1 => (k + 1) :: countdown k

/-- `[1, 2, ..., n]`: the circuit's node ids in program order. -/
def countup (n : Nat) : List Nat := (countdown n).reverse

/-- Forward `Scheduler::set_cycle` (ASAP): SOURCE gets cycle 0, then every
circuit gate in program order and finally SINK get the forward longest-path
value.  `c0` is the incoming cycle assignment (the gates' sentinel values);
only node 0 is read from it by a well-formed graph. -/
def asapCycles (E : List Edge) (n : Nat) (c0 : Nat → Int) : Nat → Int :=
  sweep (set_cycle_gate_fwd E) (countup (n + 1)) (Function.update c0 0 0)

/-- Backward `Scheduler::set_cycle` before the readjustment: SINK gets the
sentinel `S` (`ALAP_SINK_CYCLE`), then the circuit in reverse program order
and finally SOURCE get the backward value. -/
def alapPre (S MAXC : Int) (E : List Edge) (n : Nat) (c0 : Nat → Int) : Nat → Int :=
  sweep (set_cycle_gate_bwd MAXC E) (countdown n ++ [0]) (Function.update c0 (n + 1) S)

/-- Backward `Scheduler::set_cycle` (ALAP): every node's cycle is readjusted
down by SOURCE's cycle, so that SOURCE ends at 0. -/
def alapCycles (S MAXC : Int) (E : List Edge) (n : Nat) (c0 : Nat → Int) : Nat → Int :=
  fun v => alapPre S MAXC E n c0 v - alapPre S MAXC E n c0 0

/-- Stable insertion into a sorted list: `x` is placed before the first
element `y` that is not strictly smaller than `x`. -/
def insertLt (lt : α → α → Bool) (x : α) : List α → List α
  | [] => [x]
  | y :: ys => if lt y x then y :: insertLt lt x ys else x :: y :: ys

/-- A stable sort (the result `std::stable_sort` is specified to produce). -/
def stableSortBy (lt : α → α → Bool) (l : List α) : List α :=
  l.foldr (insertLt lt) []

/-- `Scheduler::sort_by_cycle`: stable sort of the circuit (a list of node
ids here) by non-decreasing cycle value. -/
def sort_by_cycle (c : Nat → Int) (circ : List Nat) : List Nat :=
  stableSortBy (fun g1 g2 => c g1 < c g2) circ

/-! ### Sweep lemmas -/

theorem sweep_not_mem (f : (Nat → Int) → Nat → Int) (order : List Nat)
    (c : Nat → Int) (u : Nat) (hu : u ∉ order) : sweep f order c u = c u := by
  induction order generalizing c with
  | nil => rfl
  | cons v l ih =>
    simp only [List.mem_cons, not_or] at hu
    simp only [sweep, List.foldl_cons]
    rw [show (List.foldl (fun c v => Function.update c v (f c v)) (Function.update c v (f c v)) l)
        = sweep f l (Function.update c v (f c v)) from rfl, ih _ hu.2,
      Function.update_noteq hu.1]

theorem sweep_append (f : (Nat → Int) → Nat → Int) (l1 l2 : List Nat) (c : Nat → Int) :
    sweep f (l1 ++ l2) c = sweep f l2 (sweep f l1 c) := by
  simp [sweep, List.foldl_append]

theorem sweep_prefix_stable (f : (Nat → Int) → Nat → Int) (l1 l2 : List Nat)
    (c : Nat → Int) (u : Nat) (hu : u ∉ l2) :
    sweep f (l1 ++ l2) c u = sweep f l1 c u := by
  rw [sweep_append, sweep_not_mem _ _ _ _ hu]

theorem sweep_cons_eval (f : (Nat → Int) → Nat → Int) (l1 l2 : List Nat)
    (c : Nat → Int) (v : Nat) (hv : v ∉ l2) :
    sweep f (l1 ++ v :: l2) c v = f (sweep f l1 c) v := by
  rw [sweep_append, show sweep f (v :: l2) (sweep f l1 c)
      = sweep f l2 (Function.update (sweep f l1 c) v (f (sweep f l1 c) v)) from rfl,
    sweep_not_mem _ _ _ _ hv, Function.update_same]

theorem foldl_max_init (g : Edge → Int) (l : List Edge) :
    ∀ a : Int, a ≤ l.foldl (fun m x => max m (g x)) a := by
  induction l with
  | nil => simp
  | cons x xs ih => exact fun a => le_trans (le_max_left _ _) (ih _)

theorem foldl_max_ge (g : Edge → Int) (l : List Edge) (a : Int) (e : Edge) (he : e ∈ l) :
    g e ≤ l.foldl (fun m x => max m (g x)) a := by
  induction l generalizing a with
  | nil => cases he
  | cons x xs ih =>
    rcases List.mem_cons.mp he with h | h
    · subst h
      exact le_trans (le_max_right a (g e)) (foldl_max_init g xs _)
    · exact ih _ h

theorem foldl_min_init (g : Edge → Int) (l : List Edge) :
    ∀ a : Int, l.foldl (fun m x => min m (g x)) a ≤ a := by
  induction l with
  | nil => simp
  | cons x xs ih => exact fun a => le_trans (ih _) (min_le_left _ _)

theorem foldl_min_le (g : Edge → Int) (l : List Edge) (a : Int) (e : Edge) (he : e ∈ l) :
    l.foldl (fun m x => min m (g x)) a ≤ g e := by
  induction l generalizing a with
  | nil => cases he
  | cons x xs ih =>
    rcases List.mem_cons.mp he with h | h
    · subst h
      exact le_trans (foldl_min_init g xs _) (min_le_right a (g e))
    · exact ih _ h

/-- Well-formed arcs: every arc goes from a lower to a strictly higher node
id, and targets stay within the graph (`n+1` is SINK). -/
def WfEdges (E : List Edge) (n : Nat) : Prop :=
  ∀ e ∈ E, e.src < e.tgt ∧ e.tgt ≤ n + 1

theorem mem_countdown {v n : Nat} : v ∈ countdown n ↔ 1 ≤ v ∧ v ≤ n := by
  induction n with
  | zero =>
    simp only [countdown, List.not_mem_nil, false_iff]
    omega
  | succ k ih =>
    simp only [countdown, List.mem_cons, ih]
    omega

theorem countup_split {t m : Nat} (h1 : 1 ≤ t) (h2 : t ≤ m) :
    ∃ l2, countup m = countup (t - 1) ++ t :: l2 ∧ ∀ x ∈ l2, t < x := by
  induction m with
  | zero => omega
  | succ k ih =>
    rcases Nat.lt_or_ge t (k + 1) with h | h
    · obtain ⟨l2, hl, hx⟩ := ih (by omega)
      refine ⟨l2 ++ [k + 1], ?_, ?_⟩
      · simp only [countup, countdown, List.reverse_cons] at hl ⊢
        rw [hl]
        simp
      · intro x hx2
        rcases List.mem_append.mp hx2 with h3 | h3
        · exact hx x h3
        · simp only [List.mem_singleton] at h3
          omega
    · have ht : t = k + 1 := by omega
      subst ht
      refine ⟨[], ?_, by simp⟩
      simp [countup, countdown]

theorem countdown_split {s n : Nat} (h1 : 1 ≤ s) (h2 : s ≤ n) :
    ∃ l1, countdown n = l1 ++ s :: countdown (s - 1) := by
  induction n with
  | zero => omega
  | succ k ih =>
    rcases Nat.lt_or_ge s (k + 1) with h | h
    · obtain ⟨l1, hl⟩ := ih (by omega)
      exact ⟨(k + 1) :: l1, by simp [countdown, hl]⟩
    · have hs : s = k + 1 := by omega
      subst hs
      exact ⟨[], by simp [countdown]⟩

/-- Forward `set_cycle` honors every well-formed arc. -/
theorem asap_dep (E : List Edge) (n : Nat) (c0 : Nat → Int) (e : Edge) (he : e ∈ E)
    (h1 : e.src < e.tgt) (h3 : e.tgt ≤ n + 1) :
    asapCycles E n c0 e.src + e.weight ≤ asapCycles E n c0 e.tgt := by
  obtain ⟨l2, hl, hgt⟩ := countup_split (t := e.tgt) (m := n + 1) (by omega) (by omega)
  have htgt :
      asapCycles E n c0 e.tgt
        = set_cycle_gate_fwd E (sweep (set_cycle_gate_fwd E) (countup (e.tgt - 1)) (Function.update c0 0 0)) e.tgt := by
    unfold asapCycles
    rw [hl]
    exact sweep_cons_eval _ _ _ _ _ (fun hm => lt_irrefl _ (hgt _ hm))
  have hsrc :
      asapCycles E n c0 e.src
        = sweep (set_cycle_gate_fwd E) (countup (e.tgt - 1)) (Function.update c0 0 0) e.src := by
    unfold asapCycles
    rw [hl]
    refine sweep_prefix_stable _ _ _ _ _ ?_
    intro hm
    rcases List.mem_cons.mp hm with h | h
    · omega
    · exact absurd (hgt _ h) (by omega)
  rw [htgt, hsrc]
  exact foldl_max_ge _ _ _ e (List.mem_filter.mpr ⟨he, by simp⟩)

/-- Backward `set_cycle` before readjustment honors every well-formed arc. -/
theorem alapPre_dep (S MAXC : Int) (E : List Edge) (n : Nat) (c0 : Nat → Int)
    (e : Edge) (he : e ∈ E) (h1 : e.src < e.tgt) (h3 : e.tgt ≤ n + 1) :
    alapPre S MAXC E n c0 e.src + e.weight ≤ alapPre S MAXC E n c0 e.tgt := by
  have hsn : e.src ≤ n := by omega
  -- decompose the backward order at e.src
  obtain ⟨l1, l2, hl, hlt⟩ :
      ∃ l1 l2, countdown n ++ [0] = l1 ++ e.src :: l2 ∧ ∀ x ∈ l2, x < e.src := by
    rcases Nat.eq_zero_or_pos e.src with h0 | h0
    · exact ⟨countdown n, [], by simp [h0], by simp⟩
    · obtain ⟨l1, hl⟩ := countdown_split (s := e.src) h0 hsn
      refine ⟨l1, countdown (e.src - 1) ++ [0], by simp [hl], ?_⟩
      intro x hx
      rcases List.mem_append.mp hx with h | h
      · have := mem_countdown.mp h
        omega
      · simp only [List.mem_singleton] at h
        omega
  have hsrc :
      alapPre S MAXC E n c0 e.src
        = set_cycle_gate_bwd MAXC E
            (sweep (set_cycle_gate_bwd MAXC E) l1 (Function.update c0 (n + 1) S)) e.src := by
    unfold alapPre
    rw [hl]
    exact sweep_cons_eval _ _ _ _ _ (fun hm => lt_irrefl _ (hlt _ hm))
  have htgt :
      alapPre S MAXC E n c0 e.tgt
        = sweep (set_cycle_gate_bwd MAXC E) l1 (Function.update c0 (n + 1) S) e.tgt := by
    unfold alapPre
    rw [hl]
    refine sweep_prefix_stable _ _ _ _ _ ?_
    intro hm
    rcases List.mem_cons.mp hm with h | h
    · omega
    · exact absurd (hlt _ h) (by omega)
  have hmin := foldl_min_le
    (fun x => (sweep (set_cycle_gate_bwd MAXC E) l1 (Function.update c0 (n + 1) S)) x.tgt - x.weight)
    (E.filter (fun x => x.src = e.src)) MAXC e (List.mem_filter.mpr ⟨he, by simp⟩)
  rw [hsrc, htgt]
  calc set_cycle_gate_bwd MAXC E
        (sweep (set_cycle_gate_bwd MAXC E) l1 (Function.update c0 (n + 1) S)) e.src + e.weight
      ≤ (sweep (set_cycle_gate_bwd MAXC E) l1 (Function.update c0 (n + 1) S) e.tgt - e.weight) + e.weight := by
        exact add_le_add_right hmin _
    _ = _ := by ring

/-- Readjusted ALAP cycles honor every well-formed arc. -/
theorem alap_dep (S MAXC : Int) (E : List Edge) (n : Nat) (c0 : Nat → Int)
    (e : Edge) (he : e ∈ E) (h1 : e.src < e.tgt) (h3 : e.tgt ≤ n + 1) :
    alapCycles S MAXC E n c0 e.src + e.weight ≤ alapCycles S MAXC E n c0 e.tgt := by
  have := alapPre_dep S MAXC E n c0 e he h1 h3
  unfold alapCycles
  omega

/-! ### Structural facts about the built graph

These are proved by one induction over the instruction loop, carrying the
invariant `BInv` below.  `WfCircuit` captures the well-formedness the
scheduler assumes of its input (§7 of the spec: operand ranges are the
caller's responsibility); without it the catch-all branch can emit
self-arcs, which the DAG assertion of `Scheduler::init` turns into a
fatal error. -/

/-- Input well-formedness: operand lists are duplicate-free and in range. -/
def WfCircuit (qc cc : Nat) (ckt : List SGate) : Prop :=
  ∀ g ∈ ckt, g.operands.Nodup ∧ g.creg_operands.Nodup
    ∧ (∀ o ∈ g.operands, o < qc) ∧ ∀ co ∈ g.creg_operands, co < cc

theorem mem_add_dep {ct dur src tgt d op es e} :
    e ∈ add_dep ct dur src tgt d op es
      ↔ e ∈ es ∨ e = ⟨src, tgt, op, d, fweight (dur src) ct⟩ := by
  simp [add_dep]

theorem subset_add_deps {ct dur tgt d op srcs} (es : List Edge) :
    es ⊆ add_deps ct dur tgt d op srcs es := by
  induction srcs generalizing es with
  | nil => exact fun _ h => h
  | cons r rs ih =>
    intro x hx
    exact ih _ (by simp [add_dep, hx])

theorem sub_add_deps {ct dur tgt d op srcs es e} (he : e ∈ add_deps ct dur tgt d op srcs es) :
    e ∈ es ∨ ∃ r ∈ srcs, e = ⟨r, tgt, op, d, fweight (dur r) ct⟩ := by
  induction srcs generalizing es with
  | nil => exact Or.inl he
  | cons r rs ih =>
    rcases ih he with h | h
    · rcases mem_add_dep.mp h with h2 | h2
      · exact Or.inl h2
      · exact Or.inr ⟨r, by simp, h2⟩
    · obtain ⟨r2, hr2, he2⟩ := h
      exact Or.inr ⟨r2, by simp [hr2], he2⟩

theorem add_deps_cons {ct dur tgt d op r rs es} :
    add_deps ct dur tgt d op (r :: rs) es
      = add_deps ct dur tgt d op rs (add_dep ct dur r tgt d op es) := rfl

theorem mem_add_deps_of {ct dur tgt d op srcs es r} (hr : r ∈ srcs) :
    (⟨r, tgt, op, d, fweight (dur r) ct⟩ : Edge) ∈ add_deps ct dur tgt d op srcs es := by
  induction srcs generalizing es with
  | nil => cases hr
  | cons x xs ih =>
    rw [add_deps_cons]
    rcases List.mem_cons.mp hr with h | h
    · subst h
      exact subset_add_deps _ (mem_add_dep.mpr (Or.inr rfl))
    · exact ih h

theorem subset_emitW {ct dur st cons op} (es : List Edge) :
    es ⊆ emitW ct dur st cons op es := by
  intro x hx
  exact subset_add_deps _ (subset_add_deps _ (mem_add_dep.mpr (Or.inl hx)))

/-- Everything `emitW` appends goes from a currently tracked access of `op`
to `cons`, with the float weight, and is a W-kind arc. -/
theorem sub_emitW {ct dur st cons op es e} (he : e ∈ emitW ct dur st cons op es) :
    e ∈ es ∨ ((e.src = st.lastWriter op ∨ e.src ∈ st.lastReaders op ∨ e.src ∈ st.lastDs op)
      ∧ e.tgt = cons ∧ e.weight = fweight (dur e.src) ct
      ∧ (e.dep = DepType.WAW ∨ e.dep = DepType.WAR ∨ e.dep = DepType.WAD)) := by
  unfold emitW at he
  rcases sub_add_deps he with h | h
  · rcases sub_add_deps h with h2 | h2
    · rcases mem_add_dep.mp h2 with h3 | h3
      · exact Or.inl h3
      · subst h3
        exact Or.inr ⟨Or.inl rfl, rfl, rfl, Or.inl rfl⟩
    · obtain ⟨r, hr, he2⟩ := h2
      subst he2
      exact Or.inr ⟨Or.inr (Or.inl hr), rfl, rfl, Or.inr (Or.inl rfl)⟩
  · obtain ⟨r, hr, he2⟩ := h
    subst he2
    exact Or.inr ⟨Or.inr (Or.inr hr), rfl, rfl, Or.inr (Or.inr rfl)⟩

/-- `emitW` emits in particular the WAW arc from the last writer. -/
theorem emitW_has_writer {ct dur st cons op es} :
    (⟨st.lastWriter op, cons, op, DepType.WAW, fweight (dur (st.lastWriter op)) ct⟩ : Edge)
      ∈ emitW ct dur st cons op es := by
  exact subset_add_deps _ (subset_add_deps _ (mem_add_dep.mpr (Or.inr rfl)))

theorem emitW_has_reader {ct dur st cons op es r} (hr : r ∈ st.lastReaders op) :
    (⟨r, cons, op, DepType.WAR, fweight (dur r) ct⟩ : Edge) ∈ emitW ct dur st cons op es := by
  exact subset_add_deps _ (mem_add_deps_of hr)

theorem emitW_has_d {ct dur st cons op es r} (hr : r ∈ st.lastDs op) :
    (⟨r, cons, op, DepType.WAD, fweight (dur r) ct⟩ : Edge) ∈ emitW ct dur st cons op es := by
  exact mem_add_deps_of hr

/-- `v` is currently recorded as an accessor of operand `o`. -/
def TrackedAt (st : BuildSt) (o v : Nat) : Prop :=
  v = st.lastWriter o ∨ v ∈ st.lastReaders o ∨ v ∈ st.lastDs o

/-- The invariant carried along the instruction loop of `Scheduler::init`.
`bound` is the id the next instruction will get, `qcc = qc + cc`. -/
structure BInv (qcc ct : Nat) (dur : Nat → Nat) (bound : Nat) (st : BuildSt) : Prop where
  writer_lt : ∀ o, st.lastWriter o < bound
  readers_lt : ∀ o, ∀ r ∈ st.lastReaders o, 1 ≤ r ∧ r < bound
  ds_lt : ∀ o, ∀ r ∈ st.lastDs o, 1 ≤ r ∧ r < bound
  oob : ∀ o, qcc ≤ o → st.lastWriter o = 0 ∧ st.lastReaders o = [] ∧ st.lastDs o = []
  edges_wf : ∀ e ∈ st.edges, e.src < e.tgt ∧ 1 ≤ e.tgt ∧ e.tgt < bound
  edges_w : ∀ e ∈ st.edges, e.weight = fweight (dur e.src) ct
  edges_in : ∀ e ∈ st.edges, e.src = 0 ∨ ∃ e2 ∈ st.edges, e2.tgt = e.src
  tracked_in : ∀ o, (st.lastWriter o ≠ 0 → ∃ e ∈ st.edges, e.tgt = st.lastWriter o)
    ∧ (∀ r ∈ st.lastReaders o, ∃ e ∈ st.edges, e.tgt = r)
    ∧ (∀ r ∈ st.lastDs o, ∃ e ∈ st.edges, e.tgt = r)
  has_out : ∀ v, (∃ e ∈ st.edges, e.src = v ∨ e.tgt = v) →
    (∃ e ∈ st.edges, e.src = v) ∨ ∃ o, o < qcc ∧ TrackedAt st o v

theorem foldl_edges_subset {α : Type} (f : List Edge → α → List Edge)
    (hf : ∀ a x, a ⊆ f a x) (L : List α) : ∀ es, es ⊆ L.foldl f es := by
  induction L with
  | nil => exact fun es x hx => hx
  | cons y ys ih => exact fun es x hx => ih _ (hf _ _ hx)

theorem foldl_edges_char {α : Type} (f : List Edge → α → List Edge) (P : α → Edge → Prop)
    (hf : ∀ a x e, e ∈ f a x → e ∈ a ∨ P x e) (L : List α) :
    ∀ es e, e ∈ L.foldl f es → e ∈ es ∨ ∃ x ∈ L, P x e := by
  induction L with
  | nil => exact fun es e he => Or.inl he
  | cons y ys ih =>
    intro es e he
    rcases ih _ _ he with h | h
    · rcases hf _ _ _ h with h2 | h2
      · exact Or.inl h2
      · exact Or.inr ⟨y, by simp, h2⟩
    · obtain ⟨x, hx, hp⟩ := h
      exact Or.inr ⟨x, by simp [hx], hp⟩

theorem foldl_edges_mem {α : Type} (f : List Edge → α → List Edge)
    (hmono : ∀ a x, a ⊆ f a x) {L : List α} {x : α} (hx : x ∈ L) (t : Edge)
    (ht : ∀ es, t ∈ f es x) : ∀ es, t ∈ L.foldl f es := by
  induction L with
  | nil => cases hx
  | cons y ys ih =>
    intro es
    rcases List.mem_cons.mp hx with h | h
    · subst h
      exact foldl_edges_subset f hmono ys _ (ht es)
    · exact ih h (f es y)

theorem clearW_edges (st : BuildSt) (cons : Nat) (L : List Nat) :
    (clearW st cons L).edges = st.edges := by
  induction L generalizing st with
  | nil => rfl
  | cons x xs ih => exact ih _

theorem clearW_writer (st : BuildSt) (cons : Nat) (L : List Nat) (o : Nat) :
    (clearW st cons L).lastWriter o = if o ∈ L then cons else st.lastWriter o := by
  induction L generalizing st with
  | nil => simp [clearW]
  | cons x xs ih =>
    show (clearW _ cons xs).lastWriter o = _
    rw [ih]
    by_cases h2 : o = x
    · subst h2
      by_cases h1 : o ∈ xs <;>
        simp [h1, List.mem_cons, Function.update_same]
    · by_cases h1 : o ∈ xs <;>
        simp [h1, h2, List.mem_cons, Function.update_noteq]

theorem clearW_readers (st : BuildSt) (cons : Nat) (L : List Nat) (o : Nat) :
    (clearW st cons L).lastReaders o = if o ∈ L then [] else st.lastReaders o := by
  induction L generalizing st with
  | nil => simp [clearW]
  | cons x xs ih =>
    show (clearW _ cons xs).lastReaders o = _
    rw [ih]
    by_cases h2 : o = x
    · subst h2
      by_cases h1 : o ∈ xs <;>
        simp [h1, List.mem_cons, Function.update_same]
    · by_cases h1 : o ∈ xs <;>
        simp [h1, h2, List.mem_cons, Function.update_noteq]

theorem clearW_ds (st : BuildSt) (cons : Nat) (L : List Nat) (o : Nat) :
    (clearW st cons L).lastDs o = if o ∈ L then [] else st.lastDs o := by
  induction L generalizing st with
  | nil => simp [clearW]
  | cons x xs ih =>
    show (clearW _ cons xs).lastDs o = _
    rw [ih]
    by_cases h2 : o = x
    · subst h2
      by_cases h1 : o ∈ xs <;>
        simp [h1, List.mem_cons, Function.update_same]
    · by_cases h1 : o ∈ xs <;>
        simp [h1, h2, List.mem_cons, Function.update_noteq]

theorem updWR_edges (st : BuildSt) (cons : Nat) (L : List Nat) :
    (updWR st cons L).edges = st.edges := by
  induction L generalizing st with
  | nil => rfl
  | cons x xs ih => exact ih _

theorem updWR_writer (st : BuildSt) (cons : Nat) (L : List Nat) (o : Nat) :
    (updWR st cons L).lastWriter o = if o ∈ L then cons else st.lastWriter o := by
  induction L generalizing st with
  | nil => simp [updWR]
  | cons x xs ih =>
    show (updWR _ cons xs).lastWriter o = _
    rw [ih]
    by_cases h2 : o = x
    · subst h2
      by_cases h1 : o ∈ xs <;>
        simp [h1, List.mem_cons, Function.update_same]
    · by_cases h1 : o ∈ xs <;>
        simp [h1, h2, List.mem_cons, Function.update_noteq]

theorem updWR_readers (st : BuildSt) (cons : Nat) (L : List Nat) (o : Nat) :
    (updWR st cons L).lastReaders o = if o ∈ L then [] else st.lastReaders o := by
  induction L generalizing st with
  | nil => simp [updWR]
  | cons x xs ih =>
    show (updWR _ cons xs).lastReaders o = _
    rw [ih]
    by_cases h2 : o = x
    · subst h2
      by_cases h1 : o ∈ xs <;>
        simp [h1, List.mem_cons, Function.update_same]
    · by_cases h1 : o ∈ xs <;>
        simp [h1, h2, List.mem_cons, Function.update_noteq]

theorem updWR_ds (st : BuildSt) (cons : Nat) (L : List Nat) (o : Nat) :
    (updWR st cons L).lastDs o = st.lastDs o := by
  induction L generalizing st with
  | nil => rfl
  | cons x xs ih =>
    show (updWR _ cons xs).lastDs o = _
    rw [ih]

/-- What every freshly emitted arc of the instruction at `cons` looks like:
it leaves a tracked access of some operand `op` and enters `cons`, with the
float weight of its source's duration. -/
def NewE (st : BuildSt) (ct : Nat) (dur : Nat → Nat) (cons op : Nat) (e : Edge) : Prop :=
  TrackedAt st op e.src ∧ e.tgt = cons ∧ e.weight = fweight (dur e.src) ct

theorem sub_emitW_NewE {ct dur st cons op es e} (he : e ∈ emitW ct dur st cons op es) :
    e ∈ es ∨ (NewE st ct dur cons op e ∧ e.dep ≠ DepType.RAR ∧ e.dep ≠ DepType.DAD) := by
  rcases sub_emitW he with h | ⟨h1, h2, h3, h4⟩
  · exact Or.inl h
  · refine Or.inr ⟨⟨h1, h2, h3⟩, ?_, ?_⟩ <;>
      rcases h4 with h4 | h4 | h4 <;> simp [h4]

theorem sub_emitWnoD {ct dur st cons op es e} (he : e ∈ emitWnoD ct dur st cons op es) :
    e ∈ es ∨ (NewE st ct dur cons op e ∧ e.dep ≠ DepType.RAR ∧ e.dep ≠ DepType.DAD) := by
  unfold emitWnoD at he
  rcases sub_add_deps he with h | h
  · rcases mem_add_dep.mp h with h2 | h2
    · exact Or.inl h2
    · subst h2
      exact Or.inr ⟨⟨Or.inl rfl, rfl, rfl⟩, by simp, by simp⟩
  · obtain ⟨r, hr, he2⟩ := h
    subst he2
    exact Or.inr ⟨⟨Or.inr (Or.inl hr), rfl, rfl⟩, by simp, by simp⟩

theorem emitWnoD_has_writer {ct dur st cons op es} :
    (⟨st.lastWriter op, cons, op, DepType.WAW, fweight (dur (st.lastWriter op)) ct⟩ : Edge)
      ∈ emitWnoD ct dur st cons op es :=
  subset_add_deps _ (mem_add_dep.mpr (Or.inr rfl))

theorem emitWnoD_has_reader {ct dur st cons op es r} (hr : r ∈ st.lastReaders op) :
    (⟨r, cons, op, DepType.WAR, fweight (dur r) ct⟩ : Edge) ∈ emitWnoD ct dur st cons op es :=
  mem_add_deps_of hr

theorem subset_emitWnoD {ct dur st cons op} (es : List Edge) :
    es ⊆ emitWnoD ct dur st cons op es :=
  fun _ hx => subset_add_deps _ (mem_add_dep.mpr (Or.inl hx))

theorem subset_cnotEmit {commute ct dur st cons io} (es : List Edge) :
    es ⊆ cnotEmit commute ct dur st cons io es := by
  intro x hx
  unfold cnotEmit
  by_cases h0 : io.1 = 0 <;> cases commute <;>
    simp only [h0, if_true, if_false, id, reduceIte] <;>
    first
      | exact subset_add_deps _ (subset_add_deps _ (mem_add_dep.mpr (Or.inl hx)))
      | exact subset_add_deps _ (mem_add_dep.mpr (Or.inl hx))

theorem sub_cnotEmit {commute ct dur st cons io es e}
    (he : e ∈ cnotEmit commute ct dur st cons io es) :
    e ∈ es ∨ (NewE st ct dur cons io.2 e
      ∧ (commute = true → e.dep ≠ DepType.RAR ∧ e.dep ≠ DepType.DAD)) := by
  unfold cnotEmit at he
  by_cases h0 : io.1 = 0 <;> cases commute <;>
    simp only [h0, if_true, if_false, id, reduceIte] at he
  case pos.false =>
    rcases sub_add_deps he with h | h
    · rcases sub_add_deps h with h2 | h2
      · rcases mem_add_dep.mp h2 with h3 | h3
        · exact Or.inl h3
        · subst h3
          exact Or.inr ⟨⟨Or.inl rfl, rfl, rfl⟩, by simp⟩
      · obtain ⟨r, hr, he2⟩ := h2
        subst he2
        exact Or.inr ⟨⟨Or.inr (Or.inl hr), rfl, rfl⟩, by simp⟩
    · obtain ⟨r, hr, he2⟩ := h
      subst he2
      exact Or.inr ⟨⟨Or.inr (Or.inr hr), rfl, rfl⟩, by simp⟩
  case pos.true =>
    rcases sub_add_deps he with h | h
    · rcases mem_add_dep.mp h with h3 | h3
      · exact Or.inl h3
      · subst h3
        exact Or.inr ⟨⟨Or.inl rfl, rfl, rfl⟩, by simp⟩
    · obtain ⟨r, hr, he2⟩ := h
      subst he2
      exact Or.inr ⟨⟨Or.inr (Or.inr hr), rfl, rfl⟩, by simp⟩
  case neg.false =>
    rcases sub_add_deps he with h | h
    · rcases sub_add_deps h with h2 | h2
      · rcases mem_add_dep.mp h2 with h3 | h3
        · exact Or.inl h3
        · subst h3
          exact Or.inr ⟨⟨Or.inl rfl, rfl, rfl⟩, by simp⟩
      · obtain ⟨r, hr, he2⟩ := h2
        subst he2
        exact Or.inr ⟨⟨Or.inr (Or.inr hr), rfl, rfl⟩, by simp⟩
    · obtain ⟨r, hr, he2⟩ := h
      subst he2
      exact Or.inr ⟨⟨Or.inr (Or.inl hr), rfl, rfl⟩, by simp⟩
  case neg.true =>
    rcases sub_add_deps he with h | h
    · rcases mem_add_dep.mp h with h3 | h3
      · exact Or.inl h3
      · subst h3
        exact Or.inr ⟨⟨Or.inl rfl, rfl, rfl⟩, by simp⟩
    · obtain ⟨r, hr, he2⟩ := h
      subst he2
      exact Or.inr ⟨⟨Or.inr (Or.inl hr), rfl, rfl⟩, by simp⟩

/-- The unguarded writer arc (RAW resp. DAW) of a cnot operand. -/
theorem cnotEmit_has_writer {commute ct dur st cons io es} :
    ∃ d, (⟨st.lastWriter io.2, cons, io.2, d, fweight (dur (st.lastWriter io.2)) ct⟩ : Edge)
      ∈ cnotEmit commute ct dur st cons io es := by
  unfold cnotEmit
  by_cases h0 : io.1 = 0 <;> cases commute <;>
    simp only [h0, if_true, if_false, id, reduceIte]
  case pos.false =>
    exact ⟨DepType.RAW, subset_add_deps _ (subset_add_deps _ (mem_add_dep.mpr (Or.inr rfl)))⟩
  case pos.true =>
    exact ⟨DepType.RAW, subset_add_deps _ (mem_add_dep.mpr (Or.inr rfl))⟩
  case neg.false =>
    exact ⟨DepType.DAW, subset_add_deps _ (subset_add_deps _ (mem_add_dep.mpr (Or.inr rfl)))⟩
  case neg.true =>
    exact ⟨DepType.DAW, subset_add_deps _ (mem_add_dep.mpr (Or.inr rfl))⟩

/-- The unguarded RAD arcs of a cnot's first operand. -/
theorem cnotEmit_has_d {commute ct dur st cons io es r} (h0 : io.1 = 0)
    (hr : r ∈ st.lastDs io.2) :
    (⟨r, cons, io.2, DepType.RAD, fweight (dur r) ct⟩ : Edge)
      ∈ cnotEmit commute ct dur st cons io es := by
  unfold cnotEmit
  simp only [h0, if_true, reduceIte]
  exact mem_add_deps_of hr

/-- The unguarded DAR arcs of a cnot's later operands. -/
theorem cnotEmit_has_reader {commute ct dur st cons io es r} (h0 : ¬io.1 = 0)
    (hr : r ∈ st.lastReaders io.2) :
    (⟨r, cons, io.2, DepType.DAR, fweight (dur r) ct⟩ : Edge)
      ∈ cnotEmit commute ct dur st cons io es := by
  unfold cnotEmit
  simp only [h0, if_false, reduceIte]
  exact mem_add_deps_of hr

theorem subset_czEmit {commute ct dur st cons op} (es : List Edge) :
    es ⊆ czEmit commute ct dur st cons op es := by
  intro x hx
  unfold czEmit
  cases commute <;> simp only [Bool.false_eq_true, if_false, if_true, id] <;>
    first
      | exact subset_add_deps _ (mem_add_dep.mpr (Or.inl (subset_add_deps _ hx)))
      | exact subset_add_deps _ (mem_add_dep.mpr (Or.inl hx))

theorem sub_czEmit {commute ct dur st cons op es e}
    (he : e ∈ czEmit commute ct dur st cons op es) :
    e ∈ es ∨ (NewE st ct dur cons op e
      ∧ (commute = true → e.dep ≠ DepType.RAR ∧ e.dep ≠ DepType.DAD)) := by
  unfold czEmit at he
  cases commute <;> simp only [Bool.false_eq_true, if_false, if_true, id] at he
  case false =>
    rcases sub_add_deps he with h | h
    · rcases mem_add_dep.mp h with h2 | h2
      · rcases sub_add_deps h2 with h3 | h3
        · exact Or.inl h3
        · obtain ⟨r, hr, he2⟩ := h3
          subst he2
          exact Or.inr ⟨⟨Or.inr (Or.inl hr), rfl, rfl⟩, by simp⟩
      · subst h2
        exact Or.inr ⟨⟨Or.inl rfl, rfl, rfl⟩, by simp⟩
    · obtain ⟨r, hr, he2⟩ := h
      subst he2
      exact Or.inr ⟨⟨Or.inr (Or.inr hr), rfl, rfl⟩, by simp⟩
  case true =>
    rcases sub_add_deps he with h | h
    · rcases mem_add_dep.mp h with h2 | h2
      · exact Or.inl h2
      · subst h2
        exact Or.inr ⟨⟨Or.inl rfl, rfl, rfl⟩, by simp⟩
    · obtain ⟨r, hr, he2⟩ := h
      subst he2
      exact Or.inr ⟨⟨Or.inr (Or.inr hr), rfl, rfl⟩, by simp⟩

theorem czEmit_has_writer {commute ct dur st cons op es} :
    (⟨st.lastWriter op, cons, op, DepType.RAW, fweight (dur (st.lastWriter op)) ct⟩ : Edge)
      ∈ czEmit commute ct dur st cons op es := by
  unfold czEmit
  exact subset_add_deps _ (mem_add_dep.mpr (Or.inr rfl))

theorem czEmit_has_d {commute ct dur st cons op es r} (hr : r ∈ st.lastDs op) :
    (⟨r, cons, op, DepType.RAD, fweight (dur r) ct⟩ : Edge)
      ∈ czEmit commute ct dur st cons op es := by
  unfold czEmit
  exact mem_add_deps_of hr

section WStep

variable {qcc ct : Nat} {dur : Nat → Nat} {cons : Nat} {st : BuildSt}

theorem tracked_lt (hinv : BInv qcc ct dur cons st) :
    ∀ op v, TrackedAt st op v → v < cons := by
  rintro op v (h | h | h)
  · exact h ▸ hinv.writer_lt op
  · exact (hinv.readers_lt op v h).2
  · exact (hinv.ds_lt op v h).2

theorem tracked_in_edges (hinv : BInv qcc ct dur cons st) :
    ∀ op v, TrackedAt st op v → v = 0 ∨ ∃ e ∈ st.edges, e.tgt = v := by
  rintro op v (h | h | h)
  · rcases Nat.eq_zero_or_pos v with h0 | h0
    · exact Or.inl h0
    · exact Or.inr (h ▸ (hinv.tracked_in op).1 (by omega))
  · exact Or.inr ((hinv.tracked_in op).2.1 v h)
  · exact Or.inr ((hinv.tracked_in op).2.2 v h)

/-- `BInv` is monotone in the id bound. -/
theorem BInv_mono {qcc ct : Nat} {dur : Nat → Nat} {b b2 : Nat} {st : BuildSt}
    (h : b ≤ b2) (hinv : BInv qcc ct dur b st) : BInv qcc ct dur b2 st := by
  refine ⟨?_, ?_, ?_, hinv.oob, ?_, hinv.edges_w, hinv.edges_in, hinv.tracked_in, hinv.has_out⟩
  · exact fun o => lt_of_lt_of_le (hinv.writer_lt o) h
  · intro o r hr
    have := hinv.readers_lt o r hr
    omega
  · intro o r hr
    have := hinv.ds_lt o r hr
    omega
  · intro e he
    have := hinv.edges_wf e he
    omega

/-- Preservation of `BInv` by a W-style instruction: full W events (emission
and update) on the operands of `L1`, and measure-creg style W events (no WAD
arcs, `LastDs` untouched) on those of `L2`. -/
theorem BInv_Wstep (hinv : BInv qcc ct dur (cons + 1) st) (hc : 1 ≤ cons)
    (L1 L2 : List Nat) (h1 : ∀ o ∈ L1, o < qcc) (h2 : ∀ o ∈ L2, o < qcc)
    (htr1 : ∀ o ∈ L1, ∀ v, TrackedAt st o v → v < cons)
    (htr2 : ∀ o ∈ L2, ∀ v, TrackedAt st o v → v < cons) :
    BInv qcc ct dur (cons + 1)
      (updWR (clearW { st with edges :=
          (L2.foldl (fun a op => emitWnoD ct dur st cons op a)
            (L1.foldl (fun a op => emitW ct dur st cons op a) st.edges)) } cons L1) cons L2) := by
  set es1 := L1.foldl (fun a op => emitW ct dur st cons op a) st.edges with hes1
  set es2 := L2.foldl (fun a op => emitWnoD ct dur st cons op a) es1 with hes2
  set st' := updWR (clearW { st with edges := es2 } cons L1) cons L2 with hst
  have hsub1 : st.edges ⊆ es1 := foldl_edges_subset _ (fun a x => subset_emitW a) L1 _
  have hsub2 : es1 ⊆ es2 := foldl_edges_subset _ (fun a x => subset_emitWnoD a) L2 _
  have hsub : st.edges ⊆ es2 := fun e he => hsub2 (hsub1 he)
  have hchar : ∀ e ∈ es2, e ∈ st.edges ∨ ∃ op, (op ∈ L1 ∨ op ∈ L2) ∧ NewE st ct dur cons op e := by
    intro e he
    rcases foldl_edges_char _ (fun op e => NewE st ct dur cons op e)
        (fun a x e h => (sub_emitWnoD h).imp_right And.left) L2 _ _ he with h | h
    · rcases foldl_edges_char _ (fun op e => NewE st ct dur cons op e)
          (fun a x e h => (sub_emitW_NewE h).imp_right And.left) L1 _ _ h with h2 | h2
      · exact Or.inl h2
      · obtain ⟨op, hop, hne⟩ := h2
        exact Or.inr ⟨op, Or.inl hop, hne⟩
    · obtain ⟨op, hop, hne⟩ := h
      exact Or.inr ⟨op, Or.inr hop, hne⟩
  have hW : ∀ o, st'.lastWriter o
      = if o ∈ L2 then cons else if o ∈ L1 then cons else st.lastWriter o := by
    intro o
    rw [hst, updWR_writer, clearW_writer]
  have hR : ∀ o, st'.lastReaders o
      = if o ∈ L2 then [] else if o ∈ L1 then [] else st.lastReaders o := by
    intro o
    rw [hst, updWR_readers, clearW_readers]
  have hD : ∀ o, st'.lastDs o = if o ∈ L1 then [] else st.lastDs o := by
    intro o
    rw [hst, updWR_ds, clearW_ds]
  have hE : st'.edges = es2 := by
    rw [hst, updWR_edges, clearW_edges]
  -- the writer arc targeted at `cons` exists whenever some operand was processed
  have hconsL1 : ∀ op ∈ L1, ∃ e ∈ es2, e.tgt = cons := by
    intro op hop
    refine ⟨⟨st.lastWriter op, cons, op, DepType.WAW, fweight (dur (st.lastWriter op)) ct⟩, ?_, rfl⟩
    exact hsub2 (foldl_edges_mem (fun a op2 => emitW ct dur st cons op2 a) (fun a x => subset_emitW a) hop _
      (fun es => emitW_has_writer) st.edges)
  have hconsL2 : ∀ op ∈ L2, ∃ e ∈ es2, e.tgt = cons := by
    intro op hop
    refine ⟨⟨st.lastWriter op, cons, op, DepType.WAW, fweight (dur (st.lastWriter op)) ct⟩, ?_, rfl⟩
    exact foldl_edges_mem (fun a op2 => emitWnoD ct dur st cons op2 a) (fun a x => subset_emitWnoD a) hop _
      (fun es => emitWnoD_has_writer) es1
  refine ⟨?_, ?_, ?_, ?_, ?_, ?_, ?_, ?_, ?_⟩
  · -- writer_lt
    intro o
    rw [hW]
    split
    · omega
    · split
      · omega
      · exact hinv.writer_lt o
  · -- readers_lt
    intro o r hr
    rw [hR] at hr
    split at hr
    · cases hr
    · split at hr
      · cases hr
      · have := hinv.readers_lt o r hr
        omega
  · -- ds_lt
    intro o r hr
    rw [hD] at hr
    split at hr
    · cases hr
    · have := hinv.ds_lt o r hr
      omega
  · -- oob
    intro o ho
    have ho1 : o ∉ L1 := fun h => absurd (h1 o h) (by omega)
    have ho2 : o ∉ L2 := fun h => absurd (h2 o h) (by omega)
    rw [hW, hR, hD, if_neg ho2, if_neg ho1, if_neg ho2, if_neg ho1, if_neg ho1]
    exact hinv.oob o ho
  · -- edges_wf
    intro e he
    rw [hE] at he
    rcases hchar e he with h | ⟨op, hop, hne⟩
    · have := hinv.edges_wf e h
      omega
    · have hlt : e.src < cons := by
        rcases hop with hop | hop
        · exact htr1 op hop e.src hne.1
        · exact htr2 op hop e.src hne.1
      have htc := hne.2.1
      omega
  · -- edges_w
    intro e he
    rw [hE] at he
    rcases hchar e he with h | ⟨op, _, hne⟩
    · exact hinv.edges_w e h
    · exact hne.2.2
  · -- edges_in
    intro e he
    rw [hE] at he
    rcases hchar e he with h | ⟨op, _, hne⟩
    · rcases hinv.edges_in e h with h2 | ⟨e2, he2, ht2⟩
      · exact Or.inl h2
      · exact Or.inr ⟨e2, hE ▸ hsub he2, ht2⟩
    · rcases tracked_in_edges hinv op e.src hne.1 with h2 | ⟨e2, he2, ht2⟩
      · exact Or.inl h2
      · exact Or.inr ⟨e2, hE ▸ hsub he2, ht2⟩
  · -- tracked_in
    intro o
    refine ⟨?_, ?_, ?_⟩
    · intro hne
      rw [hE, hW]
      rw [hW] at hne
      by_cases hm2 : o ∈ L2
      · rw [if_pos hm2]
        exact hconsL2 o hm2
      · rw [if_neg hm2] at hne ⊢
        by_cases hm1 : o ∈ L1
        · rw [if_pos hm1]
          exact hconsL1 o hm1
        · rw [if_neg hm1] at hne ⊢
          obtain ⟨e, he, ht⟩ := (hinv.tracked_in o).1 hne
          exact ⟨e, hsub he, ht⟩
    · intro r hr
      rw [hR] at hr
      rw [hE]
      split at hr
      · cases hr
      · split at hr
        · cases hr
        · obtain ⟨e, he, ht⟩ := (hinv.tracked_in o).2.1 r hr
          exact ⟨e, hsub he, ht⟩
    · intro r hr
      rw [hD] at hr
      rw [hE]
      split at hr
      · cases hr
      · obtain ⟨e, he, ht⟩ := (hinv.tracked_in o).2.2 r hr
        exact ⟨e, hsub he, ht⟩
  · -- has_out
    intro v hv
    rw [hE] at hv
    obtain ⟨e, he, hsv⟩ := hv
    rcases hchar e he with hold | ⟨op, hmem, hne⟩
    · rcases hinv.has_out v ⟨e, hold, hsv⟩ with ⟨e2, he2, hs2⟩ | ⟨o, ho, htr⟩
      · refine Or.inl ⟨e2, ?_, hs2⟩
        rw [hE]
        exact hsub he2
      · rcases htr with hw | hr | hd
        · by_cases hL1 : o ∈ L1
          · refine Or.inl ⟨⟨st.lastWriter o, cons, o, DepType.WAW,
                fweight (dur (st.lastWriter o)) ct⟩, ?_, hw.symm⟩
            rw [hE]
            exact hsub2 (foldl_edges_mem (fun a op2 => emitW ct dur st cons op2 a)
              (fun a x => subset_emitW a) hL1 _ (fun es => emitW_has_writer) st.edges)
          · by_cases hL2 : o ∈ L2
            · refine Or.inl ⟨⟨st.lastWriter o, cons, o, DepType.WAW,
                  fweight (dur (st.lastWriter o)) ct⟩, ?_, hw.symm⟩
              rw [hE]
              exact foldl_edges_mem (fun a op2 => emitWnoD ct dur st cons op2 a)
                (fun a x => subset_emitWnoD a) hL2 _ (fun es => emitWnoD_has_writer) es1
            · refine Or.inr ⟨o, ho, Or.inl ?_⟩
              rw [hW, if_neg hL2, if_neg hL1]
              exact hw
        · by_cases hL1 : o ∈ L1
          · refine Or.inl ⟨⟨v, cons, o, DepType.WAR, fweight (dur v) ct⟩, ?_, rfl⟩
            rw [hE]
            exact hsub2 (foldl_edges_mem (fun a op2 => emitW ct dur st cons op2 a)
              (fun a x => subset_emitW a) hL1 _ (fun es => emitW_has_reader hr) st.edges)
          · by_cases hL2 : o ∈ L2
            · refine Or.inl ⟨⟨v, cons, o, DepType.WAR, fweight (dur v) ct⟩, ?_, rfl⟩
              rw [hE]
              exact foldl_edges_mem (fun a op2 => emitWnoD ct dur st cons op2 a)
                (fun a x => subset_emitWnoD a) hL2 _ (fun es => emitWnoD_has_reader hr) es1
            · refine Or.inr ⟨o, ho, Or.inr (Or.inl ?_)⟩
              rw [hR, if_neg hL2, if_neg hL1]
              exact hr
        · by_cases hL1 : o ∈ L1
          · refine Or.inl ⟨⟨v, cons, o, DepType.WAD, fweight (dur v) ct⟩, ?_, rfl⟩
            rw [hE]
            exact hsub2 (foldl_edges_mem (fun a op2 => emitW ct dur st cons op2 a)
              (fun a x => subset_emitW a) hL1 _ (fun es => emitW_has_d hd) st.edges)
          · refine Or.inr ⟨o, ho, Or.inr (Or.inr ?_)⟩
            rw [hD, if_neg hL1]
            exact hd
    · rcases hsv with hs | ht
      · refine Or.inl ⟨e, ?_, hs⟩
        rw [hE]
        exact he
      · have hvc : v = cons := by
          rw [← ht, hne.2.1]
        subst hvc
        rcases hmem with hL1 | hL2
        · refine Or.inr ⟨op, h1 op hL1, Or.inl ?_⟩
          rw [hW]
          by_cases hm2 : op ∈ L2
          · rw [if_pos hm2]
          · rw [if_neg hm2, if_pos hL1]
        · refine Or.inr ⟨op, h2 op hL2, Or.inl ?_⟩
          rw [hW, if_pos hL2]

theorem BInv_genericStep (hinv : BInv qcc ct dur (cons + 1) st) (hc : 1 ≤ cons)
    {op : Nat} (hop : op < qcc) (htr : ∀ v, TrackedAt st op v → v < cons) :
    BInv qcc ct dur (cons + 1) (genericStep ct dur cons st op) := by
  have h := BInv_Wstep hinv hc [op] [] (by simpa using hop) (by simp)
    (by
      intro o ho v hv
      rcases List.mem_singleton.mp ho with rfl
      exact htr v hv)
    (by simp)
  exact h

theorem genericStep_untouched {s : BuildSt} {op o : Nat} (h : o ≠ op) :
    (genericStep ct dur cons s op).lastWriter o = s.lastWriter o
    ∧ (genericStep ct dur cons s op).lastReaders o = s.lastReaders o
    ∧ (genericStep ct dur cons s op).lastDs o = s.lastDs o := by
  unfold genericStep
  rw [clearW_writer, clearW_readers, clearW_ds]
  simp [h]

theorem BInv_generic_fold (hc : 1 ≤ cons) :
    ∀ (L : List Nat) (s : BuildSt),
    BInv qcc ct dur (cons + 1) s → (∀ o ∈ L, o < qcc) → L.Nodup →
    (∀ o ∈ L, ∀ v, TrackedAt s o v → v < cons) →
    BInv qcc ct dur (cons + 1) (L.foldl (genericStep ct dur cons) s)
    ∧ ∀ o, o ∉ L →
        (L.foldl (genericStep ct dur cons) s).lastWriter o = s.lastWriter o
        ∧ (L.foldl (genericStep ct dur cons) s).lastReaders o = s.lastReaders o
        ∧ (L.foldl (genericStep ct dur cons) s).lastDs o = s.lastDs o := by
  intro L
  induction L with
  | nil =>
    intro s h _ _ _
    exact ⟨h, fun o _ => ⟨rfl, rfl, rfl⟩⟩
  | cons x xs ih =>
    intro s hinv hq hnd htr
    have hstep := BInv_genericStep hinv hc (hq x (by simp)) (htr x (by simp))
    have hxs : ∀ o ∈ xs, ∀ v, TrackedAt (genericStep ct dur cons s x) o v → v < cons := by
      intro o ho v hv
      have hne : o ≠ x := by
        rintro rfl
        exact (List.nodup_cons.mp hnd).1 ho
      obtain ⟨hw, hr, hd⟩ := genericStep_untouched (s := s) hne
      apply htr o (by simp [ho]) v
      unfold TrackedAt at hv ⊢
      rw [hw, hr, hd] at hv
      exact hv
    obtain ⟨hb, hu⟩ := ih (genericStep ct dur cons s x) hstep
        (fun o ho => hq o (by simp [ho])) (List.nodup_cons.mp hnd).2 hxs
    refine ⟨hb, ?_⟩
    intro o ho
    simp only [List.foldl_cons]
    have ho1 : o ∉ xs := fun h => ho (by simp [h])
    have ho2 : o ≠ x := fun h => ho (by simp [h])
    obtain ⟨u1, u2, u3⟩ := hu o ho1
    obtain ⟨w1, w2, w3⟩ := genericStep_untouched (s := s) ho2
    exact ⟨by rw [u1, w1], by rw [u2, w2], by rw [u3, w3]⟩

end WStep

/-! ### The cnot / cz update folds

These two branches first emit all arcs of the instruction from the entry
bookkeeping, then fold an update over the operands.  `CJ` is the invariant
carried over the update fold. -/

/-- Invariant of the cnot/cz bookkeeping update fold: `st` is the entry
state, `es1` the arcs after this instruction's emission phase, `touched`
the operand indices this instruction may update. -/
structure CJ (st : BuildSt) (es1 : List Edge) (cons qcc : Nat) (touched : List Nat)
    (s : BuildSt) : Prop where
  edges_eq : s.edges = es1
  writer_eq : ∀ o, s.lastWriter o = st.lastWriter o
  readers_sub : ∀ o r, r ∈ s.lastReaders o → r ∈ st.lastReaders o ∨ r = cons
  ds_sub : ∀ o r, r ∈ s.lastDs o → r ∈ st.lastDs o ∨ r = cons
  untouched : ∀ o, o ∉ touched → s.lastReaders o = st.lastReaders o ∧ s.lastDs o = st.lastDs o
  track_out : ∀ v o, o < qcc → TrackedAt st o v →
    (∃ o2, o2 < qcc ∧ TrackedAt s o2 v) ∨ ∃ e ∈ es1, e.src = v

/-- `cons` is recorded as reader or D somewhere in range. -/
def ConsTracked (cons qcc : Nat) (s : BuildSt) : Prop :=
  ∃ o, o < qcc ∧ (cons ∈ s.lastReaders o ∨ cons ∈ s.lastDs o)

theorem CJ_start {st : BuildSt} {es1 : List Edge} {cons qcc : Nat} {touched : List Nat} :
    CJ st es1 cons qcc touched { st with edges := es1 } := by
  refine ⟨rfl, fun o => rfl, ?_, ?_, fun o _ => ⟨rfl, rfl⟩, ?_⟩
  · exact fun o r hr => Or.inl hr
  · exact fun o r hr => Or.inl hr
  · intro v o ho htr
    exact Or.inl ⟨o, ho, htr⟩

theorem cnotUpd_edges {cons : Nat} {s : BuildSt} {io : Nat × Nat} :
    (cnotUpd cons s io).edges = s.edges := by
  unfold cnotUpd
  split <;> rfl

theorem cnotUpd_writer {cons : Nat} {s : BuildSt} {io : Nat × Nat} :
    (cnotUpd cons s io).lastWriter = s.lastWriter := by
  unfold cnotUpd
  split <;> rfl

theorem cnotUpd_readers0 {cons : Nat} {s : BuildSt} {io : Nat × Nat} (h0 : io.1 = 0) :
    (cnotUpd cons s io).lastReaders
      = Function.update s.lastReaders io.2 (s.lastReaders io.2 ++ [cons]) := by
  unfold cnotUpd
  rw [if_pos h0]

theorem cnotUpd_ds0 {cons : Nat} {s : BuildSt} {io : Nat × Nat} (h0 : io.1 = 0) :
    (cnotUpd cons s io).lastDs = Function.update s.lastDs io.2 [] := by
  unfold cnotUpd
  rw [if_pos h0]

theorem cnotUpd_readers1 {cons : Nat} {s : BuildSt} {io : Nat × Nat} (h0 : ¬io.1 = 0) :
    (cnotUpd cons s io).lastReaders = Function.update s.lastReaders io.2 [] := by
  unfold cnotUpd
  rw [if_neg h0]

theorem cnotUpd_ds1 {cons : Nat} {s : BuildSt} {io : Nat × Nat} (h0 : ¬io.1 = 0) :
    (cnotUpd cons s io).lastDs
      = Function.update s.lastDs io.2 (s.lastDs io.2 ++ [cons]) := by
  unfold cnotUpd
  rw [if_neg h0]

theorem cnotUpd_step {st : BuildSt} {es1 : List Edge} {cons qcc : Nat} {touched : List Nat}
    {s : BuildSt} {io : Nat × Nat}
    (hj : CJ st es1 cons qcc touched s)
    (hmem : io.2 ∈ touched) (hq : io.2 < qcc)
    (hOutD : io.1 = 0 → ∀ r ∈ st.lastDs io.2, ∃ e ∈ es1, e.src = r)
    (hOutR : io.1 ≠ 0 → ∀ r ∈ st.lastReaders io.2, ∃ e ∈ es1, e.src = r) :
    CJ st es1 cons qcc touched (cnotUpd cons s io)
    ∧ ConsTracked cons qcc (cnotUpd cons s io) := by
  by_cases h0 : io.1 = 0
  · constructor
    · refine ⟨cnotUpd_edges.trans hj.edges_eq,
        fun o => (congrFun cnotUpd_writer o).trans (hj.writer_eq o), ?_, ?_, ?_, ?_⟩
      · intro o r hr
        rw [cnotUpd_readers0 h0] at hr
        by_cases ho : o = io.2
        · subst ho
          rw [Function.update_same] at hr
          rcases List.mem_append.mp hr with h | h
          · exact hj.readers_sub io.2 r h
          · exact Or.inr (List.mem_singleton.mp h)
        · rw [Function.update_noteq ho] at hr
          exact hj.readers_sub o r hr
      · intro o r hr
        rw [cnotUpd_ds0 h0] at hr
        by_cases ho : o = io.2
        · subst ho
          rw [Function.update_same] at hr
          cases hr
        · rw [Function.update_noteq ho] at hr
          exact hj.ds_sub o r hr
      · intro o ho
        have hne : o ≠ io.2 := fun h => ho (h ▸ hmem)
        rw [cnotUpd_readers0 h0, cnotUpd_ds0 h0, Function.update_noteq hne,
          Function.update_noteq hne]
        exact hj.untouched o ho
      · intro v o ho htr
        rcases hj.track_out v o ho htr with ⟨o2, ho2, htr2⟩ | hout
        · by_cases hne : o2 = io.2
          · subst hne
            rcases htr2 with hw | hr | hd
            · refine Or.inl ⟨io.2, ho2, Or.inl ?_⟩
              rw [hw, cnotUpd_writer]
            · refine Or.inl ⟨io.2, ho2, Or.inr (Or.inl ?_)⟩
              rw [cnotUpd_readers0 h0, Function.update_same]
              exact List.mem_append.mpr (Or.inl hr)
            · rcases hj.ds_sub io.2 v hd with h | h
              · exact Or.inr (hOutD h0 v h)
              · refine Or.inl ⟨io.2, ho2, Or.inr (Or.inl ?_)⟩
                rw [cnotUpd_readers0 h0, Function.update_same, h]
                exact List.mem_append.mpr (Or.inr (by simp))
          · refine Or.inl ⟨o2, ho2, ?_⟩
            unfold TrackedAt at htr2 ⊢
            rw [cnotUpd_readers0 h0, cnotUpd_ds0 h0, cnotUpd_writer,
              Function.update_noteq hne, Function.update_noteq hne]
            exact htr2
        · exact Or.inr hout
    · refine ⟨io.2, hq, Or.inl ?_⟩
      rw [cnotUpd_readers0 h0, Function.update_same]
      exact List.mem_append.mpr (Or.inr (by simp))
  · constructor
    · refine ⟨cnotUpd_edges.trans hj.edges_eq,
        fun o => (congrFun cnotUpd_writer o).trans (hj.writer_eq o), ?_, ?_, ?_, ?_⟩
      · intro o r hr
        rw [cnotUpd_readers1 h0] at hr
        by_cases ho : o = io.2
        · subst ho
          rw [Function.update_same] at hr
          cases hr
        · rw [Function.update_noteq ho] at hr
          exact hj.readers_sub o r hr
      · intro o r hr
        rw [cnotUpd_ds1 h0] at hr
        by_cases ho : o = io.2
        · subst ho
          rw [Function.update_same] at hr
          rcases List.mem_append.mp hr with h | h
          · exact hj.ds_sub io.2 r h
          · exact Or.inr (List.mem_singleton.mp h)
        · rw [Function.update_noteq ho] at hr
          exact hj.ds_sub o r hr
      · intro o ho
        have hne : o ≠ io.2 := fun h => ho (h ▸ hmem)
        rw [cnotUpd_readers1 h0, cnotUpd_ds1 h0, Function.update_noteq hne,
          Function.update_noteq hne]
        exact hj.untouched o ho
      · intro v o ho htr
        rcases hj.track_out v o ho htr with ⟨o2, ho2, htr2⟩ | hout
        · by_cases hne : o2 = io.2
          · subst hne
            rcases htr2 with hw | hr | hd
            · refine Or.inl ⟨io.2, ho2, Or.inl ?_⟩
              rw [hw, cnotUpd_writer]
            · rcases hj.readers_sub io.2 v hr with h | h
              · exact Or.inr (hOutR h0 v h)
              · refine Or.inl ⟨io.2, ho2, Or.inr (Or.inr ?_)⟩
                rw [cnotUpd_ds1 h0, Function.update_same, h]
                exact List.mem_append.mpr (Or.inr (by simp))
            · refine Or.inl ⟨io.2, ho2, Or.inr (Or.inr ?_)⟩
              rw [cnotUpd_ds1 h0, Function.update_same]
              exact List.mem_append.mpr (Or.inl hd)
          · refine Or.inl ⟨o2, ho2, ?_⟩
            unfold TrackedAt at htr2 ⊢
            rw [cnotUpd_readers1 h0, cnotUpd_ds1 h0, cnotUpd_writer,
              Function.update_noteq hne, Function.update_noteq hne]
            exact htr2
        · exact Or.inr hout
    · refine ⟨io.2, hq, Or.inr ?_⟩
      rw [cnotUpd_ds1 h0, Function.update_same]
      exact List.mem_append.mpr (Or.inr (by simp))

theorem cnotUpd_fold {st : BuildSt} {es1 : List Edge} {cons qcc : Nat} (touched : List Nat) :
    ∀ (l : List (Nat × Nat)) (s : BuildSt), CJ st es1 cons qcc touched s →
    (∀ io ∈ l, io.2 ∈ touched ∧ io.2 < qcc
      ∧ (io.1 = 0 → ∀ r ∈ st.lastDs io.2, ∃ e ∈ es1, e.src = r)
      ∧ (io.1 ≠ 0 → ∀ r ∈ st.lastReaders io.2, ∃ e ∈ es1, e.src = r)) →
    CJ st es1 cons qcc touched (l.foldl (cnotUpd cons) s)
    ∧ (l ≠ [] → ConsTracked cons qcc (l.foldl (cnotUpd cons) s)) := by
  intro l
  induction l with
  | nil => exact fun s hj _ => ⟨hj, fun h => absurd rfl h⟩
  | cons io rest ih =>
    intro s hj hfacts
    obtain ⟨hm, hq, hd, hr⟩ := hfacts io (by simp)
    obtain ⟨hj2, hct⟩ := cnotUpd_step hj hm hq hd hr
    obtain ⟨hj3, hct3⟩ := ih (cnotUpd cons s io) hj2 (fun io2 h => hfacts io2 (by simp [h]))
    refine ⟨hj3, fun _ => ?_⟩
    rcases List.eq_nil_or_concat rest with hrest | _
    · subst hrest
      exact hct
    · -- rest nonempty would also do, but we argue directly by cases on rest
      cases rest with
      | nil => exact hct
      | cons a b => exact hct3 (by simp)

theorem consTracked_trackedAt {cons qcc : Nat} {s : BuildSt}
    (h : ConsTracked cons qcc s) : ∃ o, o < qcc ∧ TrackedAt s o cons := by
  obtain ⟨o, ho, h2⟩ := h
  rcases h2 with h2 | h2
  · exact ⟨o, ho, Or.inr (Or.inl h2)⟩
  · exact ⟨o, ho, Or.inr (Or.inr h2)⟩

/-- Restatement of the unguarded writer arc of a cnot operand with the
dependence kind chosen uniformly in the emitted-into list. -/
theorem cnotEmit_has_writer2 {commute : Bool} {ct : Nat} {dur : Nat → Nat} {st : BuildSt}
    {cons : Nat} {io : Nat × Nat} :
    ∃ d, ∀ es, (⟨st.lastWriter io.2, cons, io.2, d, fweight (dur (st.lastWriter io.2)) ct⟩ : Edge)
      ∈ cnotEmit commute ct dur st cons io es := by
  by_cases h0 : io.1 = 0
  · refine ⟨DepType.RAW, fun es => ?_⟩
    unfold cnotEmit
    rw [if_pos h0]
    cases commute
    · exact subset_add_deps _ (subset_add_deps _ (mem_add_dep.mpr (Or.inr rfl)))
    · exact subset_add_deps _ (mem_add_dep.mpr (Or.inr rfl))
  · refine ⟨DepType.DAW, fun es => ?_⟩
    unfold cnotEmit
    rw [if_neg h0]
    cases commute
    · exact subset_add_deps _ (subset_add_deps _ (mem_add_dep.mpr (Or.inr rfl)))
    · exact subset_add_deps _ (mem_add_dep.mpr (Or.inr rfl))

theorem czUpd_eq_cnotUpd {cons : Nat} {s : BuildSt} {op : Nat} :
    czUpd cons s op = cnotUpd cons s (0, op) := rfl

theorem foldl_czUpd {cons : Nat} (L : List Nat) (s : BuildSt) :
    L.foldl (czUpd cons) s = (L.map (fun o => ((0 : Nat), o))).foldl (cnotUpd cons) s := by
  rw [List.foldl_map]
  rfl

/-- Assemble `BInv` after a cnot/cz-style instruction from the update-fold
invariant `CJ`, given the emission-phase facts. -/
theorem BInv_from_CJ {qcc ct : Nat} {dur : Nat → Nat} {cons : Nat} {st stF : BuildSt}
    {es1 : List Edge} {touched : List Nat}
    (hinv : BInv qcc ct dur cons st) (hc : 1 ≤ cons)
    (hj : CJ st es1 cons qcc touched stF)
    (hsub : st.edges ⊆ es1)
    (hchar : ∀ e ∈ es1, e ∈ st.edges ∨ ∃ op, NewE st ct dur cons op e)
    (hcons : ∃ e ∈ es1, e.tgt = cons)
    (htouch : ∀ o ∈ touched, o < qcc)
    (hCT : ConsTracked cons qcc stF) :
    BInv qcc ct dur (cons + 1) stF := by
  refine ⟨?_, ?_, ?_, ?_, ?_, ?_, ?_, ?_, ?_⟩
  · intro o
    rw [hj.writer_eq o]
    exact lt_trans (hinv.writer_lt o) (by omega)
  · intro o r hr
    rcases hj.readers_sub o r hr with h | h
    · have := hinv.readers_lt o r h
      omega
    · omega
  · intro o r hr
    rcases hj.ds_sub o r hr with h | h
    · have := hinv.ds_lt o r h
      omega
    · omega
  · intro o ho
    have hnt : o ∉ touched := by
      intro h
      have := htouch o h
      omega
    obtain ⟨h1, h2⟩ := hj.untouched o hnt
    rw [hj.writer_eq o, h1, h2]
    exact hinv.oob o ho
  · intro e he
    rw [hj.edges_eq] at he
    rcases hchar e he with h | ⟨op, hne⟩
    · have := hinv.edges_wf e h
      omega
    · have := tracked_lt hinv op e.src hne.1
      have := hne.2.1
      omega
  · intro e he
    rw [hj.edges_eq] at he
    rcases hchar e he with h | ⟨op, hne⟩
    · exact hinv.edges_w e h
    · exact hne.2.2
  · intro e he
    rw [hj.edges_eq] at he
    rcases hchar e he with h | ⟨op, hne⟩
    · rcases hinv.edges_in e h with h2 | ⟨e2, he2, ht2⟩
      · exact Or.inl h2
      · refine Or.inr ⟨e2, ?_, ht2⟩
        rw [hj.edges_eq]
        exact hsub he2
    · rcases tracked_in_edges hinv op e.src hne.1 with h2 | ⟨e2, he2, ht2⟩
      · exact Or.inl h2
      · refine Or.inr ⟨e2, ?_, ht2⟩
        rw [hj.edges_eq]
        exact hsub he2
  · intro o
    refine ⟨?_, ?_, ?_⟩
    · intro hne
      rw [hj.writer_eq o] at hne ⊢
      obtain ⟨e, he, ht⟩ := (hinv.tracked_in o).1 hne
      refine ⟨e, ?_, ht⟩
      rw [hj.edges_eq]
      exact hsub he
    · intro r hr
      rcases hj.readers_sub o r hr with h | h
      · obtain ⟨e, he, ht⟩ := (hinv.tracked_in o).2.1 r h
        refine ⟨e, ?_, ht⟩
        rw [hj.edges_eq]
        exact hsub he
      · subst h
        obtain ⟨e, he, ht⟩ := hcons
        refine ⟨e, ?_, ht⟩
        rw [hj.edges_eq]
        exact he
    · intro r hr
      rcases hj.ds_sub o r hr with h | h
      · obtain ⟨e, he, ht⟩ := (hinv.tracked_in o).2.2 r h
        refine ⟨e, ?_, ht⟩
        rw [hj.edges_eq]
        exact hsub he
      · subst h
        obtain ⟨e, he, ht⟩ := hcons
        refine ⟨e, ?_, ht⟩
        rw [hj.edges_eq]
        exact he
  · intro v hv
    obtain ⟨e, he, hsv⟩ := hv
    rw [hj.edges_eq] at he
    rcases hchar e he with hold | ⟨op, hne⟩
    · rcases hinv.has_out v ⟨e, hold, hsv⟩ with ⟨e2, he2, hs2⟩ | ⟨o, ho, htr⟩
      · refine Or.inl ⟨e2, ?_, hs2⟩
        rw [hj.edges_eq]
        exact hsub he2
      · rcases hj.track_out v o ho htr with ⟨o2, ho2, htr2⟩ | ⟨e2, he2, hs2⟩
        · exact Or.inr ⟨o2, ho2, htr2⟩
        · refine Or.inl ⟨e2, ?_, hs2⟩
          rw [hj.edges_eq]
          exact he2
    · rcases hsv with hs | ht
      · refine Or.inl ⟨e, ?_, hs⟩
        rw [hj.edges_eq]
        exact he
      · have hvc : v = cons := by rw [← ht, hne.2.1]
        subst hvc
        obtain ⟨o, ho, htr⟩ := consTracked_trackedAt hCT
        exact Or.inr ⟨o, ho, htr⟩

theorem BInv_cnot {qcc ct : Nat} {dur : Nat → Nat} {cons : Nat} {st : BuildSt}
    (hinv : BInv qcc ct dur cons st) (hc : 1 ≤ cons)
    (ios : List (Nat × Nat)) (hq : ∀ io ∈ ios, io.2 < qcc) (commute : Bool) :
    BInv qcc ct dur (cons + 1)
      (ios.foldl (cnotUpd cons)
        { st with edges := ios.foldl (fun a io => cnotEmit commute ct dur st cons io a) st.edges }) := by
  rcases hios : ios with _ | ⟨io0, rest⟩
  · exact BInv_mono (by omega) hinv
  rw [← hios]
  set es1 := ios.foldl (fun a io => cnotEmit commute ct dur st cons io a) st.edges with hes1
  have hsub : st.edges ⊆ es1 := foldl_edges_subset _ (fun a x => subset_cnotEmit a) ios _
  have hchar : ∀ e ∈ es1, e ∈ st.edges ∨ ∃ op, NewE st ct dur cons op e := by
    intro e he
    rcases foldl_edges_char (fun a io => cnotEmit commute ct dur st cons io a)
      (fun io e => NewE st ct dur cons io.2 e
        ∧ (commute = true → e.dep ≠ DepType.RAR ∧ e.dep ≠ DepType.DAD))
      (fun a x e h => sub_cnotEmit h) ios _ _ he with h | ⟨io, _, hne, _⟩
    · exact Or.inl h
    · exact Or.inr ⟨io.2, hne⟩
  have hcons : ∃ e ∈ es1, e.tgt = cons := by
    obtain ⟨d, hd⟩ := @cnotEmit_has_writer2 commute ct dur st cons io0
    exact ⟨_, foldl_edges_mem (fun a io => cnotEmit commute ct dur st cons io a)
      (fun a x => subset_cnotEmit a) (by rw [hios]; exact List.mem_cons_self _ _) _ hd st.edges, rfl⟩
  have hfacts : ∀ io ∈ ios, io.2 ∈ ios.map Prod.snd ∧ io.2 < qcc
      ∧ (io.1 = 0 → ∀ r ∈ st.lastDs io.2, ∃ e ∈ es1, e.src = r)
      ∧ (io.1 ≠ 0 → ∀ r ∈ st.lastReaders io.2, ∃ e ∈ es1, e.src = r) := by
    intro io hio
    refine ⟨List.mem_map.mpr ⟨io, hio, rfl⟩, hq io hio, ?_, ?_⟩
    · intro h0 r hr
      exact ⟨_, foldl_edges_mem (fun a io2 => cnotEmit commute ct dur st cons io2 a)
        (fun a x => subset_cnotEmit a) hio _ (fun es => cnotEmit_has_d h0 hr) st.edges, rfl⟩
    · intro h0 r hr
      exact ⟨_, foldl_edges_mem (fun a io2 => cnotEmit commute ct dur st cons io2 a)
        (fun a x => subset_cnotEmit a) hio _ (fun es => cnotEmit_has_reader h0 hr) st.edges, rfl⟩
  obtain ⟨hj, hct⟩ := cnotUpd_fold (ios.map Prod.snd) ios { st with edges := es1 } CJ_start hfacts
  have hCT : ConsTracked cons qcc (ios.foldl (cnotUpd cons) { st with edges := es1 }) := by
    apply hct
    rw [hios]
    simp
  have htouch : ∀ o ∈ ios.map Prod.snd, o < qcc := by
    intro o ho
    obtain ⟨io, hio, hio2⟩ := List.mem_map.mp ho
    exact hio2 ▸ hq io hio
  exact BInv_from_CJ hinv hc hj hsub hchar hcons htouch hCT

theorem BInv_cz {qcc ct : Nat} {dur : Nat → Nat} {cons : Nat} {st : BuildSt}
    (hinv : BInv qcc ct dur cons st) (hc : 1 ≤ cons)
    (ops : List Nat) (hq : ∀ o ∈ ops, o < qcc) (commute : Bool) :
    BInv qcc ct dur (cons + 1)
      (ops.foldl (czUpd cons)
        { st with edges := ops.foldl (fun a op => czEmit commute ct dur st cons op a) st.edges }) := by
  rcases hops : ops with _ | ⟨op0, rest⟩
  · exact BInv_mono (by omega) hinv
  rw [← hops, foldl_czUpd]
  set es1 := ops.foldl (fun a op => czEmit commute ct dur st cons op a) st.edges with hes1
  have hsub : st.edges ⊆ es1 := foldl_edges_subset _ (fun a x => subset_czEmit a) ops _
  have hchar : ∀ e ∈ es1, e ∈ st.edges ∨ ∃ op, NewE st ct dur cons op e := by
    intro e he
    rcases foldl_edges_char (fun a op => czEmit commute ct dur st cons op a)
      (fun op e => NewE st ct dur cons op e
        ∧ (commute = true → e.dep ≠ DepType.RAR ∧ e.dep ≠ DepType.DAD))
      (fun a x e h => sub_czEmit h) ops _ _ he with h | ⟨op, _, hne, _⟩
    · exact Or.inl h
    · exact Or.inr ⟨op, hne⟩
  have hcons : ∃ e ∈ es1, e.tgt = cons := by
    refine ⟨⟨st.lastWriter op0, cons, op0, DepType.RAW, fweight (dur (st.lastWriter op0)) ct⟩,
      ?_, rfl⟩
    exact foldl_edges_mem (fun a op => czEmit commute ct dur st cons op a)
      (fun a x => subset_czEmit a) (by rw [hops]; exact List.mem_cons_self _ _) _
      (fun es => czEmit_has_writer) st.edges
  have hfacts : ∀ io ∈ ops.map (fun o => ((0 : Nat), o)), io.2 ∈ ops ∧ io.2 < qcc
      ∧ (io.1 = 0 → ∀ r ∈ st.lastDs io.2, ∃ e ∈ es1, e.src = r)
      ∧ (io.1 ≠ 0 → ∀ r ∈ st.lastReaders io.2, ∃ e ∈ es1, e.src = r) := by
    intro io hio
    obtain ⟨op, hop, rfl⟩ := List.mem_map.mp hio
    refine ⟨hop, hq op hop, ?_, ?_⟩
    · intro _ r hr
      exact ⟨_, foldl_edges_mem (fun a op2 => czEmit commute ct dur st cons op2 a)
        (fun a x => subset_czEmit a) hop _ (fun es => czEmit_has_d hr) st.edges, rfl⟩
    · intro h0
      exact absurd rfl h0
  obtain ⟨hj, hct⟩ := cnotUpd_fold ops (ops.map (fun o => ((0 : Nat), o)))
    { st with edges := es1 } CJ_start hfacts
  have hCT : ConsTracked cons qcc
      ((ops.map (fun o => ((0 : Nat), o))).foldl (cnotUpd cons) { st with edges := es1 }) := by
    apply hct
    rw [hops]
    simp
  exact BInv_from_CJ hinv hc hj hsub hchar hcons hq hCT

/-- One instruction of `Scheduler::init` preserves the invariant, for any
well-formed gate. -/
theorem BInv_process {qc cc ct : Nat} {dur : Nat → Nat} {cons : Nat} {st : BuildSt}
    {commute : Bool} (hinv : BInv (qc + cc) ct dur cons st) (hc : 1 ≤ cons) (g : SGate)
    (hg1 : g.operands.Nodup) (hg2 : g.creg_operands.Nodup)
    (hg3 : ∀ o ∈ g.operands, o < qc) (hg4 : ∀ co ∈ g.creg_operands, co < cc) :
    BInv (qc + cc) ct dur (cons + 1) (processGate commute qc cc ct dur cons g st) := by
  have hops : ∀ o ∈ g.operands, o < qc + cc := fun o ho => by
    have := hg3 o ho
    omega
  have hcregs : ∀ o ∈ g.creg_operands.map (qc + ·), o < qc + cc := by
    intro o ho
    obtain ⟨co, hco, rfl⟩ := List.mem_map.mp ho
    have := hg4 co hco
    omega
  unfold processGate
  dsimp only
  by_cases h1 : stripname g.name = "measure"
  · rw [if_pos h1]
    have hfm : g.creg_operands.foldl (fun a co => emitWnoD ct dur st cons (qc + co) a)
          (g.operands.foldl (fun a op => emitW ct dur st cons op a) st.edges)
        = (g.creg_operands.map (qc + ·)).foldl (fun a op => emitWnoD ct dur st cons op a)
          (g.operands.foldl (fun a op => emitW ct dur st cons op a) st.edges) := by
      rw [List.foldl_map]
    rw [hfm]
    exact BInv_Wstep (BInv_mono (by omega) hinv) hc g.operands (g.creg_operands.map (qc + ·))
      hops hcregs (fun o _ v hv => tracked_lt hinv o v hv)
      (fun o _ v hv => tracked_lt hinv o v hv)
  · rw [if_neg h1]
    by_cases h2 : stripname g.name = "display"
    · rw [if_pos h2]
      have h := BInv_Wstep (BInv_mono (by omega) hinv) hc (List.range (qc + cc)) []
        (fun o ho => List.mem_range.mp ho) (by simp)
        (fun o _ v hv => tracked_lt hinv o v hv) (by simp)
      exact h
    · rw [if_neg h2]
      by_cases h3 : g.gtype = GType.classical
      · rw [if_pos h3]
        have hfm : g.creg_operands.foldl (fun a co => emitW ct dur st cons (qc + co) a) st.edges
            = (g.creg_operands.map (qc + ·)).foldl (fun a op => emitW ct dur st cons op a)
              st.edges := by
          rw [List.foldl_map]
        rw [hfm]
        have h := BInv_Wstep (BInv_mono (by omega) hinv) hc (g.creg_operands.map (qc + ·)) []
          hcregs (by simp) (fun o _ v hv => tracked_lt hinv o v hv) (by simp)
        exact h
      · rw [if_neg h3]
        by_cases h4 : stripname g.name = "cnot"
        · rw [if_pos h4]
          refine BInv_cnot hinv hc g.operands.enum ?_ commute
          intro io hio
          exact hops io.2 ((List.enum_map_snd g.operands) ▸ List.mem_map_of_mem Prod.snd hio)
        · rw [if_neg h4]
          by_cases h5 : stripname g.name = "cz" ∨ stripname g.name = "cphase"
          · rw [if_pos h5]
            exact BInv_cz hinv hc g.operands hops commute
          · rw [if_neg h5]
            have hfm : g.creg_operands.foldl
                  (fun s co => genericStep ct dur cons s (qc + co))
                  (g.operands.foldl (genericStep ct dur cons) st)
                = (g.creg_operands.map (qc + ·)).foldl (genericStep ct dur cons)
                  (g.operands.foldl (genericStep ct dur cons) st) := by
              rw [List.foldl_map]
            rw [hfm]
            obtain ⟨hb1, hu1⟩ := BInv_generic_fold hc g.operands st
              (BInv_mono (by omega) hinv) hops hg1
              (fun o _ v hv => tracked_lt hinv o v hv)
            refine (BInv_generic_fold hc (g.creg_operands.map (qc + ·))
              (g.operands.foldl (genericStep ct dur cons) st) hb1 hcregs
              (List.Nodup.map (fun a b h => by omega) hg2) ?_).1
            intro o ho v hv
            have hno : o ∉ g.operands := by
              obtain ⟨co, hco, rfl⟩ := List.mem_map.mp ho
              intro hmem
              have := hg3 _ hmem
              omega
            obtain ⟨u1, u2, u3⟩ := hu1 o hno
            apply tracked_lt hinv o v
            unfold TrackedAt at hv ⊢
            rw [u1, u2, u3] at hv
            exact hv

theorem BInv_init (qcc ct : Nat) (dur : Nat → Nat) : BInv qcc ct dur 1 initSt := by
  constructor <;>
    first
      | intro o
        simp [initSt]
      | intro e he
        simp [initSt] at he
      | intro v hv
        simp only [initSt, List.not_mem_nil, false_and, exists_const] at hv

theorem BInv_enumFrom {qc cc ct : Nat} {dur : Nat → Nat} {commute : Bool} :
    ∀ (ckt : List SGate) (k : Nat) (st : BuildSt),
    BInv (qc + cc) ct dur (k + 1) st →
    (∀ g ∈ ckt, g.operands.Nodup ∧ g.creg_operands.Nodup
      ∧ (∀ o ∈ g.operands, o < qc) ∧ ∀ co ∈ g.creg_operands, co < cc) →
    BInv (qc + cc) ct dur (ckt.length + k + 1)
      ((ckt.enumFrom k).foldl
        (fun s ig => processGate commute qc cc ct dur (ig.1 + 1) ig.2 s) st) := by
  intro ckt
  induction ckt with
  | nil =>
    intro k st h _
    simpa using h
  | cons g rest ih =>
    intro k st hinv hwf
    obtain ⟨hg1, hg2, hg3, hg4⟩ := hwf g (by simp)
    have hstep := @BInv_process qc cc ct dur (k + 1) st commute hinv (by omega) g hg1 hg2 hg3 hg4
    have h := ih (k + 1) _ hstep (fun g2 hg => hwf g2 (by simp [hg]))
    have harith : rest.length + (k + 1) + 1 = (g :: rest).length + k + 1 := by
      simp
      omega
    rw [harith] at h
    exact h

/-- The invariant holds of the builder state after the whole instruction
loop of a well-formed circuit. -/
theorem BInv_circuit {qc cc ct : Nat} {commute : Bool} (ckt : List SGate)
    (hwf : WfCircuit qc cc ckt) :
    BInv (qc + cc) ct (nodeDur ckt) (ckt.length + 1)
      (ckt.enum.foldl
        (fun s ig => processGate commute qc cc ct (nodeDur ckt) (ig.1 + 1) ig.2 s) initSt) := by
  have h := @BInv_enumFrom qc cc ct (nodeDur ckt) commute ckt 0 initSt
    (BInv_init (qc + cc) ct (nodeDur ckt)) hwf
  rw [show ckt.length + 0 + 1 = ckt.length + 1 by omega] at h
  exact h

/-- The four structural facts about `buildGraph` output used by the
scheduling theorems: arcs ascend in id, weights are the float weights of
the source gate, every arc source is SOURCE or has an in-arc, and every
node of an arc other than SINK has an out-arc. -/
theorem buildGraph_facts (commute : Bool) (ckt : List SGate) (qc cc ct : Nat)
    (hwf : WfCircuit qc cc ckt) :
    (∀ e ∈ buildGraph commute ckt qc cc ct,
        e.src < e.tgt ∧ 1 ≤ e.tgt ∧ e.tgt ≤ ckt.length + 1)
    ∧ (∀ e ∈ buildGraph commute ckt qc cc ct,
        e.weight = fweight (nodeDur ckt e.src) ct)
    ∧ (∀ e ∈ buildGraph commute ckt qc cc ct,
        e.src = 0 ∨ ∃ e2 ∈ buildGraph commute ckt qc cc ct, e2.tgt = e.src)
    ∧ (∀ v, v ≠ ckt.length + 1 →
        (∃ e ∈ buildGraph commute ckt qc cc ct, e.src = v ∨ e.tgt = v) →
        ∃ e ∈ buildGraph commute ckt qc cc ct, e.src = v) := by
  have hinv := @BInv_circuit qc cc ct commute ckt hwf
  set stAll := ckt.enum.foldl
    (fun s ig => processGate commute qc cc ct (nodeDur ckt) (ig.1 + 1) ig.2 s) initSt with hstAll
  set n := ckt.length with hn
  have hE : buildGraph commute ckt qc cc ct
      = (List.range (qc + cc)).foldl
        (fun a op => emitW ct (nodeDur ckt) stAll (n + 1) op a) stAll.edges := rfl
  have hsub : stAll.edges ⊆ buildGraph commute ckt qc cc ct := by
    rw [hE]
    exact foldl_edges_subset _ (fun a x => subset_emitW a) _ _
  have hchar : ∀ e ∈ buildGraph commute ckt qc cc ct, e ∈ stAll.edges
      ∨ ∃ op ∈ List.range (qc + cc), NewE stAll ct (nodeDur ckt) (n + 1) op e := by
    rw [hE]
    intro e he
    exact foldl_edges_char (fun a op => emitW ct (nodeDur ckt) stAll (n + 1) op a)
      (fun op e => NewE stAll ct (nodeDur ckt) (n + 1) op e)
      (fun a x e h => (sub_emitW_NewE h).imp_right And.left) _ _ _ he
  refine ⟨?_, ?_, ?_, ?_⟩
  · intro e he
    rcases hchar e he with h | ⟨op, _, hne⟩
    · have := hinv.edges_wf e h
      omega
    · have := tracked_lt hinv op e.src hne.1
      have := hne.2.1
      omega
  · intro e he
    rcases hchar e he with h | ⟨op, _, hne⟩
    · exact hinv.edges_w e h
    · exact hne.2.2
  · intro e he
    rcases hchar e he with h | ⟨op, _, hne⟩
    · rcases hinv.edges_in e h with h2 | ⟨e2, he2, ht2⟩
      · exact Or.inl h2
      · exact Or.inr ⟨e2, hsub he2, ht2⟩
    · rcases tracked_in_edges hinv op e.src hne.1 with h2 | ⟨e2, he2, ht2⟩
      · exact Or.inl h2
      · exact Or.inr ⟨e2, hsub he2, ht2⟩
  · intro v hvne hv
    obtain ⟨e, he, hsv⟩ := hv
    rcases hchar e he with hold | ⟨op, _, hne⟩
    · rcases hinv.has_out v ⟨e, hold, hsv⟩ with ⟨e2, he2, hs2⟩ | ⟨o, ho, htr⟩
      · exact ⟨e2, hsub he2, hs2⟩
      · rcases htr with hw | hr | hd
        · refine ⟨⟨stAll.lastWriter o, n + 1, o, DepType.WAW,
            fweight (nodeDur ckt (stAll.lastWriter o)) ct⟩, ?_, hw.symm⟩
          rw [hE]
          exact foldl_edges_mem (fun a op2 => emitW ct (nodeDur ckt) stAll (n + 1) op2 a)
            (fun a x => subset_emitW a) (List.mem_range.mpr ho) _
            (fun es => emitW_has_writer) stAll.edges
        · refine ⟨⟨v, n + 1, o, DepType.WAR, fweight (nodeDur ckt v) ct⟩, ?_, rfl⟩
          rw [hE]
          exact foldl_edges_mem (fun a op2 => emitW ct (nodeDur ckt) stAll (n + 1) op2 a)
            (fun a x => subset_emitW a) (List.mem_range.mpr ho) _
            (fun es => emitW_has_reader hr) stAll.edges
        · refine ⟨⟨v, n + 1, o, DepType.WAD, fweight (nodeDur ckt v) ct⟩, ?_, rfl⟩
          rw [hE]
          exact foldl_edges_mem (fun a op2 => emitW ct (nodeDur ckt) stAll (n + 1) op2 a)
            (fun a x => subset_emitW a) (List.mem_range.mpr ho) _
            (fun es => emitW_has_d hd) stAll.edges
    · rcases hsv with hs | ht
      · exact ⟨e, he, hs⟩
      · exact absurd (by rw [← ht, hne.2.1]) hvne

/-- With at least one combined operand, SINK has an incoming arc. -/
theorem buildGraph_sink_in (commute : Bool) (ckt : List SGate) (qc cc ct : Nat)
    (hq : 1 ≤ qc + cc) :
    ∃ e ∈ buildGraph commute ckt qc cc ct, e.tgt = ckt.length + 1 := by
  set stAll := ckt.enum.foldl
    (fun s ig => processGate commute qc cc ct (nodeDur ckt) (ig.1 + 1) ig.2 s) initSt with hstAll
  refine ⟨⟨stAll.lastWriter 0, ckt.length + 1, 0, DepType.WAW,
    fweight (nodeDur ckt (stAll.lastWriter 0)) ct⟩, ?_, rfl⟩
  show _ ∈ (List.range (qc + cc)).foldl
    (fun a op => emitW ct (nodeDur ckt) stAll (ckt.length + 1) op a) stAll.edges
  exact foldl_edges_mem (fun a op2 => emitW ct (nodeDur ckt) stAll (ckt.length + 1) op2 a)
    (fun a x => subset_emitW a) (List.mem_range.mpr (by omega)) _
    (fun es => emitW_has_writer) stAll.edges

/-- In a graph whose arcs ascend and whose arc sources are SOURCE or have
in-arcs, some arc leaves SOURCE as soon as any arc exists. -/
theorem exists_src_zero (E : List Edge)
    (hwf : ∀ e ∈ E, e.src < e.tgt)
    (hIn : ∀ e ∈ E, e.src = 0 ∨ ∃ e2 ∈ E, e2.tgt = e.src) :
    ∀ e ∈ E, ∃ e2 ∈ E, e2.src = 0 := by
  have key : ∀ s : Nat, ∀ e ∈ E, e.src ≤ s → ∃ e2 ∈ E, e2.src = 0 := by
    intro s
    induction s with
    | zero =>
      intro e he hs
      exact ⟨e, he, by omega⟩
    | succ m ih =>
      intro e he hs
      rcases hIn e he with h | ⟨e2, he2, ht2⟩
      · exact ⟨e, he, h⟩
      · refine ih e2 he2 ?_
        have h1 := hwf e2 he2
        omega
  exact fun e he => key e.src e he le_rfl

/-! ### RAR/DAD suppression under `scheduler_commute = yes` -/

/-- No arc is a RAR or DAD arc. -/
def NoRarDad (es : List Edge) : Prop :=
  ∀ e ∈ es, e.dep ≠ DepType.RAR ∧ e.dep ≠ DepType.DAD

theorem foldl_cnotUpd_edges {cons : Nat} :
    ∀ (l : List (Nat × Nat)) (s : BuildSt), (l.foldl (cnotUpd cons) s).edges = s.edges := by
  intro l
  induction l with
  | nil => exact fun s => rfl
  | cons io rest ih =>
    intro s
    rw [List.foldl_cons, ih, cnotUpd_edges]

theorem genericFold_NoRarDad {ct : Nat} {dur : Nat → Nat} {cons : Nat} :
    ∀ (L : List Nat) (s : BuildSt), NoRarDad s.edges →
    NoRarDad ((L.foldl (genericStep ct dur cons) s).edges) := by
  intro L
  induction L with
  | nil => exact fun s h => h
  | cons x xs ih =>
    intro s hs
    rw [List.foldl_cons]
    apply ih
    show NoRarDad ((clearW _ cons [x]).edges)
    rw [clearW_edges]
    intro e he
    rcases sub_emitW_NewE he with h | h
    · exact hs e h
    · exact h.2

theorem processGate_NoRarDad {qc cc ct : Nat} {dur : Nat → Nat} {cons : Nat} {st : BuildSt}
    (g : SGate) (hs : NoRarDad st.edges) :
    NoRarDad ((processGate true qc cc ct dur cons g st).edges) := by
  have hW : ∀ (L : List Nat) (es : List Edge), NoRarDad es →
      NoRarDad (L.foldl (fun a op => emitW ct dur st cons op a) es) := by
    intro L es hes e he
    rcases foldl_edges_char (fun a op => emitW ct dur st cons op a)
        (fun op e => e.dep ≠ DepType.RAR ∧ e.dep ≠ DepType.DAD)
        (fun a x e h => (sub_emitW_NewE h).imp_right And.right) L _ _ he with h | ⟨_, _, h⟩
    · exact hes e h
    · exact h
  have hWnoD : ∀ (L : List Nat) (es : List Edge), NoRarDad es →
      NoRarDad (L.foldl (fun a co => emitWnoD ct dur st cons (qc + co) a) es) := by
    intro L es hes e he
    rcases foldl_edges_char (fun a co => emitWnoD ct dur st cons (qc + co) a)
        (fun co e => e.dep ≠ DepType.RAR ∧ e.dep ≠ DepType.DAD)
        (fun a x e h => (sub_emitWnoD h).imp_right And.right) L _ _ he with h | ⟨_, _, h⟩
    · exact hes e h
    · exact h
  unfold processGate
  dsimp only
  by_cases h1 : stripname g.name = "measure"
  · rw [if_pos h1]
    show NoRarDad ((updWR (clearW _ cons g.operands) cons _).edges)
    rw [updWR_edges, clearW_edges]
    exact hWnoD _ _ (hW _ _ hs)
  · rw [if_neg h1]
    by_cases h2 : stripname g.name = "display"
    · rw [if_pos h2]
      show NoRarDad ((clearW _ cons _).edges)
      rw [clearW_edges]
      exact hW _ _ hs
    · rw [if_neg h2]
      by_cases h3 : g.gtype = GType.classical
      · rw [if_pos h3]
        show NoRarDad ((clearW _ cons _).edges)
        rw [clearW_edges]
        intro e he
        rcases foldl_edges_char (fun a co => emitW ct dur st cons (qc + co) a)
            (fun co e => e.dep ≠ DepType.RAR ∧ e.dep ≠ DepType.DAD)
            (fun a x e h => (sub_emitW_NewE h).imp_right And.right)
            g.creg_operands _ _ he with h | ⟨_, _, h⟩
        · exact hs e h
        · exact h
      · rw [if_neg h3]
        by_cases h4 : stripname g.name = "cnot"
        · rw [if_pos h4]
          show NoRarDad ((g.operands.enum.foldl (cnotUpd cons) _).edges)
          rw [foldl_cnotUpd_edges]
          intro e he
          rcases foldl_edges_char (fun a io => cnotEmit true ct dur st cons io a)
              (fun io e => NewE st ct dur cons io.2 e
                ∧ (true = true → e.dep ≠ DepType.RAR ∧ e.dep ≠ DepType.DAD))
              (fun a x e h => sub_cnotEmit h) g.operands.enum _ _ he with h | ⟨_, _, _, h⟩
          · exact hs e h
          · exact h rfl
        · rw [if_neg h4]
          by_cases h5 : stripname g.name = "cz" ∨ stripname g.name = "cphase"
          · rw [if_pos h5]
            show NoRarDad ((g.operands.foldl (czUpd cons) _).edges)
            rw [foldl_czUpd, foldl_cnotUpd_edges]
            intro e he
            rcases foldl_edges_char (fun a op => czEmit true ct dur st cons op a)
                (fun op e => NewE st ct dur cons op e
                  ∧ (true = true → e.dep ≠ DepType.RAR ∧ e.dep ≠ DepType.DAD))
                (fun a x e h => sub_czEmit h) g.operands _ _ he with h | ⟨_, _, _, h⟩
            · exact hs e h
            · exact h rfl
          · rw [if_neg h5]
            have h6 : (g.creg_operands.foldl (fun s co => genericStep ct dur cons s (qc + co))
                (g.operands.foldl (genericStep ct dur cons) st))
                = ((g.creg_operands.map (qc + ·)).foldl (genericStep ct dur cons)
                    (g.operands.foldl (genericStep ct dur cons) st)) := by
              rw [List.foldl_map]
            rw [h6]
            exact genericFold_NoRarDad _ _ (genericFold_NoRarDad _ _ hs)

/-- With `scheduler_commute = yes` the builder emits no RAR and no DAD arc
at all. -/
theorem buildGraph_NoRarDad (ckt : List SGate) (qc cc ct : Nat) :
    NoRarDad (buildGraph true ckt qc cc ct) := by
  have hAll : ∀ (l : List (Nat × SGate)) (st : BuildSt), NoRarDad st.edges →
      NoRarDad ((l.foldl
        (fun s ig => processGate true qc cc ct (nodeDur ckt) (ig.1 + 1) ig.2 s) st).edges) := by
    intro l
    induction l with
    | nil => exact fun st h => h
    | cons ig rest ih =>
      intro st hst
      rw [List.foldl_cons]
      exact ih _ (processGate_NoRarDad _ hst)
  have hst : NoRarDad ((ckt.enum.foldl
      (fun s ig => processGate true qc cc ct (nodeDur ckt) (ig.1 + 1) ig.2 s) initSt).edges) :=
    hAll _ _ (by intro e he; cases he)
  intro e he
  rcases foldl_edges_char
      (fun a op => emitW ct (nodeDur ckt) _ (ckt.length + 1) op a)
      (fun op e => e.dep ≠ DepType.RAR ∧ e.dep ≠ DepType.DAD)
      (fun a x e h => (sub_emitW_NewE h).imp_right And.right)
      (List.range (qc + cc)) _ _ he with h | ⟨_, _, h⟩
  · exact hst e h
  · exact h

/-! ### Claim C2: edge weights versus the exact ceiling

`add_dep` computes the weight as `int(std::ceil(static_cast<float>(duration)/
cycle_time))`: the duration is first converted to a single-precision float.
`fweight` embeds that computation exactly; `exactCeilDiv` is the exact integer
ceiling, which is also what `get_dot` prints (`(duration+cycle_time-1)/
cycle_time`).  At duration `16777217 = 2^24 + 1` and cycle time 1 the float
conversion rounds the duration down to `2^24`, so the emitted weight is one
less than the exact ceiling. -/

/-- C2: the claim that every emitted edge weight equals the exact integer
ceiling of duration over cycle time fails: at duration `16777217` and cycle
time 1 the weight computed through the single-precision float conversion in
`add_dep` is `16777216`, while the exact ceiling is `16777217`. -/
theorem C2_weight_diverges_from_exact_ceiling :
    fweight 16777217 1 = 16777216 ∧ exactCeilDiv 16777217 1 = 16777217 ∧
      fweight 16777217 1 ≠ exactCeilDiv 16777217 1 := by
  refine ⟨?_, ?_, ?_⟩ <;> decide

/-! ### Claim C3: effect of the `scheduler_commute` flag -/

/-- A two-qubit CNOT gate on control `a` and target `b`, duration one cycle. -/
def cnotGate (a b : Nat) : SGate :=
  { name := "cnot", gtype := GType.other, operands := [a, b],
    creg_operands := [], duration := 1 }

/-- Two CNOTs sharing control qubit 0, targeting distinct qubits 1 and 2. -/
def sharedControl : List SGate := [cnotGate 0 1, cnotGate 0 2]

/-- Two CNOTs sharing target qubit 1, with distinct controls 0 and 2. -/
def sharedTarget : List SGate := [cnotGate 0 1, cnotGate 2 1]

/-- C3: with `scheduler_commute = yes` the graph builder emits no RAR and no
DAD edge for any circuit; with `scheduler_commute = no` a RAR edge is emitted
between two CNOTs sharing a control, and a DAD edge between two CNOTs sharing
a target; consequently the two shared-control CNOTs get equal ASAP cycles
(both 1) under `yes` and distinct cycles (1 and 2) under `no`. -/
theorem C3_commute_suppresses_RAR_DAD :
    (∀ (ckt : List SGate) (qc cc ct : Nat), ∀ e ∈ buildGraph true ckt qc cc ct,
        e.dep ≠ DepType.RAR ∧ e.dep ≠ DepType.DAD)
    ∧ (∃ e ∈ buildGraph false sharedControl 3 0 1, e.dep = DepType.RAR)
    ∧ (∃ e ∈ buildGraph false sharedTarget 3 0 1, e.dep = DepType.DAD)
    ∧ (asapCycles (buildGraph true sharedControl 3 0 1) 2 (fun _ => 0) 1 = 1
        ∧ asapCycles (buildGraph true sharedControl 3 0 1) 2 (fun _ => 0) 2 = 1)
    ∧ (asapCycles (buildGraph false sharedControl 3 0 1) 2 (fun _ => 0) 1 = 1
        ∧ asapCycles (buildGraph false sharedControl 3 0 1) 2 (fun _ => 0) 2 = 2) := by
  refine ⟨fun ckt qc cc ct => buildGraph_NoRarDad ckt qc cc ct, ?_, ?_, ?_, ?_⟩ <;> decide

/-! ## The resource-constrained list scheduler (`Scheduler::schedule` with RC)

The resource manager is virtual in the source (`arch::resource_manager_t`),
so it is a parameter here: a state type `ρ` with the two operations the
scheduler calls.  The deep-criticality comparison used to keep the available
list ordered is likewise passed in as `critLT` (it is instantiated with
`criticality_lessthan` below); none of the scheduler's bookkeeping depends
on what it returns.  `dir = true` is forward scheduling. -/

/-- The two operations `Scheduler::schedule` invokes on the resource
manager. -/
structure RMIface (ρ : Type) where
  available : ρ → Int → SGate → Bool
  reserve : ρ → Int → SGate → ρ

/-- The fixed data of a resource-constrained scheduling run. -/
structure RCEnv (ρ : Type) where
  iface : RMIface ρ
  E : List Edge
  ckt : List SGate
  critLT : Bool → Nat → Nat → Bool
  maxc : Int
  sinkc : Int

/-- The mutable state of the scheduling loop: the gates' cycle attributes,
the `scheduled` map, the available list, `curr_cycle` and the resource
manager state. -/
structure RCSt (ρ : Type) where
  cyc : Nat → Int
  sched : Nat → Bool
  avlist : List Nat
  curr : Int
  rm : ρ

/-- Direct successors of a node (targets of its out-arcs, in arc order,
possibly with duplicates, exactly as `OutArcIt` delivers them). -/
def succs (E : List Edge) (v : Nat) : List Nat :=
  (E.filter (fun e => e.src = v)).map Edge.tgt

/-- Direct predecessors of a node (sources of its in-arcs). -/
def preds (E : List Edge) (v : Nat) : List Nat :=
  (E.filter (fun e => e.tgt = v)).map Edge.src

/-- The repeated test `n == s || n == t || gp->type() is dummy, classical,
wait or remap`: such nodes bypass the resource manager. -/
def rmBypass (nG : Nat) (v : Nat) (g : SGate) : Bool :=
  decide (v = 0) || decide (v = nG + 1) || decide (g.gtype = GType.dummy)
    || decide (g.gtype = GType.classical) || decide (g.gtype = GType.wait)
    || decide (g.gtype = GType.remap)

/-- `Scheduler::immediately_schedulable`: the node's cycle attribute must
have reached `curr_cycle` (in the scheduling direction), and the node must
either bypass the resource manager or find its resources available. -/
def immediately_schedulable (env : RCEnv ρ) (dir : Bool) (st : RCSt ρ) (v : Nat) : Bool :=
  let g := nodeGate env.ckt v
  if (if dir then decide (st.cyc v ≤ st.curr) else decide (st.curr ≤ st.cyc v)) then
    if rmBypass env.ckt.length v g then true
    else env.iface.available st.rm st.curr g
  else false

/-- `Scheduler::SelectAvailable`: the first immediately schedulable node of
the available list (which is kept ordered on deep-criticality). -/
def SelectAvailable (env : RCEnv ρ) (dir : Bool) (st : RCSt ρ) : Option Nat :=
  st.avlist.find? (immediately_schedulable env dir st)

/-- Insert `v` just before the first element satisfying `p` (before the
first node of lower deep-criticality in `MakeAvailable`), at the end when
none is found. -/
def insertBeforeFirst (p : Nat → Bool) (v : Nat) : List Nat → List Nat
  | [] => [v]
  | x :: xs => if p x then v :: x :: xs else x :: insertBeforeFirst p v xs

/-- `Scheduler::MakeAvailable`: skip when the node is already present
(multiple arcs between a node pair cause such attempts), otherwise refresh
its cycle attribute with `set_cycle_gate` and insert it before the first
available node of strictly lower deep-criticality. -/
def MakeAvailable (env : RCEnv ρ) (dir : Bool) (st : RCSt ρ) (v : Nat) : RCSt ρ :=
  if v ∈ st.avlist then st
  else
    { st with
      cyc := Function.update st.cyc v
        (if dir then set_cycle_gate_fwd env.E st.cyc v
         else set_cycle_gate_bwd env.maxc env.E st.cyc v),
      avlist := insertBeforeFirst (fun x => env.critLT dir x v) v st.avlist }

/-- `Scheduler::TakeAvailable`: mark the node scheduled, remove it from the
available list, and make every depending node all of whose dependent nodes
are now scheduled available. -/
def TakeAvailable (env : RCEnv ρ) (dir : Bool) (st : RCSt ρ) (v : Nat) : RCSt ρ :=
  let st1 : RCSt ρ :=
    { st with sched := Function.update st.sched v true,
              avlist := st.avlist.filter (fun x => decide (x ≠ v)) }
  if dir then
    (succs env.E v).foldl
      (fun s w => if (preds env.E w).all (fun p => s.sched p)
                  then MakeAvailable env dir s w else s) st1
  else
    (preds env.E v).foldl
      (fun s w => if (succs env.E w).all (fun q => s.sched q)
                  then MakeAvailable env dir s w else s) st1

/-- `Scheduler::AdvanceCurrCycle`. -/
def AdvanceCurrCycle (dir : Bool) (st : RCSt ρ) : RCSt ρ :=
  { st with curr := if dir then st.curr + 1 else st.curr - 1 }

/-- One iteration of the scheduling loop: select an available node for
`curr_cycle`; when none qualifies advance the cycle, otherwise commit the
node's cycle, reserve its resources (unless it bypasses the resource
manager) and take it from the available list. -/
def rcStep (env : RCEnv ρ) (dir : Bool) (st : RCSt ρ) : RCSt ρ :=
  match SelectAvailable env dir st with
  | none => AdvanceCurrCycle dir st
  | some v =>
    let g := nodeGate env.ckt v
    let st1 : RCSt ρ :=
      { st with cyc := Function.update st.cyc v st.curr,
                rm := if rmBypass env.ckt.length v g then st.rm
                      else env.iface.reserve st.rm st.curr g }
    TakeAvailable env dir st1 v

/-- `Scheduler::init_available` together with the `scheduled` reset of
`Scheduler::schedule`: all nodes unscheduled, SOURCE (forward) or SINK
(backward) alone in the available list with its cycle attribute and
`curr_cycle` set to the starting end. -/
def init_available (env : RCEnv ρ) (dir : Bool) (c0 : Nat → Int) (r0 : ρ) : RCSt ρ :=
  if dir then
    { cyc := Function.update c0 0 0, sched := fun _ => false,
      avlist := [0], curr := 0, rm := r0 }
  else
    { cyc := Function.update c0 (env.ckt.length + 1) env.sinkc, sched := fun _ => false,
      avlist := [env.ckt.length + 1], curr := env.sinkc, rm := r0 }

/-- The `while (!avlist.empty())` loop, with explicit fuel; `none` means the
fuel ran out before the available list emptied. -/
def rcRun (env : RCEnv ρ) (dir : Bool) : Nat → RCSt ρ → Option (RCSt ρ)
  | 0, _ => none
  | fuel + 1, st =>
      if st.avlist.isEmpty then some st else rcRun env dir fuel (rcStep env dir st)

/-- The cycle assignment `Scheduler::schedule` leaves behind: the loop's
final cycle attributes, readjusted by `-SOURCECycle` after backward
scheduling so that SOURCE ends at 0. -/
def rcScheduleCycles (env : RCEnv ρ) (dir : Bool) (c0 : Nat → Int) (r0 : ρ)
    (fuel : Nat) : Option (Nat → Int) :=
  (rcRun env dir fuel (init_available env dir c0 r0)).map
    (fun st => if dir then st.cyc else fun v => st.cyc v - st.cyc 0)

/-! ### The available list stays duplicate-free -/

theorem mem_insertBeforeFirst {p : Nat → Bool} {v a : Nat} :
    ∀ {l : List Nat}, a ∈ insertBeforeFirst p v l ↔ a = v ∨ a ∈ l := by
  intro l
  induction l with
  | nil => simp [insertBeforeFirst]
  | cons x xs ih =>
    show a ∈ (if p x then v :: x :: xs else x :: insertBeforeFirst p v xs)
      ↔ a = v ∨ a ∈ x :: xs
    by_cases hp : p x
    · rw [if_pos hp]
      simp [List.mem_cons]
    · rw [if_neg hp]
      simp only [List.mem_cons, ih]
      tauto

theorem nodup_insertBeforeFirst {p : Nat → Bool} {v : Nat} :
    ∀ {l : List Nat}, l.Nodup → v ∉ l → (insertBeforeFirst p v l).Nodup := by
  intro l
  induction l with
  | nil => simp [insertBeforeFirst]
  | cons x xs ih =>
    intro hnd hv
    rw [List.nodup_cons] at hnd
    simp only [List.mem_cons, not_or] at hv
    show (if p x then v :: x :: xs else x :: insertBeforeFirst p v xs).Nodup
    by_cases hp : p x
    · rw [if_pos hp]
      refine List.nodup_cons.mpr ⟨?_, List.nodup_cons.mpr ⟨hnd.1, hnd.2⟩⟩
      simp only [List.mem_cons, not_or]
      exact hv
    · rw [if_neg hp]
      refine List.nodup_cons.mpr ⟨?_, ih hnd.2 hv.2⟩
      rw [mem_insertBeforeFirst]
      rintro (h | h)
      · exact hv.1 h.symm
      · exact hnd.1 h

theorem MakeAvailable_sched (env : RCEnv ρ) (dir : Bool) (st : RCSt ρ) (v : Nat) :
    (MakeAvailable env dir st v).sched = st.sched := by
  unfold MakeAvailable
  split <;> rfl

theorem MakeAvailable_curr (env : RCEnv ρ) (dir : Bool) (st : RCSt ρ) (v : Nat) :
    (MakeAvailable env dir st v).curr = st.curr := by
  unfold MakeAvailable
  split <;> rfl

theorem MakeAvailable_avlist (env : RCEnv ρ) (dir : Bool) (st : RCSt ρ) (v : Nat) :
    (MakeAvailable env dir st v).avlist
      = if v ∈ st.avlist then st.avlist
        else insertBeforeFirst (fun x => env.critLT dir x v) v st.avlist := by
  unfold MakeAvailable
  split <;> simp_all

theorem MakeAvailable_cyc (env : RCEnv ρ) (dir : Bool) (st : RCSt ρ) (v : Nat) :
    (MakeAvailable env dir st v).cyc
      = if v ∈ st.avlist then st.cyc
        else Function.update st.cyc v
          (if dir then set_cycle_gate_fwd env.E st.cyc v
           else set_cycle_gate_bwd env.maxc env.E st.cyc v) := by
  unfold MakeAvailable
  split <;> simp_all

theorem MakeAvailable_nodup (env : RCEnv ρ) (dir : Bool) {st : RCSt ρ} (v : Nat)
    (h : st.avlist.Nodup) : (MakeAvailable env dir st v).avlist.Nodup := by
  rw [MakeAvailable_avlist]
  by_cases hv : v ∈ st.avlist
  · rwa [if_pos hv]
  · rw [if_neg hv]
    exact nodup_insertBeforeFirst h hv

theorem MakeAvailable_mono (env : RCEnv ρ) (dir : Bool) (st : RCSt ρ) (v a : Nat)
    (h : a ∈ st.avlist) : a ∈ (MakeAvailable env dir st v).avlist := by
  rw [MakeAvailable_avlist]
  by_cases hv : v ∈ st.avlist
  · rwa [if_pos hv]
  · rw [if_neg hv, mem_insertBeforeFirst]
    exact Or.inr h

theorem MakeAvailable_mem_self (env : RCEnv ρ) (dir : Bool) (st : RCSt ρ) (v : Nat) :
    v ∈ (MakeAvailable env dir st v).avlist := by
  rw [MakeAvailable_avlist]
  by_cases hv : v ∈ st.avlist
  · rwa [if_pos hv]
  · rw [if_neg hv, mem_insertBeforeFirst]
    exact Or.inl rfl

theorem foldl_MA_sched (env : RCEnv ρ) (dir : Bool) (pre : Nat → List Nat) :
    ∀ (L : List Nat) (s : RCSt ρ),
      (L.foldl (fun s w => if (pre w).all (fun p => s.sched p)
        then MakeAvailable env dir s w else s) s).sched = s.sched := by
  intro L
  induction L with
  | nil => intro s; rfl
  | cons w rest ih =>
    intro s
    rw [List.foldl_cons, ih]
    by_cases hg : (pre w).all (fun p => s.sched p)
    · rw [if_pos hg, MakeAvailable_sched]
    · rw [if_neg hg]

theorem foldl_MA_curr (env : RCEnv ρ) (dir : Bool) (pre : Nat → List Nat) :
    ∀ (L : List Nat) (s : RCSt ρ),
      (L.foldl (fun s w => if (pre w).all (fun p => s.sched p)
        then MakeAvailable env dir s w else s) s).curr = s.curr := by
  intro L
  induction L with
  | nil => intro s; rfl
  | cons w rest ih =>
    intro s
    rw [List.foldl_cons, ih]
    by_cases hg : (pre w).all (fun p => s.sched p)
    · rw [if_pos hg, MakeAvailable_curr]
    · rw [if_neg hg]

theorem foldl_MA_nodup (env : RCEnv ρ) (dir : Bool) (pre : Nat → List Nat) :
    ∀ (L : List Nat) (s : RCSt ρ), s.avlist.Nodup →
      (L.foldl (fun s w => if (pre w).all (fun p => s.sched p)
        then MakeAvailable env dir s w else s) s).avlist.Nodup := by
  intro L
  induction L with
  | nil => exact fun s h => h
  | cons w rest ih =>
    intro s hs
    rw [List.foldl_cons]
    by_cases hg : (pre w).all (fun p => s.sched p)
    · rw [if_pos hg]
      exact ih _ (MakeAvailable_nodup env dir w hs)
    · rw [if_neg hg]
      exact ih _ hs

theorem foldl_MA_mono (env : RCEnv ρ) (dir : Bool) (pre : Nat → List Nat) :
    ∀ (L : List Nat) (s : RCSt ρ) (a : Nat), a ∈ s.avlist →
      a ∈ (L.foldl (fun s w => if (pre w).all (fun p => s.sched p)
        then MakeAvailable env dir s w else s) s).avlist := by
  intro L
  induction L with
  | nil => exact fun s a h => h
  | cons w rest ih =>
    intro s a ha
    rw [List.foldl_cons]
    by_cases hg : (pre w).all (fun p => s.sched p)
    · rw [if_pos hg]
      exact ih _ _ (MakeAvailable_mono env dir s w a ha)
    · rw [if_neg hg]
      exact ih _ _ ha

theorem rcStep_nodup (env : RCEnv ρ) (dir : Bool) {st : RCSt ρ}
    (h : st.avlist.Nodup) : (rcStep env dir st).avlist.Nodup := by
  unfold rcStep
  cases hsel : SelectAvailable env dir st with
  | none => exact h
  | some v =>
    dsimp only
    unfold TakeAvailable
    have h1 : (st.avlist.filter (fun x => decide (x ≠ v))).Nodup := h.filter _
    cases dir
    · simp only [Bool.false_eq_true, if_false]
      exact foldl_MA_nodup env false (succs env.E) _ _ h1
    · simp only [if_true]
      exact foldl_MA_nodup env true (preds env.E) _ _ h1

/-- C9: the available list of the resource-constrained list scheduler never
contains duplicate nodes: it starts as a one-element list, `MakeAvailable`
skips insertion when the node is already present, and removal only filters;
so after any number of loop iterations, in either direction and for any
resource manager, its elements are distinct. -/
theorem C9_avlist_nodup (env : RCEnv ρ) (dir : Bool) (c0 : Nat → Int) (r0 : ρ)
    (k : Nat) :
    ((rcStep env dir)^[k] (init_available env dir c0 r0)).avlist.Nodup := by
  induction k with
  | zero =>
    show (init_available env dir c0 r0).avlist.Nodup
    unfold init_available
    cases dir <;> simp
  | succ k ih =>
    rw [Function.iterate_succ_apply']
    exact rcStep_nodup env dir ih

/-! ### Dependence preservation of the resource-constrained scheduler

The loop invariant of forward scheduling: nothing in the available list is
scheduled, every available node's cycle attribute dominates its (all
scheduled) predecessors by the arc weights, dependences between scheduled
nodes are honored, and SOURCE is scheduled or still available.  `RCCoverF`
additionally records that an unscheduled node is available or blocked on an
unscheduled predecessor. -/

structure RCSubF (E : List Edge) (st : RCSt ρ) : Prop where
  nodup : st.avlist.Nodup
  av_unsched : ∀ v ∈ st.avlist, st.sched v = false
  av_deps : ∀ v ∈ st.avlist, ∀ e ∈ E, e.tgt = v →
    st.sched e.src = true ∧ st.cyc e.src + e.weight ≤ st.cyc v
  dep_ok : ∀ e ∈ E, st.sched e.tgt = true →
    st.sched e.src = true ∧ st.cyc e.src + e.weight ≤ st.cyc e.tgt
  src0 : st.sched 0 = true ∨ 0 ∈ st.avlist

def RCCoverF (E : List Edge) (nn : Nat) (st : RCSt ρ) : Prop :=
  ∀ v, 1 ≤ v → v ≤ nn → st.sched v = false →
    v ∈ st.avlist ∨ ∃ e ∈ E, e.tgt = v ∧ st.sched e.src = false

theorem immediately_schedulable_fwd_le {env : RCEnv ρ} {st : RCSt ρ} {v : Nat}
    (h : immediately_schedulable env true st v = true) : st.cyc v ≤ st.curr := by
  unfold immediately_schedulable at h
  dsimp only at h
  rw [if_pos rfl] at h
  by_cases hc : st.cyc v ≤ st.curr
  · exact hc
  · rw [decide_eq_false hc] at h
    simp at h

theorem mem_preds {E : List Edge} {w p : Nat} :
    p ∈ preds E w ↔ ∃ e ∈ E, e.tgt = w ∧ e.src = p := by
  unfold preds
  simp only [List.mem_map, List.mem_filter, decide_eq_true_eq]
  constructor
  · rintro ⟨e, ⟨he, ht⟩, rfl⟩
    exact ⟨e, he, ht, rfl⟩
  · rintro ⟨e, he, ht, hs⟩
    exact ⟨e, ⟨he, ht⟩, hs⟩

theorem mem_succs {E : List Edge} {v w : Nat} :
    w ∈ succs E v ↔ ∃ e ∈ E, e.src = v ∧ e.tgt = w := by
  unfold succs
  simp only [List.mem_map, List.mem_filter, decide_eq_true_eq]
  constructor
  · rintro ⟨e, ⟨he, hs⟩, rfl⟩
    exact ⟨e, he, hs, rfl⟩
  · rintro ⟨e, he, hs, ht⟩
    exact ⟨e, ⟨he, hs⟩, ht⟩

theorem MakeAvailable_F (env : RCEnv ρ) {s : RCSt ρ} {w : Nat}
    (hinv : RCSubF env.E s)
    (hw : s.sched w = false)
    (hpre : ∀ e ∈ env.E, e.tgt = w → s.sched e.src = true) :
    RCSubF env.E (MakeAvailable env true s w)
      ∧ (MakeAvailable env true s w).sched = s.sched
      ∧ (∀ a ∈ s.avlist, a ∈ (MakeAvailable env true s w).avlist)
      ∧ w ∈ (MakeAvailable env true s w).avlist := by
  by_cases hmem : w ∈ s.avlist
  · have hEq : MakeAvailable env true s w = s := by
      unfold MakeAvailable
      rw [if_pos hmem]
    rw [hEq]
    exact ⟨hinv, rfl, fun a ha => ha, hmem⟩
  · have hsched := MakeAvailable_sched env true s w
    have hav : (MakeAvailable env true s w).avlist
        = insertBeforeFirst (fun x => env.critLT true x w) w s.avlist := by
      rw [MakeAvailable_avlist, if_neg hmem]
    have hcyc : (MakeAvailable env true s w).cyc
        = Function.update s.cyc w (set_cycle_gate_fwd env.E s.cyc w) := by
      rw [MakeAvailable_cyc, if_neg hmem, if_pos rfl]
    have hsrc_ne : ∀ e ∈ env.E, e.tgt = w → e.src ≠ w := by
      intro e he ht hEqw
      have h1 := hpre e he ht
      rw [hEqw, hw] at h1
      exact Bool.false_ne_true h1
    refine ⟨⟨?_, ?_, ?_, ?_, ?_⟩, hsched, ?_, ?_⟩
    · exact MakeAvailable_nodup env true w hinv.nodup
    · intro a ha
      rw [hav, mem_insertBeforeFirst] at ha
      rw [hsched]
      rcases ha with rfl | ha
      · exact hw
      · exact hinv.av_unsched a ha
    · intro a ha e he ht
      rw [hav, mem_insertBeforeFirst] at ha
      rw [hsched, hcyc]
      rcases ha with rfl | ha
      · have hne := hsrc_ne e he ht
        refine ⟨hpre e he ht, ?_⟩
        rw [Function.update_noteq hne, Function.update_same]
        exact foldl_max_ge (fun e => s.cyc e.src + e.weight) _ 0 e
          (List.mem_filter.mpr ⟨he, by simp [ht]⟩)
      · obtain ⟨hs1, hs2⟩ := hinv.av_deps a ha e he ht
        have hne1 : e.src ≠ w := fun hq => by
          rw [hq, hw] at hs1
          exact Bool.false_ne_true hs1
        have hne2 : a ≠ w := fun hq => hmem (hq ▸ ha)
        rw [Function.update_noteq hne1, Function.update_noteq hne2]
        exact ⟨hs1, hs2⟩
    · intro e he ht
      rw [hsched] at ht ⊢
      obtain ⟨hs1, hs2⟩ := hinv.dep_ok e he ht
      have hne1 : e.src ≠ w := fun hq => by
        rw [hq, hw] at hs1
        exact Bool.false_ne_true hs1
      have hne2 : e.tgt ≠ w := fun hq => by
        rw [hq, hw] at ht
        exact Bool.false_ne_true ht
      rw [hcyc, Function.update_noteq hne1, Function.update_noteq hne2]
      exact ⟨hs1, hs2⟩
    · rcases hinv.src0 with h | h
      · exact Or.inl (by rw [hsched]; exact h)
      · exact Or.inr (MakeAvailable_mono env true s w 0 h)
    · exact fun a ha => MakeAvailable_mono env true s w a ha
    · exact MakeAvailable_mem_self env true s w

theorem TakeFold_F (env : RCEnv ρ) :
    ∀ (L : List Nat) (s : RCSt ρ), RCSubF env.E s → (∀ w ∈ L, s.sched w = false) →
      RCSubF env.E (L.foldl (fun s w => if (preds env.E w).all (fun p => s.sched p)
          then MakeAvailable env true s w else s) s)
      ∧ (L.foldl (fun s w => if (preds env.E w).all (fun p => s.sched p)
          then MakeAvailable env true s w else s) s).sched = s.sched
      ∧ (∀ a ∈ s.avlist, a ∈ (L.foldl (fun s w => if (preds env.E w).all (fun p => s.sched p)
          then MakeAvailable env true s w else s) s).avlist)
      ∧ ∀ w ∈ L, w ∈ (L.foldl (fun s w => if (preds env.E w).all (fun p => s.sched p)
          then MakeAvailable env true s w else s) s).avlist
        ∨ ∃ e ∈ env.E, e.tgt = w ∧ s.sched e.src = false := by
  intro L
  induction L with
  | nil =>
    intro s hinv _
    exact ⟨hinv, rfl, fun a ha => ha, by simp⟩
  | cons w rest ih =>
    intro s hinv hws
    rw [List.foldl_cons]
    by_cases hg : (preds env.E w).all (fun p => s.sched p)
    · rw [if_pos hg]
      have hpre : ∀ e ∈ env.E, e.tgt = w → s.sched e.src = true := by
        intro e he ht
        exact List.all_eq_true.mp hg e.src
          (mem_preds.mpr ⟨e, he, ht, rfl⟩)
      obtain ⟨hinv2, hsch2, hmono2, hself2⟩ :=
        MakeAvailable_F env hinv (hws w (by simp)) hpre
      obtain ⟨hinv3, hsch3, hmono3, hcl3⟩ := ih (MakeAvailable env true s w) hinv2
        (fun x hx => by rw [hsch2]; exact hws x (by simp [hx]))
      refine ⟨hinv3, by rw [hsch3, hsch2], fun a ha => hmono3 a (hmono2 a ha), ?_⟩
      intro x hx
      rcases List.mem_cons.mp hx with rfl | hx
      · exact Or.inl (hmono3 x hself2)
      · rcases hcl3 x hx with h | ⟨e, he, ht, hs⟩
        · exact Or.inl h
        · exact Or.inr ⟨e, he, ht, by rw [← hsch2]; exact hs⟩
    · rw [if_neg hg]
      obtain ⟨hinv3, hsch3, hmono3, hcl3⟩ := ih s hinv (fun x hx => hws x (by simp [hx]))
      refine ⟨hinv3, hsch3, hmono3, ?_⟩
      intro x hx
      rcases List.mem_cons.mp hx with rfl | hx
      · refine Or.inr ?_
        rw [List.all_eq_true] at hg
        push_neg at hg
        obtain ⟨p, hp, hps⟩ := hg
        obtain ⟨e, he, ht, hsrc⟩ := mem_preds.mp hp
        exact ⟨e, he, ht, by rw [hsrc]; exact Bool.not_eq_true _ ▸ (by simpa using hps)⟩
      · exact hcl3 x hx

theorem rcStep_F (env : RCEnv ρ) {nn : Nat} (hwf : ∀ e ∈ env.E, e.src < e.tgt)
    {st : RCSt ρ} (hinv : RCSubF env.E st) (hcov : RCCoverF env.E nn st) :
    RCSubF env.E (rcStep env true st) ∧ RCCoverF env.E nn (rcStep env true st) := by
  cases hsel : SelectAvailable env true st with
  | none =>
    have hEq : rcStep env true st = AdvanceCurrCycle true st := by
      unfold rcStep
      rw [hsel]
    rw [hEq]
    exact ⟨⟨hinv.nodup, hinv.av_unsched, hinv.av_deps, hinv.dep_ok, hinv.src0⟩, hcov⟩
  | some v =>
    have hv : v ∈ st.avlist := List.mem_of_find?_eq_some hsel
    have him : immediately_schedulable env true st v = true := List.find?_some hsel
    have hle : st.cyc v ≤ st.curr := immediately_schedulable_fwd_le him
    have hvuns : st.sched v = false := hinv.av_unsched v hv
    set st2 : RCSt ρ :=
      { cyc := Function.update st.cyc v st.curr,
        sched := Function.update st.sched v true,
        avlist := st.avlist.filter (fun x => decide (x ≠ v)),
        curr := st.curr,
        rm := if rmBypass env.ckt.length v (nodeGate env.ckt v) then st.rm
              else env.iface.reserve st.rm st.curr (nodeGate env.ckt v) } with hst2
    have hEq : rcStep env true st
        = (succs env.E v).foldl (fun s w => if (preds env.E w).all (fun p => s.sched p)
            then MakeAvailable env true s w else s) st2 := by
      unfold rcStep
      rw [hsel]
      dsimp only
      unfold TakeAvailable
      rw [if_pos rfl]
    have hsub2 : RCSubF env.E st2 := by
      refine ⟨hinv.nodup.filter _, ?_, ?_, ?_, ?_⟩
      · intro a ha
        obtain ⟨ha1, ha2⟩ := List.mem_filter.mp ha
        have hane : a ≠ v := by simpa using ha2
        show Function.update st.sched v true a = false
        rw [Function.update_noteq hane]
        exact hinv.av_unsched a ha1
      · intro a ha e he ht
        obtain ⟨ha1, ha2⟩ := List.mem_filter.mp ha
        have hane : a ≠ v := by simpa using ha2
        obtain ⟨hs1, hs2⟩ := hinv.av_deps a ha1 e he ht
        have hsne : e.src ≠ v := fun hq => by
          rw [hq, hvuns] at hs1
          exact Bool.false_ne_true hs1
        show Function.update st.sched v true e.src = true
          ∧ Function.update st.cyc v st.curr e.src + (e.weight : Int)
            ≤ Function.update st.cyc v st.curr a
        rw [Function.update_noteq hsne, Function.update_noteq hsne,
          Function.update_noteq hane]
        exact ⟨hs1, hs2⟩
      · intro e he ht
        by_cases htv : e.tgt = v
        · obtain ⟨hs1, hs2⟩ := hinv.av_deps v hv e he htv
          have hsne : e.src ≠ v := fun hq => by
            rw [hq, hvuns] at hs1
            exact Bool.false_ne_true hs1
          show Function.update st.sched v true e.src = true
            ∧ Function.update st.cyc v st.curr e.src + (e.weight : Int)
              ≤ Function.update st.cyc v st.curr e.tgt
          rw [Function.update_noteq hsne, Function.update_noteq hsne, htv,
            Function.update_same]
          exact ⟨hs1, le_trans hs2 hle⟩
        · have ht2 : st.sched e.tgt = true := by
            have : st2.sched e.tgt = Function.update st.sched v true e.tgt := rfl
            rw [this, Function.update_noteq htv] at ht
            exact ht
          obtain ⟨hs1, hs2⟩ := hinv.dep_ok e he ht2
          have hsne : e.src ≠ v := fun hq => by
            rw [hq, hvuns] at hs1
            exact Bool.false_ne_true hs1
          show Function.update st.sched v true e.src = true
            ∧ Function.update st.cyc v st.curr e.src + (e.weight : Int)
              ≤ Function.update st.cyc v st.curr e.tgt
          rw [Function.update_noteq hsne, Function.update_noteq hsne,
            Function.update_noteq htv]
          exact ⟨hs1, hs2⟩
      · by_cases hv0 : v = 0
        · subst hv0
          exact Or.inl (by show Function.update st.sched 0 true 0 = true; simp)
        · rcases hinv.src0 with h | h
          · refine Or.inl ?_
            show Function.update st.sched v true 0 = true
            rw [Function.update_noteq (fun hq => hv0 hq.symm)]
            exact h
          · refine Or.inr (List.mem_filter.mpr ⟨h, ?_⟩)
            simp only [ne_eq, decide_eq_true_eq]
            exact fun hq => hv0 hq.symm
    have hws : ∀ w ∈ succs env.E v, st2.sched w = false := by
      intro w hw
      obtain ⟨e, he, hs, ht⟩ := mem_succs.mp hw
      have hlt : v < w := by
        have := hwf e he
        omega
      have hwne : w ≠ v := by omega
      show Function.update st.sched v true w = false
      rw [Function.update_noteq hwne]
      cases hsw : st.sched w with
      | false => rfl
      | true =>
        exfalso
        have := (hinv.dep_ok e he (ht ▸ hsw)).1
        rw [hs, hvuns] at this
        exact Bool.false_ne_true this
    obtain ⟨hsubF, hschF, hmonoF, hclF⟩ := TakeFold_F env (succs env.E v) st2 hsub2 hws
    constructor
    · rw [hEq]
      exact hsubF
    · intro u h1 h2 hu
      rw [hEq] at hu ⊢
      rw [hschF] at hu
      have hune : u ≠ v := fun hq => by
        rw [hq] at hu
        have : st2.sched v = true := by
          show Function.update st.sched v true v = true
          simp
        rw [this] at hu
        exact Bool.noConfusion hu
      have hu_old : st.sched u = false := by
        have : st2.sched u = Function.update st.sched v true u := rfl
        rw [this, Function.update_noteq hune] at hu
        exact hu
      rcases hcov u h1 h2 hu_old with h | ⟨e, he, ht, hsrc⟩
      · refine Or.inl (hmonoF u (List.mem_filter.mpr ⟨h, ?_⟩))
        simp only [ne_eq, decide_eq_true_eq]
        exact hune
      · by_cases hsv : e.src = v
        · have husucc : u ∈ succs env.E v := mem_succs.mpr ⟨e, he, hsv, ht⟩
          rcases hclF u husucc with h | ⟨e2, he2, ht2, hs2⟩
          · exact Or.inl h
          · exact Or.inr ⟨e2, he2, ht2, by rw [hschF]; exact hs2⟩
        · refine Or.inr ⟨e, he, ht, ?_⟩
          rw [hschF]
          show Function.update st.sched v true e.src = false
          rw [Function.update_noteq hsv]
          exact hsrc

theorem rcRun_F (env : RCEnv ρ) {nn : Nat} (hwf : ∀ e ∈ env.E, e.src < e.tgt) :
    ∀ (fuel : Nat) (st fin : RCSt ρ), RCSubF env.E st → RCCoverF env.E nn st →
      rcRun env true fuel st = some fin →
      RCSubF env.E fin ∧ RCCoverF env.E nn fin ∧ fin.avlist = [] := by
  intro fuel
  induction fuel with
  | zero =>
    intro st fin _ _ h
    exact absurd h (by simp [rcRun])
  | succ k ih =>
    intro st fin hsub hcov h
    unfold rcRun at h
    by_cases he : st.avlist.isEmpty
    · rw [if_pos he] at h
      obtain rfl := Option.some.inj h
      exact ⟨hsub, hcov, List.isEmpty_iff.mp he⟩
    · rw [if_neg he] at h
      obtain ⟨hsub2, hcov2⟩ := rcStep_F env hwf hsub hcov
      exact ih _ _ hsub2 hcov2 h

theorem init_available_F (env : RCEnv ρ) (nn : Nat) (c0 : Nat → Int) (r0 : ρ)
    (hwf : ∀ e ∈ env.E, e.src < e.tgt)
    (hin : ∀ v, 1 ≤ v → v ≤ nn → ∃ e ∈ env.E, e.tgt = v) :
    RCSubF env.E (init_available env true c0 r0)
      ∧ RCCoverF env.E nn (init_available env true c0 r0) := by
  have hEq : init_available env true c0 r0
      = { cyc := Function.update c0 0 0, sched := fun _ => false,
          avlist := [0], curr := 0, rm := r0 } := by
    unfold init_available
    rw [if_pos rfl]
  rw [hEq]
  constructor
  · refine ⟨by simp, fun v _ => rfl, ?_, ?_, Or.inr (by simp)⟩
    · intro v hv e he ht
      simp only [List.mem_singleton] at hv
      subst hv
      have := hwf e he
      omega
    · intro e _ h
      exact absurd h (by simp)
  · intro v h1 h2 _
    obtain ⟨e, he, ht⟩ := hin v h1 h2
    exact Or.inr ⟨e, he, ht, rfl⟩

theorem sched_all_F {env : RCEnv ρ} {n : Nat} {fin : RCSt ρ}
    (hwf : ∀ e ∈ env.E, e.src < e.tgt ∧ e.tgt ≤ n + 1)
    (hsub : RCSubF env.E fin) (hcov : RCCoverF env.E (n + 1) fin)
    (hempty : fin.avlist = []) :
    ∀ v ≤ n + 1, fin.sched v = true := by
  have h0 : fin.sched 0 = true := by
    rcases hsub.src0 with h | h
    · exact h
    · rw [hempty] at h
      exact absurd h (by simp)
  have key : ∀ v, ∀ u, u ≤ v → u ≤ n + 1 → fin.sched u = true := by
    intro v
    induction v with
    | zero =>
      intro u hu _
      obtain rfl : u = 0 := by omega
      exact h0
    | succ k ih =>
      intro u hu hun
      by_cases huk : u ≤ k
      · exact ih u huk hun
      · obtain rfl : u = k + 1 := by omega
        cases hsched : fin.sched (k + 1) with
        | true => rfl
        | false =>
          exfalso
          rcases hcov (k + 1) (by omega) hun hsched with h | ⟨e, he, ht, hs⟩
          · rw [hempty] at h
            exact absurd h (by simp)
          · have hlt : e.src < k + 1 := ht ▸ (hwf e he).1
            rw [ih e.src (by omega) (by omega)] at hs
            exact Bool.noConfusion hs
  exact fun v hv => key v v le_rfl hv

/-- After a successful forward RC run, every arc of the graph is honored by
the final cycle attributes. -/
theorem rcRun_fwd_dep (env : RCEnv ρ) (n : Nat) (c0 : Nat → Int) (r0 : ρ)
    (fuel : Nat) (fin : RCSt ρ)
    (hwf : ∀ e ∈ env.E, e.src < e.tgt ∧ e.tgt ≤ n + 1)
    (hin : ∀ v, 1 ≤ v → v ≤ n + 1 → ∃ e ∈ env.E, e.tgt = v)
    (hrun : rcRun env true fuel (init_available env true c0 r0) = some fin) :
    ∀ e ∈ env.E, fin.cyc e.src + e.weight ≤ fin.cyc e.tgt := by
  have hwf1 : ∀ e ∈ env.E, e.src < e.tgt := fun e he => (hwf e he).1
  obtain ⟨hsubI, hcovI⟩ := init_available_F env (n + 1) c0 r0 hwf1 hin
  obtain ⟨hsub, hcov, hempty⟩ := rcRun_F env hwf1 fuel _ fin hsubI hcovI hrun
  intro e he
  have htgt : fin.sched e.tgt = true :=
    sched_all_F hwf hsub hcov hempty e.tgt (hwf e he).2
  exact (hsub.dep_ok e he htgt).2

/-! ### The backward (ALAP with RC) direction, mirrored -/

structure RCSubB (E : List Edge) (nn : Nat) (st : RCSt ρ) : Prop where
  nodup : st.avlist.Nodup
  av_unsched : ∀ v ∈ st.avlist, st.sched v = false
  av_deps : ∀ v ∈ st.avlist, ∀ e ∈ E, e.src = v →
    st.sched e.tgt = true ∧ st.cyc v + e.weight ≤ st.cyc e.tgt
  dep_ok : ∀ e ∈ E, st.sched e.src = true →
    st.sched e.tgt = true ∧ st.cyc e.src + e.weight ≤ st.cyc e.tgt
  sink0 : st.sched nn = true ∨ nn ∈ st.avlist

def RCCoverB (E : List Edge) (nn : Nat) (st : RCSt ρ) : Prop :=
  ∀ v, v < nn → st.sched v = false →
    v ∈ st.avlist ∨ ∃ e ∈ E, e.src = v ∧ st.sched e.tgt = false

theorem immediately_schedulable_bwd_ge {env : RCEnv ρ} {st : RCSt ρ} {v : Nat}
    (h : immediately_schedulable env false st v = true) : st.curr ≤ st.cyc v := by
  unfold immediately_schedulable at h
  dsimp only at h
  rw [if_neg Bool.false_ne_true] at h
  by_cases hc : st.curr ≤ st.cyc v
  · exact hc
  · rw [decide_eq_false hc] at h
    simp at h

theorem MakeAvailable_B (env : RCEnv ρ) {nn : Nat} {s : RCSt ρ} {w : Nat}
    (hinv : RCSubB env.E nn s)
    (hw : s.sched w = false)
    (hpost : ∀ e ∈ env.E, e.src = w → s.sched e.tgt = true) :
    RCSubB env.E nn (MakeAvailable env false s w)
      ∧ (MakeAvailable env false s w).sched = s.sched
      ∧ (∀ a ∈ s.avlist, a ∈ (MakeAvailable env false s w).avlist)
      ∧ w ∈ (MakeAvailable env false s w).avlist := by
  by_cases hmem : w ∈ s.avlist
  · have hEq : MakeAvailable env false s w = s := by
      unfold MakeAvailable
      rw [if_pos hmem]
    rw [hEq]
    exact ⟨hinv, rfl, fun a ha => ha, hmem⟩
  · have hsched := MakeAvailable_sched env false s w
    have hav : (MakeAvailable env false s w).avlist
        = insertBeforeFirst (fun x => env.critLT false x w) w s.avlist := by
      rw [MakeAvailable_avlist, if_neg hmem]
    have hcyc : (MakeAvailable env false s w).cyc
        = Function.update s.cyc w (set_cycle_gate_bwd env.maxc env.E s.cyc w) := by
      rw [MakeAvailable_cyc, if_neg hmem, if_neg Bool.false_ne_true]
    have htgt_ne : ∀ e ∈ env.E, e.src = w → e.tgt ≠ w := by
      intro e he hs hEqw
      have h1 := hpost e he hs
      rw [hEqw, hw] at h1
      exact Bool.false_ne_true h1
    refine ⟨⟨?_, ?_, ?_, ?_, ?_⟩, hsched, ?_, ?_⟩
    · exact MakeAvailable_nodup env false w hinv.nodup
    · intro a ha
      rw [hav, mem_insertBeforeFirst] at ha
      rw [hsched]
      rcases ha with rfl | ha
      · exact hw
      · exact hinv.av_unsched a ha
    · intro a ha e he hs
      rw [hav, mem_insertBeforeFirst] at ha
      rw [hsched, hcyc]
      rcases ha with rfl | ha
      · have hne := htgt_ne e he hs
        refine ⟨hpost e he hs, ?_⟩
        rw [Function.update_noteq hne, Function.update_same]
        have h2 : set_cycle_gate_bwd env.maxc env.E s.cyc a ≤ s.cyc e.tgt - e.weight :=
          foldl_min_le (fun e => s.cyc e.tgt - e.weight) _ env.maxc e
            (List.mem_filter.mpr ⟨he, by simp only [decide_eq_true_eq]; exact hs⟩)
        omega
      · obtain ⟨hs1, hs2⟩ := hinv.av_deps a ha e he hs
        have hne1 : e.tgt ≠ w := fun hq => by
          rw [hq, hw] at hs1
          exact Bool.false_ne_true hs1
        have hne2 : a ≠ w := fun hq => hmem (hq ▸ ha)
        rw [Function.update_noteq hne1, Function.update_noteq hne2]
        exact ⟨hs1, hs2⟩
    · intro e he hs
      rw [hsched] at hs ⊢
      obtain ⟨hs1, hs2⟩ := hinv.dep_ok e he hs
      have hne1 : e.tgt ≠ w := fun hq => by
        rw [hq, hw] at hs1
        exact Bool.false_ne_true hs1
      have hne2 : e.src ≠ w := fun hq => by
        rw [hq, hw] at hs
        exact Bool.false_ne_true hs
      rw [hcyc, Function.update_noteq hne1, Function.update_noteq hne2]
      exact ⟨hs1, hs2⟩
    · rcases hinv.sink0 with h | h
      · exact Or.inl (by rw [hsched]; exact h)
      · exact Or.inr (MakeAvailable_mono env false s w nn h)
    · exact fun a ha => MakeAvailable_mono env false s w a ha
    · exact MakeAvailable_mem_self env false s w

theorem TakeFold_B (env : RCEnv ρ) {nn : Nat} :
    ∀ (L : List Nat) (s : RCSt ρ), RCSubB env.E nn s → (∀ w ∈ L, s.sched w = false) →
      RCSubB env.E nn (L.foldl (fun s w => if (succs env.E w).all (fun q => s.sched q)
          then MakeAvailable env false s w else s) s)
      ∧ (L.foldl (fun s w => if (succs env.E w).all (fun q => s.sched q)
          then MakeAvailable env false s w else s) s).sched = s.sched
      ∧ (∀ a ∈ s.avlist, a ∈ (L.foldl (fun s w => if (succs env.E w).all (fun q => s.sched q)
          then MakeAvailable env false s w else s) s).avlist)
      ∧ ∀ w ∈ L, w ∈ (L.foldl (fun s w => if (succs env.E w).all (fun q => s.sched q)
          then MakeAvailable env false s w else s) s).avlist
        ∨ ∃ e ∈ env.E, e.src = w ∧ s.sched e.tgt = false := by
  intro L
  induction L with
  | nil =>
    intro s hinv _
    exact ⟨hinv, rfl, fun a ha => ha, by simp⟩
  | cons w rest ih =>
    intro s hinv hws
    rw [List.foldl_cons]
    by_cases hg : (succs env.E w).all (fun q => s.sched q)
    · rw [if_pos hg]
      have hpost : ∀ e ∈ env.E, e.src = w → s.sched e.tgt = true := by
        intro e he hs
        exact List.all_eq_true.mp hg e.tgt (mem_succs.mpr ⟨e, he, hs, rfl⟩)
      obtain ⟨hinv2, hsch2, hmono2, hself2⟩ :=
        MakeAvailable_B env hinv (hws w (by simp)) hpost
      obtain ⟨hinv3, hsch3, hmono3, hcl3⟩ := ih (MakeAvailable env false s w) hinv2
        (fun x hx => by rw [hsch2]; exact hws x (by simp [hx]))
      refine ⟨hinv3, by rw [hsch3, hsch2], fun a ha => hmono3 a (hmono2 a ha), ?_⟩
      intro x hx
      rcases List.mem_cons.mp hx with rfl | hx
      · exact Or.inl (hmono3 x hself2)
      · rcases hcl3 x hx with h | ⟨e, he, hs, ht⟩
        · exact Or.inl h
        · exact Or.inr ⟨e, he, hs, by rw [← hsch2]; exact ht⟩
    · rw [if_neg hg]
      obtain ⟨hinv3, hsch3, hmono3, hcl3⟩ := ih s hinv (fun x hx => hws x (by simp [hx]))
      refine ⟨hinv3, hsch3, hmono3, ?_⟩
      intro x hx
      rcases List.mem_cons.mp hx with rfl | hx
      · refine Or.inr ?_
        rw [List.all_eq_true] at hg
        push_neg at hg
        obtain ⟨q, hq, hqs⟩ := hg
        obtain ⟨e, he, hs, ht⟩ := mem_succs.mp hq
        exact ⟨e, he, hs, by rw [ht]; exact Bool.not_eq_true _ ▸ (by simpa using hqs)⟩
      · exact hcl3 x hx

theorem rcStep_B (env : RCEnv ρ) {nn : Nat} (hwf : ∀ e ∈ env.E, e.src < e.tgt)
    {st : RCSt ρ} (hinv : RCSubB env.E nn st) (hcov : RCCoverB env.E nn st) :
    RCSubB env.E nn (rcStep env false st) ∧ RCCoverB env.E nn (rcStep env false st) := by
  cases hsel : SelectAvailable env false st with
  | none =>
    have hEq : rcStep env false st = AdvanceCurrCycle false st := by
      unfold rcStep
      rw [hsel]
    rw [hEq]
    exact ⟨⟨hinv.nodup, hinv.av_unsched, hinv.av_deps, hinv.dep_ok, hinv.sink0⟩, hcov⟩
  | some v =>
    have hv : v ∈ st.avlist := List.mem_of_find?_eq_some hsel
    have him : immediately_schedulable env false st v = true := List.find?_some hsel
    have hge : st.curr ≤ st.cyc v := immediately_schedulable_bwd_ge him
    have hvuns : st.sched v = false := hinv.av_unsched v hv
    set st2 : RCSt ρ :=
      { cyc := Function.update st.cyc v st.curr,
        sched := Function.update st.sched v true,
        avlist := st.avlist.filter (fun x => decide (x ≠ v)),
        curr := st.curr,
        rm := if rmBypass env.ckt.length v (nodeGate env.ckt v) then st.rm
              else env.iface.reserve st.rm st.curr (nodeGate env.ckt v) } with hst2
    have hEq : rcStep env false st
        = (preds env.E v).foldl (fun s w => if (succs env.E w).all (fun q => s.sched q)
            then MakeAvailable env false s w else s) st2 := by
      unfold rcStep
      rw [hsel]
      dsimp only
      unfold TakeAvailable
      rw [if_neg Bool.false_ne_true]
    have hsub2 : RCSubB env.E nn st2 := by
      refine ⟨hinv.nodup.filter _, ?_, ?_, ?_, ?_⟩
      · intro a ha
        obtain ⟨ha1, ha2⟩ := List.mem_filter.mp ha
        have hane : a ≠ v := by simpa using ha2
        show Function.update st.sched v true a = false
        rw [Function.update_noteq hane]
        exact hinv.av_unsched a ha1
      · intro a ha e he hs
        obtain ⟨ha1, ha2⟩ := List.mem_filter.mp ha
        have hane : a ≠ v := by simpa using ha2
        obtain ⟨hs1, hs2⟩ := hinv.av_deps a ha1 e he hs
        have htne : e.tgt ≠ v := fun hq => by
          rw [hq, hvuns] at hs1
          exact Bool.false_ne_true hs1
        show Function.update st.sched v true e.tgt = true
          ∧ Function.update st.cyc v st.curr a + (e.weight : Int)
            ≤ Function.update st.cyc v st.curr e.tgt
        rw [Function.update_noteq htne, Function.update_noteq htne,
          Function.update_noteq hane]
        exact ⟨hs1, hs2⟩
      · intro e he hs
        by_cases hsv : e.src = v
        · obtain ⟨hs1, hs2⟩ := hinv.av_deps v hv e he hsv
          have htne : e.tgt ≠ v := fun hq => by
            rw [hq, hvuns] at hs1
            exact Bool.false_ne_true hs1
          show Function.update st.sched v true e.tgt = true
            ∧ Function.update st.cyc v st.curr e.src + (e.weight : Int)
              ≤ Function.update st.cyc v st.curr e.tgt
          rw [Function.update_noteq htne, Function.update_noteq htne, hsv,
            Function.update_same]
          refine ⟨hs1, ?_⟩
          have := hs2
          omega
        · have hs2 : st.sched e.src = true := by
            have : st2.sched e.src = Function.update st.sched v true e.src := rfl
            rw [this, Function.update_noteq hsv] at hs
            exact hs
          obtain ⟨hs1, hs3⟩ := hinv.dep_ok e he hs2
          have htne : e.tgt ≠ v := fun hq => by
            rw [hq, hvuns] at hs1
            exact Bool.false_ne_true hs1
          show Function.update st.sched v true e.tgt = true
            ∧ Function.update st.cyc v st.curr e.src + (e.weight : Int)
              ≤ Function.update st.cyc v st.curr e.tgt
          rw [Function.update_noteq htne, Function.update_noteq htne,
            Function.update_noteq hsv]
          exact ⟨hs1, hs3⟩
      · by_cases hvn : v = nn
        · subst hvn
          exact Or.inl (by show Function.update st.sched v true v = true; simp)
        · rcases hinv.sink0 with h | h
          · refine Or.inl ?_
            show Function.update st.sched v true nn = true
            rw [Function.update_noteq (fun hq => hvn hq.symm)]
            exact h
          · refine Or.inr (List.mem_filter.mpr ⟨h, ?_⟩)
            simp only [ne_eq, decide_eq_true_eq]
            exact fun hq => hvn hq.symm
    have hws : ∀ w ∈ preds env.E v, st2.sched w = false := by
      intro w hw
      obtain ⟨e, he, ht, hs⟩ := mem_preds.mp hw
      have hlt : w < v := by
        have := hwf e he
        omega
      have hwne : w ≠ v := by omega
      show Function.update st.sched v true w = false
      rw [Function.update_noteq hwne]
      cases hsw : st.sched w with
      | false => rfl
      | true =>
        exfalso
        have := (hinv.dep_ok e he (hs ▸ hsw)).1
        rw [ht, hvuns] at this
        exact Bool.false_ne_true this
    obtain ⟨hsubF, hschF, hmonoF, hclF⟩ := TakeFold_B env (preds env.E v) st2 hsub2 hws
    constructor
    · rw [hEq]
      exact hsubF
    · intro u h1 hu
      rw [hEq] at hu ⊢
      rw [hschF] at hu
      have hune : u ≠ v := fun hq => by
        rw [hq] at hu
        have : st2.sched v = true := by
          show Function.update st.sched v true v = true
          simp
        rw [this] at hu
        exact Bool.noConfusion hu
      have hu_old : st.sched u = false := by
        have : st2.sched u = Function.update st.sched v true u := rfl
        rw [this, Function.update_noteq hune] at hu
        exact hu
      rcases hcov u h1 hu_old with h | ⟨e, he, hs, ht⟩
      · refine Or.inl (hmonoF u (List.mem_filter.mpr ⟨h, ?_⟩))
        simp only [ne_eq, decide_eq_true_eq]
        exact hune
      · by_cases htv : e.tgt = v
        · have hupred : u ∈ preds env.E v := mem_preds.mpr ⟨e, he, htv, hs⟩
          rcases hclF u hupred with h | ⟨e2, he2, hs2, ht2⟩
          · exact Or.inl h
          · exact Or.inr ⟨e2, he2, hs2, by rw [hschF]; exact ht2⟩
        · refine Or.inr ⟨e, he, hs, ?_⟩
          rw [hschF]
          show Function.update st.sched v true e.tgt = false
          rw [Function.update_noteq htv]
          exact ht

theorem rcRun_B (env : RCEnv ρ) {nn : Nat} (hwf : ∀ e ∈ env.E, e.src < e.tgt) :
    ∀ (fuel : Nat) (st fin : RCSt ρ), RCSubB env.E nn st → RCCoverB env.E nn st →
      rcRun env false fuel st = some fin →
      RCSubB env.E nn fin ∧ RCCoverB env.E nn fin ∧ fin.avlist = [] := by
  intro fuel
  induction fuel with
  | zero =>
    intro st fin _ _ h
    exact absurd h (by simp [rcRun])
  | succ k ih =>
    intro st fin hsub hcov h
    unfold rcRun at h
    by_cases he : st.avlist.isEmpty
    · rw [if_pos he] at h
      obtain rfl := Option.some.inj h
      exact ⟨hsub, hcov, List.isEmpty_iff.mp he⟩
    · rw [if_neg he] at h
      obtain ⟨hsub2, hcov2⟩ := rcStep_B env hwf hsub hcov
      exact ih _ _ hsub2 hcov2 h

theorem init_available_B (env : RCEnv ρ) (c0 : Nat → Int) (r0 : ρ)
    (hwf : ∀ e ∈ env.E, e.src < e.tgt ∧ e.tgt ≤ env.ckt.length + 1)
    (hout : ∀ v ≤ env.ckt.length, ∃ e ∈ env.E, e.src = v) :
    RCSubB env.E (env.ckt.length + 1) (init_available env false c0 r0)
      ∧ RCCoverB env.E (env.ckt.length + 1) (init_available env false c0 r0) := by
  have hEq : init_available env false c0 r0
      = { cyc := Function.update c0 (env.ckt.length + 1) env.sinkc,
          sched := fun _ => false,
          avlist := [env.ckt.length + 1], curr := env.sinkc, rm := r0 } := by
    unfold init_available
    rw [if_neg Bool.false_ne_true]
  rw [hEq]
  constructor
  · refine ⟨by simp, fun v _ => rfl, ?_, ?_, Or.inr (by simp)⟩
    · intro v hv e he hs
      simp only [List.mem_singleton] at hv
      subst hv
      have := hwf e he
      omega
    · intro e _ h
      exact absurd h (by simp)
  · intro v h1 _
    obtain ⟨e, he, hs⟩ := hout v (by omega)
    exact Or.inr ⟨e, he, hs, rfl⟩

theorem sched_all_B {env : RCEnv ρ} {fin : RCSt ρ}
    (hwf : ∀ e ∈ env.E, e.src < e.tgt ∧ e.tgt ≤ env.ckt.length + 1)
    (hsub : RCSubB env.E (env.ckt.length + 1) fin)
    (hcov : RCCoverB env.E (env.ckt.length + 1) fin)
    (hempty : fin.avlist = []) :
    ∀ v ≤ env.ckt.length + 1, fin.sched v = true := by
  set nn := env.ckt.length + 1 with hnn
  have hN : fin.sched nn = true := by
    rcases hsub.sink0 with h | h
    · exact h
    · rw [hempty] at h
      exact absurd h (by simp)
  have key : ∀ k, ∀ u, u ≤ nn → nn - u ≤ k → fin.sched u = true := by
    intro k
    induction k with
    | zero =>
      intro u hu hk
      obtain rfl : u = nn := by omega
      exact hN
    | succ k ih =>
      intro u hu hk
      by_cases hun : u = nn
      · subst hun
        exact hN
      · cases hsched : fin.sched u with
        | true => rfl
        | false =>
          exfalso
          rcases hcov u (by omega) hsched with h | ⟨e, he, hs, ht⟩
          · rw [hempty] at h
            exact absurd h (by simp)
          · have h1 := hwf e he
            have h2 : fin.sched e.tgt = true := by
              refine ih e.tgt (by omega) (by omega)
            rw [h2] at ht
            exact Bool.noConfusion ht
  exact fun v hv => key nn v hv (by omega)

/-- After a successful backward RC run, every arc of the graph is honored by
the final cycle attributes, and SOURCE holds the minimum cycle of all
nodes. -/
theorem rcRun_bwd_dep (env : RCEnv ρ) (c0 : Nat → Int) (r0 : ρ)
    (fuel : Nat) (fin : RCSt ρ)
    (hwf : ∀ e ∈ env.E, e.src < e.tgt ∧ e.tgt ≤ env.ckt.length + 1)
    (hin : ∀ v, 1 ≤ v → v ≤ env.ckt.length + 1 → ∃ e ∈ env.E, e.tgt = v)
    (hout : ∀ v ≤ env.ckt.length, ∃ e ∈ env.E, e.src = v)
    (hrun : rcRun env false fuel (init_available env false c0 r0) = some fin) :
    (∀ e ∈ env.E, fin.cyc e.src + e.weight ≤ fin.cyc e.tgt)
      ∧ ∀ v ≤ env.ckt.length + 1, fin.cyc 0 ≤ fin.cyc v := by
  have hwf1 : ∀ e ∈ env.E, e.src < e.tgt := fun e he => (hwf e he).1
  obtain ⟨hsubI, hcovI⟩ := init_available_B env c0 r0 hwf hout
  obtain ⟨hsub, hcov, hempty⟩ := rcRun_B env hwf1 fuel _ fin hsubI hcovI hrun
  have hdep : ∀ e ∈ env.E, fin.cyc e.src + e.weight ≤ fin.cyc e.tgt := by
    intro e he
    have hsrc : fin.sched e.src = true := by
      refine sched_all_B hwf hsub hcov hempty e.src ?_
      have := hwf e he
      omega
    exact (hsub.dep_ok e he hsrc).2
  refine ⟨hdep, ?_⟩
  have key : ∀ k, ∀ v, v ≤ k → v ≤ env.ckt.length + 1 → fin.cyc 0 ≤ fin.cyc v := by
    intro k
    induction k with
    | zero =>
      intro v hv _
      obtain rfl : v = 0 := by omega
      exact le_rfl
    | succ k ih =>
      intro v hv hvn
      by_cases hv0 : v = 0
      · subst hv0
        exact le_rfl
      · obtain ⟨e, he, ht⟩ := hin v (by omega) hvn
        have h1 := hwf e he
        have h2 := hdep e he
        have h3 : fin.cyc 0 ≤ fin.cyc e.src := by
          refine ih e.src (by omega) (by omega)
        have h4 : (0 : Int) ≤ e.weight := Int.ofNat_nonneg e.weight
        rw [ht] at h2
        omega
  exact fun v hv => key (env.ckt.length + 1) v hv hv

/-! ### ASAP is the least and ALAP the greatest dependence-honoring schedule

These extremal characterizations pin the ALAP SINK cycle after readjustment
to the ASAP SINK cycle (the circuit depth). -/

theorem foldl_max_le (g : Edge → Int) (b : Int) :
    ∀ (l : List Edge) (a : Int), (∀ e ∈ l, g e ≤ b) → a ≤ b →
      l.foldl (fun m x => max m (g x)) a ≤ b := by
  intro l
  induction l with
  | nil => exact fun a _ h => h
  | cons x xs ih =>
    intro a hl ha
    rw [List.foldl_cons]
    exact ih _ (fun e he => hl e (by simp [he]))
      (max_le ha (hl x (by simp)))

theorem foldl_min_ge (g : Edge → Int) (b : Int) :
    ∀ (l : List Edge) (a : Int), (∀ e ∈ l, b ≤ g e) → b ≤ a →
      b ≤ l.foldl (fun m x => min m (g x)) a := by
  intro l
  induction l with
  | nil => exact fun a _ h => h
  | cons x xs ih =>
    intro a hl ha
    rw [List.foldl_cons]
    exact ih _ (fun e he => hl e (by simp [he]))
      (le_min ha (hl x (by simp)))

theorem foldl_comb_congr (f : Int → Int → Int) (g1 g2 : Edge → Int) :
    ∀ (l : List Edge) (a : Int), (∀ e ∈ l, g1 e = g2 e) →
      l.foldl (fun m x => f m (g1 x)) a = l.foldl (fun m x => f m (g2 x)) a := by
  intro l
  induction l with
  | nil => exact fun a _ => rfl
  | cons x xs ih =>
    intro a hl
    rw [List.foldl_cons, List.foldl_cons, hl x (by simp)]
    exact ih _ (fun e he => hl e (by simp [he]))

theorem scg_fwd_congr (E : List Edge) (c1 c2 : Nat → Int) (v : Nat)
    (h : ∀ e ∈ E, e.tgt = v → c1 e.src = c2 e.src) :
    set_cycle_gate_fwd E c1 v = set_cycle_gate_fwd E c2 v := by
  unfold set_cycle_gate_fwd
  refine foldl_comb_congr _ _ _ _ _ ?_
  intro e he
  obtain ⟨heE, het⟩ := List.mem_filter.mp he
  rw [h e heE (by simpa using het)]

theorem scg_bwd_congr (MAXC : Int) (E : List Edge) (c1 c2 : Nat → Int) (v : Nat)
    (h : ∀ e ∈ E, e.src = v → c1 e.tgt = c2 e.tgt) :
    set_cycle_gate_bwd MAXC E c1 v = set_cycle_gate_bwd MAXC E c2 v := by
  unfold set_cycle_gate_bwd
  refine foldl_comb_congr _ _ _ _ _ ?_
  intro e he
  obtain ⟨heE, hes⟩ := List.mem_filter.mp he
  rw [h e heE (by simpa using hes)]

theorem mem_countup {v n : Nat} : v ∈ countup n ↔ 1 ≤ v ∧ v ≤ n := by
  rw [countup, List.mem_reverse]
  exact mem_countdown

theorem asap_zero (E : List Edge) (n : Nat) (c0 : Nat → Int) :
    asapCycles E n c0 0 = 0 := by
  unfold asapCycles
  rw [sweep_not_mem]
  · exact Function.update_same 0 0 c0
  · intro h
    have := mem_countup.mp h
    omega

theorem asap_exact (E : List Edge) (n : Nat) (c0 : Nat → Int)
    (hwf : ∀ e ∈ E, e.src < e.tgt) (v : Nat) (h1 : 1 ≤ v) (h2 : v ≤ n + 1) :
    asapCycles E n c0 v = set_cycle_gate_fwd E (asapCycles E n c0) v := by
  obtain ⟨l2, hl, hgt⟩ := countup_split h1 h2
  have hv :
      asapCycles E n c0 v
        = set_cycle_gate_fwd E
            (sweep (set_cycle_gate_fwd E) (countup (v - 1)) (Function.update c0 0 0)) v := by
    unfold asapCycles
    rw [hl]
    exact sweep_cons_eval _ _ _ _ _ (fun hm => lt_irrefl _ (hgt _ hm))
  rw [hv]
  refine scg_fwd_congr _ _ _ _ ?_
  intro e heE htv
  have hsrc : e.src < v := htv ▸ hwf e heE
  have hstep : asapCycles E n c0 e.src
      = sweep (set_cycle_gate_fwd E) (countup (v - 1)) (Function.update c0 0 0) e.src := by
    unfold asapCycles
    rw [hl]
    refine sweep_prefix_stable _ _ _ _ _ ?_
    intro hm
    rcases List.mem_cons.mp hm with h | h
    · omega
    · exact absurd (hgt _ h) (by omega)
  rw [hstep]

theorem alapPre_sink (S MAXC : Int) (E : List Edge) (n : Nat) (c0 : Nat → Int) :
    alapPre S MAXC E n c0 (n + 1) = S := by
  unfold alapPre
  rw [sweep_not_mem]
  · exact Function.update_same (n + 1) S c0
  · intro h
    rcases List.mem_append.mp h with h | h
    · have := mem_countdown.mp h
      omega
    · simp at h

theorem alapPre_exact (S MAXC : Int) (E : List Edge) (n : Nat) (c0 : Nat → Int)
    (hwf : ∀ e ∈ E, e.src < e.tgt) (v : Nat) (h2 : v ≤ n) :
    alapPre S MAXC E n c0 v
      = set_cycle_gate_bwd MAXC E (alapPre S MAXC E n c0) v := by
  obtain ⟨l1, l2, hl, hlt⟩ :
      ∃ l1 l2, countdown n ++ [0] = l1 ++ v :: l2 ∧ ∀ x ∈ l2, x < v := by
    rcases Nat.eq_zero_or_pos v with h0 | h0
    · exact ⟨countdown n, [], by simp [h0], by simp⟩
    · obtain ⟨l1, hl⟩ := countdown_split h0 h2
      refine ⟨l1, countdown (v - 1) ++ [0], by simp [hl], ?_⟩
      intro x hx
      rcases List.mem_append.mp hx with h | h
      · have := mem_countdown.mp h
        omega
      · simp only [List.mem_singleton] at h
        omega
  have hv :
      alapPre S MAXC E n c0 v
        = set_cycle_gate_bwd MAXC E
            (sweep (set_cycle_gate_bwd MAXC E) l1 (Function.update c0 (n + 1) S)) v := by
    unfold alapPre
    rw [hl]
    exact sweep_cons_eval _ _ _ _ _ (fun hm => lt_irrefl _ (hlt _ hm))
  rw [hv]
  refine scg_bwd_congr _ _ _ _ _ ?_
  intro e heE hsv
  have htgt : v < e.tgt := hsv ▸ hwf e heE
  have hstep : sweep (set_cycle_gate_bwd MAXC E) l1 (Function.update c0 (n + 1) S) e.tgt
      = alapPre S MAXC E n c0 e.tgt := by
    unfold alapPre
    rw [hl]
    refine (sweep_prefix_stable _ _ _ _ _ ?_).symm
    intro hm
    rcases List.mem_cons.mp hm with h | h
    · omega
    · exact absurd (hlt _ h) (by omega)
  rw [hstep]

theorem asap_le_sink (E : List Edge) (n : Nat) (c0 : Nat → Int)
    (hwf : ∀ e ∈ E, e.src < e.tgt ∧ e.tgt ≤ n + 1)
    (hout : ∀ v ≤ n, ∃ e ∈ E, e.src = v) :
    ∀ v ≤ n + 1, asapCycles E n c0 v ≤ asapCycles E n c0 (n + 1) := by
  have key : ∀ k, ∀ v, v ≤ n + 1 → n + 1 - v ≤ k →
      asapCycles E n c0 v ≤ asapCycles E n c0 (n + 1) := by
    intro k
    induction k with
    | zero =>
      intro v hv hk
      obtain rfl : v = n + 1 := by omega
      exact le_rfl
    | succ k ih =>
      intro v hv hk
      by_cases hvn : v = n + 1
      · subst hvn
        exact le_rfl
      · obtain ⟨e, he, hs⟩ := hout v (by omega)
        obtain ⟨h1, h2⟩ := hwf e he
        have hd := asap_dep E n c0 e he h1 h2
        have h3 : asapCycles E n c0 e.tgt ≤ asapCycles E n c0 (n + 1) := by
          refine ih e.tgt h2 (by omega)
        have h4 : (0 : Int) ≤ e.weight := Int.ofNat_nonneg e.weight
        rw [hs] at hd
        omega
  exact fun v hv => key (n + 1) v hv (by omega)

theorem alap_nonneg (S MAXC : Int) (E : List Edge) (n : Nat) (c0 : Nat → Int)
    (hwf : ∀ e ∈ E, e.src < e.tgt ∧ e.tgt ≤ n + 1)
    (hin : ∀ v, 1 ≤ v → v ≤ n + 1 → ∃ e ∈ E, e.tgt = v) :
    ∀ v ≤ n + 1, 0 ≤ alapCycles S MAXC E n c0 v := by
  have h0 : alapCycles S MAXC E n c0 0 = 0 := by
    unfold alapCycles
    omega
  have key : ∀ k, ∀ v, v ≤ k → v ≤ n + 1 → 0 ≤ alapCycles S MAXC E n c0 v := by
    intro k
    induction k with
    | zero =>
      intro v hv _
      obtain rfl : v = 0 := by omega
      omega
    | succ k ih =>
      intro v hv hvn
      by_cases hv0 : v = 0
      · subst hv0
        omega
      · obtain ⟨e, he, ht⟩ := hin v (by omega) hvn
        obtain ⟨h1, h2⟩ := hwf e he
        have hd := alap_dep S MAXC E n c0 e he h1 h2
        have h3 : 0 ≤ alapCycles S MAXC E n c0 e.src := by
          refine ih e.src (by omega) (by omega)
        have h4 : (0 : Int) ≤ e.weight := Int.ofNat_nonneg e.weight
        rw [ht] at hd
        omega
  exact fun v hv => key (n + 1) v hv hv

/-- ASAP minimality: any dependence-honoring nonnegative assignment
dominates the forward `set_cycle` values. -/
theorem asap_min (E : List Edge) (n : Nat) (c0 : Nat → Int)
    (hwf : ∀ e ∈ E, e.src < e.tgt ∧ e.tgt ≤ n + 1)
    (φ : Nat → Int) (hpos : ∀ v ≤ n + 1, 0 ≤ φ v)
    (hdep : ∀ e ∈ E, φ e.src + e.weight ≤ φ e.tgt) :
    ∀ v ≤ n + 1, asapCycles E n c0 v ≤ φ v := by
  have hwf1 : ∀ e ∈ E, e.src < e.tgt := fun e he => (hwf e he).1
  have key : ∀ k, ∀ v, v ≤ k → v ≤ n + 1 → asapCycles E n c0 v ≤ φ v := by
    intro k
    induction k with
    | zero =>
      intro v hv _
      obtain rfl : v = 0 := by omega
      rw [asap_zero]
      exact hpos 0 (by omega)
    | succ k ih =>
      intro v hv hvn
      by_cases hv0 : v = 0
      · subst hv0
        rw [asap_zero]
        exact hpos 0 (by omega)
      · rw [asap_exact E n c0 hwf1 v (by omega) hvn]
        unfold set_cycle_gate_fwd
        refine foldl_max_le _ _ _ _ ?_ (hpos v hvn)
        intro e he
        obtain ⟨heE, het⟩ := List.mem_filter.mp he
        have htv : e.tgt = v := by simpa using het
        have hsrc : e.src < v := htv ▸ (hwf e heE).1
        have h1 : asapCycles E n c0 e.src ≤ φ e.src := by
          refine ih e.src (by omega) (by omega)
        have h2 := hdep e heE
        rw [htv] at h2
        omega
  exact fun v hv => key (n + 1) v hv hv

/-- ALAP maximality: any dependence-honoring assignment that puts SINK at
most at the sentinel and stays below `MAX_CYCLE` is dominated by the
backward `set_cycle` values. -/
theorem alapPre_max (S MAXC : Int) (E : List Edge) (n : Nat) (c0 : Nat → Int)
    (hwf : ∀ e ∈ E, e.src < e.tgt ∧ e.tgt ≤ n + 1)
    (ψ : Nat → Int) (hS : ψ (n + 1) ≤ S) (hM : ∀ v ≤ n + 1, ψ v ≤ MAXC)
    (hdep : ∀ e ∈ E, ψ e.src + e.weight ≤ ψ e.tgt) :
    ∀ v ≤ n + 1, ψ v ≤ alapPre S MAXC E n c0 v := by
  have hwf1 : ∀ e ∈ E, e.src < e.tgt := fun e he => (hwf e he).1
  have key : ∀ k, ∀ v, v ≤ n + 1 → n + 1 - v ≤ k →
      ψ v ≤ alapPre S MAXC E n c0 v := by
    intro k
    induction k with
    | zero =>
      intro v hv hk
      obtain rfl : v = n + 1 := by omega
      rw [alapPre_sink]
      exact hS
    | succ k ih =>
      intro v hv hk
      by_cases hvn : v = n + 1
      · subst hvn
        rw [alapPre_sink]
        exact hS
      · rw [alapPre_exact S MAXC E n c0 hwf1 v (by omega)]
        unfold set_cycle_gate_bwd
        refine foldl_min_ge _ _ _ _ ?_ (hM v hv)
        intro e he
        obtain ⟨heE, hes⟩ := List.mem_filter.mp he
        have hsv : e.src = v := by simpa using hes
        obtain ⟨h1, h2⟩ := hwf e heE
        have h3 : ψ e.tgt ≤ alapPre S MAXC E n c0 e.tgt := by
          refine ih e.tgt h2 (by omega)
        have h4 := hdep e heE
        rw [hsv] at h4
        omega
  exact fun v hv => key (n + 1) v hv (by omega)

/-- After readjustment, the backward SINK cycle equals the forward one: the
ALAP schedule has the same depth as the ASAP schedule. -/
theorem alap_sink_eq_asap_sink (S MAXC : Int) (E : List Edge) (n : Nat)
    (c0 c1 : Nat → Int)
    (hwf : ∀ e ∈ E, e.src < e.tgt ∧ e.tgt ≤ n + 1)
    (hin : ∀ v, 1 ≤ v → v ≤ n + 1 → ∃ e ∈ E, e.tgt = v)
    (hout : ∀ v ≤ n, ∃ e ∈ E, e.src = v)
    (hSM : S ≤ MAXC) :
    alapCycles S MAXC E n c0 (n + 1) = asapCycles E n c1 (n + 1) := by
  have h1 : asapCycles E n c1 (n + 1) ≤ alapCycles S MAXC E n c0 (n + 1) := by
    refine asap_min E n c1 hwf _ (alap_nonneg S MAXC E n c0 hwf hin) ?_ (n + 1) le_rfl
    intro e he
    exact alap_dep S MAXC E n c0 e he (hwf e he).1 (hwf e he).2
  have h2 : alapCycles S MAXC E n c0 (n + 1) ≤ asapCycles E n c1 (n + 1) := by
    have hψ := alapPre_max S MAXC E n c0 hwf
      (fun v => asapCycles E n c1 v + (S - asapCycles E n c1 (n + 1)))
      (by
        show asapCycles E n c1 (n + 1) + (S - asapCycles E n c1 (n + 1)) ≤ S
        omega)
      (by
        intro v hv
        show asapCycles E n c1 v + (S - asapCycles E n c1 (n + 1)) ≤ MAXC
        have := asap_le_sink E n c1 hwf hout v hv
        omega)
      (by
        intro e he
        show asapCycles E n c1 e.src + (S - asapCycles E n c1 (n + 1)) + e.weight
          ≤ asapCycles E n c1 e.tgt + (S - asapCycles E n c1 (n + 1))
        have := asap_dep E n c1 e he (hwf e he).1 (hwf e he).2
        omega)
      0 (by omega)
    dsimp only at hψ
    rw [asap_zero] at hψ
    have hsink := alapPre_sink S MAXC E n c0
    unfold alapCycles
    omega
  omega

/-! ### Claim C4: finalization of backward scheduling

For the plain backward `set_cycle` all three claimed facts hold: after the
readjustment SOURCE sits at cycle 0, every node's cycle is non-negative,
and SINK ends at the circuit depth (the ASAP SINK cycle).  For the backward
resource-constrained scheduler the readjustment, SOURCE at 0 and
non-negativity hold, but SINK's final cycle is the span of the
resource-constrained schedule, which exceeds the circuit depth as soon as
the resource manager delays a gate. -/

/-- A one-qubit gate of one cycle duration. -/
def xGate : SGate :=
  { name := "x", gtype := GType.other, operands := [0], creg_operands := [],
    duration := 1 }

def C4graph : List Edge := buildGraph false [xGate] 1 0 1

/-- A resource manager refusing every cycle above 7. -/
def blockIface : RMIface Unit :=
  { available := fun _ c _ => decide (c ≤ 7), reserve := fun r _ _ => r }

def C4env : RCEnv Unit :=
  { iface := blockIface, E := C4graph, ckt := [xGate],
    critLT := fun _ _ _ => false, maxc := 1000, sinkc := 10 }

/-- A backward RC run on a one-gate circuit whose resource manager refuses
cycles above 7: SINK's final (readjusted) cycle is 4, while the circuit
depth — the ASAP SINK cycle — is 2.  This refutes the claim that the
backward resource-constrained scheduler leaves SINK at the circuit depth. -/
theorem C4_rc_backward_sink_not_depth :
    (rcScheduleCycles C4env false (fun _ => 0) () 50).map (fun c => c 2) = some 4
      ∧ asapCycles C4graph 1 (fun _ => 0) 2 = 2
      ∧ (4 : Int) ≠ 2 := by
  refine ⟨?_, ?_, ?_⟩ <;> decide

/-- C4 (amended): after backward `set_cycle`, SOURCE is readjusted to cycle
0, every node's cycle is non-negative, and SINK's final cycle equals the
circuit depth (the ASAP SINK cycle); after the backward resource-constrained
scheduler, the readjustment likewise puts SOURCE at 0 and leaves every
node's cycle non-negative — but SINK's final cycle is the schedule span,
not in general the depth (see the counterexample). -/
theorem C4_alap_finalization {ρ : Type} (env : RCEnv ρ) (S MAXC : Int)
    (c0 c1 : Nat → Int) (r0 : ρ) (fuel : Nat)
    (hwf : ∀ e ∈ env.E, e.src < e.tgt ∧ e.tgt ≤ env.ckt.length + 1)
    (hin : ∀ v, 1 ≤ v → v ≤ env.ckt.length + 1 → ∃ e ∈ env.E, e.tgt = v)
    (hout : ∀ v ≤ env.ckt.length, ∃ e ∈ env.E, e.src = v)
    (hSM : S ≤ MAXC) :
    (alapCycles S MAXC env.E env.ckt.length c0 0 = 0)
    ∧ (∀ v ≤ env.ckt.length + 1, 0 ≤ alapCycles S MAXC env.E env.ckt.length c0 v)
    ∧ (alapCycles S MAXC env.E env.ckt.length c0 (env.ckt.length + 1)
        = asapCycles env.E env.ckt.length c1 (env.ckt.length + 1))
    ∧ (∀ fin : RCSt ρ, rcRun env false fuel (init_available env false c1 r0) = some fin →
        (fin.cyc 0 - fin.cyc 0 = 0)
          ∧ ∀ v ≤ env.ckt.length + 1, 0 ≤ fin.cyc v - fin.cyc 0) := by
  refine ⟨?_, ?_, ?_, ?_⟩
  · unfold alapCycles
    omega
  · exact alap_nonneg S MAXC env.E env.ckt.length c0 hwf hin
  · exact alap_sink_eq_asap_sink S MAXC env.E env.ckt.length c0 c1 hwf hin hout hSM
  · intro fin hrun
    obtain ⟨hdep, hmin⟩ := rcRun_bwd_dep env c1 r0 fuel fin hwf hin hout hrun
    refine ⟨by omega, ?_⟩
    intro v hv
    have := hmin v hv
    omega

theorem C4_alap_finalization_witness :
    (∀ e ∈ C4env.E, e.src < e.tgt ∧ e.tgt ≤ C4env.ckt.length + 1)
    ∧ ((alapCycles 10 1000 C4env.E C4env.ckt.length (fun _ => 0) 0 = 0)
      ∧ (∀ v ≤ C4env.ckt.length + 1,
          0 ≤ alapCycles 10 1000 C4env.E C4env.ckt.length (fun _ => 0) v)
      ∧ (alapCycles 10 1000 C4env.E C4env.ckt.length (fun _ => 0) (C4env.ckt.length + 1)
          = asapCycles C4env.E C4env.ckt.length (fun _ => 0) (C4env.ckt.length + 1))
      ∧ (∀ fin : RCSt Unit,
          rcRun C4env false 50 (init_available C4env false (fun _ => 0) ()) = some fin →
          (fin.cyc 0 - fin.cyc 0 = 0)
            ∧ ∀ v ≤ C4env.ckt.length + 1, 0 ≤ fin.cyc v - fin.cyc 0)) :=
  ⟨by decide,
    C4_alap_finalization C4env 10 1000 (fun _ => 0) (fun _ => 0) () 50
      (by decide)
      (fun v h1 h2 => by
        have hv : v = 1 ∨ v = 2 := by
          simp only [C4env, List.length_singleton] at h2
          omega
        rcases hv with rfl | rfl <;> decide)
      (fun v h2 => by
        have hv : v = 0 ∨ v = 1 := by
          simp only [C4env, List.length_singleton] at h2
          omega
        rcases hv with rfl | rfl <;> decide)
      (by decide)⟩

/-! ## The uniform scheduler (`Scheduler::schedule_alap_uniform`)

The pass starts from an ASAP schedule, groups the circuit's gates into
bundles per cycle, and in a backward scan moves gates up to fill small
bundles, without extending the circuit.  The bundle-size target compares
`double(bundle.size())` against `double(gate_count)/non_empty_bundle_count`,
both IEEE-754 doubles; `doubleOfNat`/`ltDblDiv` model that comparison
exactly (53-bit significand, round to nearest, ties to even; a zero divisor
gives +inf, making the comparison true).  The inner `while` gets explicit
fuel (the source notes its `O(n^2)` behavior; every property below holds
for every fuel). -/

/-- The exact value of `double(n)` for a natural number (53-bit
significand). -/
def doubleOfNat (n : Nat) : Nat :=
  if n ≤ 2 ^ 53 then n
  else
    let k := nlog2 n - 52
    roundNEdiv n (2 ^ k) * 2 ^ k

/-- Whether `double(a) < double(x)/double(y)` holds, with the quotient
rounded to nearest-even double precision; arguments are the exact values of
the three doubles. -/
def ltDblDiv (a x y : Nat) : Bool :=
  if y = 0 then true
  else if x = 0 then false
  else
    let e : Int := if y ≤ x then (nlog2 (x / y) : Int) else -(clog2 ((y + x - 1) / x) : Int)
    let s : Int := 52 - e
    if 0 ≤ s then
      decide (a * 2 ^ s.toNat < roundNEdiv (x * 2 ^ s.toNat) y)
    else
      decide (a < roundNEdiv x (y * 2 ^ (-s).toNat) * 2 ^ (-s).toNat)

/-- `Scheduler::set_remaining_gate`, forward direction: max over outgoing
arcs of target remaining plus weight. -/
def set_remaining_gate_fwd (E : List Edge) (r : Nat → Int) (v : Nat) : Int :=
  (E.filter (fun e => e.src = v)).foldl (fun m e => max m (r e.tgt + e.weight)) 0

/-- Forward `Scheduler::set_remaining`: SINK gets 0, then the circuit in
reverse program order and finally SOURCE; the cleared map defaults to 0. -/
def set_remaining (E : List Edge) (n : Nat) : Nat → Int :=
  sweep (set_remaining_gate_fwd E) (countdown n ++ [0])
    (Function.update (fun _ => 0) (n + 1) 0)

/-- The mutable state of the uniform pass: cycle attributes, the
`gates_per_cycle` buckets, and the two running counts. -/
structure USt where
  cyc : Nat → Int
  buckets : Int → List Nat
  gate_count : Nat
  nebc : Nat

/-- The fixed data of a uniform-scheduling run. -/
structure UEnv where
  E : List Edge
  dur : Nat → Nat
  ct : Nat
  remaining : Nat → Int
  maxcR : Int
  cycle_count : Nat

/-- The move-forward legality check on a candidate: its completion cycle
`curr_cycle + ceil(float(duration)/cycle_time)` must not exceed
`cycle_count + 1` nor the cycle of any out-neighbor. -/
def candidateOk (env : UEnv) (st : USt) (curr : Nat) (v : Nat) : Bool :=
  let completion : Int := (curr : Int) + fweight (env.dur v) env.ct
  decide (completion ≤ (env.cycle_count : Int) + 1)
    && (succs env.E v).all (fun u => decide (completion ≤ st.cyc u))

/-- The candidate scan over the bundle at `pred_cycle`: among the legal
candidates the one with the smallest `remaining` wins (strictly smaller than
the running minimum, which starts at `MAX_CYCLE`, so the earliest minimal
candidate is kept). -/
def findBest (env : UEnv) (st : USt) (curr : Nat) (cands : List Nat) : Option Nat :=
  (cands.foldl (fun acc v =>
    if candidateOk env st curr v = true ∧ env.remaining v < acc.2
    then (some v, env.remaining v) else acc)
    ((none : Option Nat), env.maxcR)).1

/-- Move a gate from the bundle at `p` to the bundle at `curr`: remove it,
adjust `non_empty_bundle_count` for the emptied source and filled target
bundles, set its cycle, and append it to the target bundle. -/
def moveGate (st : USt) (p : Int) (curr : Int) (v : Nat) : USt :=
  let b1 := (st.buckets p).filter (fun x => decide (x ≠ v))
  let nebc1 := if b1.isEmpty then st.nebc - 1 else st.nebc
  let nebc2 := if (st.buckets curr).isEmpty then nebc1 + 1 else nebc1
  { cyc := Function.update st.cyc v curr,
    buckets := Function.update (Function.update st.buckets p b1) curr
      ((Function.update st.buckets p b1) curr ++ [v]),
    gate_count := st.gate_count,
    nebc := nebc2 }

/-- The inner `while` of the uniform pass: while the current bundle is
smaller than the target `gate_count/non_empty_bundle_count` and
`pred_cycle ≥ 1`, move the best candidate of the bundle at `pred_cycle` up
to `curr_cycle` (breaking out when no non-empty bundle remains), else scan
further back. -/
def uniformInner (env : UEnv) : Nat → USt → Nat → Int → USt
  | 0, st, _, _ => st
  | fuel + 1, st, curr, pred =>
    if ltDblDiv (doubleOfNat (st.buckets (curr : Int)).length)
        (doubleOfNat st.gate_count) (doubleOfNat st.nebc) = true ∧ 1 ≤ pred then
      match findBest env st curr (st.buckets pred) with
      | none => uniformInner env fuel st curr (pred - 1)
      | some v =>
        let st2 := moveGate st pred (curr : Int) v
        if st2.nebc = 0 then st2 else uniformInner env fuel st2 curr pred
    else st

/-- The backward scan over `curr_cycle` from `cycle_count` down to 1; each
finished cycle is masked from the gate and non-empty-bundle counts. -/
def uniformOuter (env : UEnv) (fuel : Nat) : List Nat → USt → USt
  | [], st => st
  | curr :: rest, st =>
    if st.nebc = 0 then st
    else
      let st1 := uniformInner env fuel st curr ((curr : Int) - 1)
      let sz := (st1.buckets (curr : Int)).length
      let st2 : USt :=
        { st1 with
          gate_count := st1.gate_count - sz,
          nebc := if sz ≠ 0 then st1.nebc - 1 else st1.nebc }
      uniformOuter env fuel rest st2

/-- `Scheduler::schedule_alap_uniform`: ASAP cycles, `cycle_count` from
SINK, remaining values, the per-cycle buckets in circuit order, the two
counts over cycles 1 to `cycle_count`, the backward scan, and the final
stable sort of the circuit by cycle. -/
def schedule_alap_uniform (E : List Edge) (n : Nat) (dur : Nat → Nat) (ct : Nat)
    (c0 : Nat → Int) (maxcR : Int) (fuel : Nat) : USt × List Nat :=
  let c := asapCycles E n c0
  let cycle_count := (c (n + 1) - 1).toNat
  let buckets0 := (countup n).foldl
    (fun b v => Function.update b (c v) (b (c v) ++ [v])) (fun _ => [])
  let gc0 := (countup cycle_count).foldl (fun a k => a + (buckets0 (k : Int)).length) 0
  let ne0 := (countup cycle_count).foldl
    (fun a k => a + if (buckets0 (k : Int)).length ≠ 0 then 1 else 0) 0
  let env : UEnv := { E := E, dur := dur, ct := ct, remaining := set_remaining E n,
                      maxcR := maxcR, cycle_count := cycle_count }
  let stF := uniformOuter env fuel (countdown cycle_count)
    { cyc := c, buckets := buckets0, gate_count := gc0, nebc := ne0 }
  (stF, sort_by_cycle stF.cyc (countup n))

/-! ### Invariants of the uniform pass -/

/-- What every reachable state of the uniform pass satisfies: buckets are
coherent with the cycle attributes and contain only circuit gates, SOURCE
and SINK cycles are never touched, and every arc stays honored. -/
structure UInv (env : UEnv) (n : Nat) (asap : Nat → Int) (st : USt) : Prop where
  coh : ∀ (k : Int), ∀ v ∈ st.buckets k, st.cyc v = k
  gates : ∀ (k : Int), ∀ v ∈ st.buckets k, 1 ≤ v ∧ v ≤ n
  frame : ∀ u, u = 0 ∨ n + 1 ≤ u → st.cyc u = asap u
  dep : ∀ e ∈ env.E, st.cyc e.src + e.weight ≤ st.cyc e.tgt

theorem findBest_mem (env : UEnv) (st : USt) (curr : Nat) :
    ∀ (cands : List Nat) (acc : Option Nat × Int) (v : Nat),
      (cands.foldl (fun acc v =>
        if candidateOk env st curr v = true ∧ env.remaining v < acc.2
        then (some v, env.remaining v) else acc) acc).1 = some v →
      acc.1 = some v ∨ (v ∈ cands ∧ candidateOk env st curr v = true) := by
  intro cands
  induction cands with
  | nil => exact fun acc v h => Or.inl h
  | cons x rest ih =>
    intro acc v h
    rw [List.foldl_cons] at h
    by_cases hc : candidateOk env st curr x = true ∧ env.remaining x < acc.2
    · rw [if_pos hc] at h
      rcases ih _ v h with h2 | ⟨h2, h3⟩
      · simp only [Option.some.injEq] at h2
        subst h2
        exact Or.inr ⟨by simp, hc.1⟩
      · exact Or.inr ⟨by simp [h2], h3⟩
    · rw [if_neg hc] at h
      rcases ih _ v h with h2 | ⟨h2, h3⟩
      · exact Or.inl h2
      · exact Or.inr ⟨by simp [h2], h3⟩

theorem candidateOk_spec {env : UEnv} {st : USt} {curr : Nat} {v : Nat}
    (h : candidateOk env st curr v = true) :
    ((curr : Int) + fweight (env.dur v) env.ct ≤ (env.cycle_count : Int) + 1)
      ∧ ∀ e ∈ env.E, e.src = v →
          (curr : Int) + fweight (env.dur v) env.ct ≤ st.cyc e.tgt := by
  unfold candidateOk at h
  rw [Bool.and_eq_true] at h
  obtain ⟨h1, h2⟩ := h
  refine ⟨by simpa using h1, ?_⟩
  intro e he hs
  have := List.all_eq_true.mp h2 e.tgt (mem_succs.mpr ⟨e, he, hs, rfl⟩)
  simpa using this

theorem moveGate_inv {env : UEnv} {n : Nat} {asap : Nat → Int} {st : USt}
    (hinv : UInv env n asap st) {p : Int} {curr : Nat} {v : Nat}
    (hwf : ∀ e ∈ env.E, e.src < e.tgt)
    (hW : ∀ e ∈ env.E, (e.weight : Int) = fweight (env.dur e.src) env.ct)
    (hv : v ∈ st.buckets p)
    (hok : candidateOk env st curr v = true)
    (hlt : p < (curr : Int)) :
    UInv env n asap (moveGate st p (curr : Int) v) := by
  obtain ⟨hc1, hc2⟩ := candidateOk_spec hok
  have hvg : 1 ≤ v ∧ v ≤ n := hinv.gates p v hv
  have hvc : st.cyc v = p := hinv.coh p v hv
  have hpc : p ≠ (curr : Int) := by omega
  have hbc : ∀ x ∈ st.buckets (curr : Int), x ≠ v := by
    intro x hx hq
    subst hq
    rw [hinv.coh _ x hx] at hvc
    exact hpc hvc.symm
  refine ⟨?_, ?_, ?_, ?_⟩
  · intro k x hx
    show Function.update st.cyc v (curr : Int) x = k
    have hbuck : (moveGate st p (curr : Int) v).buckets = Function.update
        (Function.update st.buckets p ((st.buckets p).filter (fun x => decide (x ≠ v))))
        (curr : Int)
        ((Function.update st.buckets p
          ((st.buckets p).filter (fun x => decide (x ≠ v)))) (curr : Int) ++ [v]) := rfl
    rw [hbuck] at hx
    by_cases hk : k = (curr : Int)
    · subst hk
      rw [Function.update_same, Function.update_noteq (fun h => hpc h.symm)] at hx
      rcases List.mem_append.mp hx with hx | hx
      · have hne := hbc x hx
        rw [Function.update_noteq hne]
        exact hinv.coh _ x hx
      · simp only [List.mem_singleton] at hx
        subst hx
        rw [Function.update_same]
    · rw [Function.update_noteq hk] at hx
      by_cases hkp : k = p
      · subst hkp
        rw [Function.update_same] at hx
        obtain ⟨hx1, hx2⟩ := List.mem_filter.mp hx
        have hne : x ≠ v := by simpa using hx2
        rw [Function.update_noteq hne]
        exact hinv.coh _ x hx1
      · rw [Function.update_noteq hkp] at hx
        have hxc := hinv.coh _ x hx
        have hne : x ≠ v := by
          intro hq
          subst hq
          rw [hvc] at hxc
          exact hkp hxc.symm
        rw [Function.update_noteq hne]
        exact hxc
  · intro k x hx
    have hbuck : (moveGate st p (curr : Int) v).buckets = Function.update
        (Function.update st.buckets p ((st.buckets p).filter (fun x => decide (x ≠ v))))
        (curr : Int)
        ((Function.update st.buckets p
          ((st.buckets p).filter (fun x => decide (x ≠ v)))) (curr : Int) ++ [v]) := rfl
    rw [hbuck] at hx
    by_cases hk : k = (curr : Int)
    · subst hk
      rw [Function.update_same, Function.update_noteq (fun h => hpc h.symm)] at hx
      rcases List.mem_append.mp hx with hx | hx
      · exact hinv.gates _ x hx
      · simp only [List.mem_singleton] at hx
        subst hx
        exact hvg
    · rw [Function.update_noteq hk] at hx
      by_cases hkp : k = p
      · subst hkp
        rw [Function.update_same] at hx
        exact hinv.gates _ x (List.mem_filter.mp hx).1
      · rw [Function.update_noteq hkp] at hx
        exact hinv.gates _ x hx
  · intro u hu
    show Function.update st.cyc v (curr : Int) u = asap u
    have hne : u ≠ v := by omega
    rw [Function.update_noteq hne]
    exact hinv.frame u hu
  · intro e he
    show Function.update st.cyc v (curr : Int) e.src + (e.weight : Int)
      ≤ Function.update st.cyc v (curr : Int) e.tgt
    have htne : e.tgt ≠ v ∨ e.src ≠ v := by
      have := hwf e he
      by_cases h1 : e.src = v
      · left
        omega
      · right
        exact h1
    by_cases hsv : e.src = v
    · have htv : e.tgt ≠ v := by
        have := hwf e he
        omega
      rw [Function.update_noteq htv]
      subst hsv
      rw [Function.update_same]
      have h2 := hc2 e he rfl
      rw [hW e he]
      exact h2
    · rw [Function.update_noteq hsv]
      by_cases htv : e.tgt = v
      · subst htv
        rw [Function.update_same]
        have h2 := hinv.dep e he
        rw [hvc] at h2
        omega
      · rw [Function.update_noteq htv]
        exact hinv.dep e he

theorem uniformInner_inv (env : UEnv) (n : Nat) (asap : Nat → Int)
    (hwf : ∀ e ∈ env.E, e.src < e.tgt)
    (hW : ∀ e ∈ env.E, (e.weight : Int) = fweight (env.dur e.src) env.ct) :
    ∀ (fuel : Nat) (st : USt) (curr : Nat) (pred : Int),
      UInv env n asap st → pred < (curr : Int) →
      UInv env n asap (uniformInner env fuel st curr pred) := by
  intro fuel
  induction fuel with
  | zero => exact fun st curr pred hinv _ => hinv
  | succ fuel ih =>
    intro st curr pred hinv hlt
    rw [uniformInner]
    by_cases hg : ltDblDiv (doubleOfNat (st.buckets (curr : Int)).length)
        (doubleOfNat st.gate_count) (doubleOfNat st.nebc) = true ∧ 1 ≤ pred
    · rw [if_pos hg]
      cases hfb : findBest env st curr (st.buckets pred) with
      | none =>
        exact ih st curr (pred - 1) hinv (by omega)
      | some v =>
        have hmem := findBest_mem env st curr (st.buckets pred) (none, env.maxcR) v hfb
        rcases hmem with h | ⟨hv, hok⟩
        · exact absurd h (by simp)
        · have hinv2 := moveGate_inv hinv hwf hW hv hok hlt
          show UInv env n asap (if (moveGate st pred (curr : Int) v).nebc = 0
            then moveGate st pred (curr : Int) v
            else uniformInner env fuel (moveGate st pred (curr : Int) v) curr pred)
          by_cases hz : (moveGate st pred (curr : Int) v).nebc = 0
          · rw [if_pos hz]
            exact hinv2
          · rw [if_neg hz]
            exact ih _ curr pred hinv2 hlt
    · rw [if_neg hg]
      exact hinv

theorem uniformOuter_inv (env : UEnv) (n : Nat) (asap : Nat → Int)
    (hwf : ∀ e ∈ env.E, e.src < e.tgt)
    (hW : ∀ e ∈ env.E, (e.weight : Int) = fweight (env.dur e.src) env.ct)
    (fuel : Nat) :
    ∀ (L : List Nat) (st : USt), UInv env n asap st →
      UInv env n asap (uniformOuter env fuel L st) := by
  intro L
  induction L with
  | nil => exact fun st hinv => hinv
  | cons curr rest ih =>
    intro st hinv
    rw [uniformOuter]
    by_cases hz : st.nebc = 0
    · rw [if_pos hz]
      exact hinv
    · rw [if_neg hz]
      have h1 := uniformInner_inv env n asap hwf hW fuel st curr ((curr : Int) - 1)
        hinv (by omega)
      refine ih _ ⟨h1.coh, h1.gates, h1.frame, h1.dep⟩

theorem bucketsInit_mem (c : Nat → Int) :
    ∀ (L : List Nat) (b0 : Int → List Nat) (k : Int) (v : Nat),
      v ∈ (L.foldl (fun b v => Function.update b (c v) (b (c v) ++ [v])) b0) k →
      v ∈ b0 k ∨ (v ∈ L ∧ c v = k) := by
  intro L
  induction L with
  | nil => exact fun b0 k v h => Or.inl h
  | cons x rest ih =>
    intro b0 k v h
    rw [List.foldl_cons] at h
    rcases ih _ k v h with h2 | ⟨h2, h3⟩
    · by_cases hk : k = c x
      · subst hk
        rw [Function.update_same] at h2
        rcases List.mem_append.mp h2 with h3 | h3
        · exact Or.inl h3
        · simp only [List.mem_singleton] at h3
          subst h3
          exact Or.inr ⟨by simp, rfl⟩
      · rw [Function.update_noteq hk] at h2
        exact Or.inl h2
    · exact Or.inr ⟨by simp [h2], h3⟩

/-- The invariant holds of the uniform pass's final state. -/
theorem schedule_alap_uniform_inv (E : List Edge) (n : Nat) (dur : Nat → Nat)
    (ct : Nat) (c0 : Nat → Int) (maxcR : Int) (fuel : Nat)
    (hwf : ∀ e ∈ E, e.src < e.tgt ∧ e.tgt ≤ n + 1)
    (hW : ∀ e ∈ E, (e.weight : Int) = fweight (dur e.src) ct) :
    UInv { E := E, dur := dur, ct := ct, remaining := set_remaining E n,
           maxcR := maxcR,
           cycle_count := (asapCycles E n c0 (n + 1) - 1).toNat }
      n (asapCycles E n c0) (schedule_alap_uniform E n dur ct c0 maxcR fuel).1 := by
  have hwf1 : ∀ e ∈ E, e.src < e.tgt := fun e he => (hwf e he).1
  refine uniformOuter_inv _ n _ hwf1 hW fuel _ _ ?_
  refine ⟨?_, ?_, fun u _ => rfl, ?_⟩
  · intro k v hv
    rcases bucketsInit_mem (asapCycles E n c0) (countup n) (fun _ => []) k v hv with
      h | ⟨_, h2⟩
    · exact absurd h (by simp)
    · exact h2
  · intro k v hv
    rcases bucketsInit_mem (asapCycles E n c0) (countup n) (fun _ => []) k v hv with
      h | ⟨h1, _⟩
    · exact absurd h (by simp)
    · exact mem_countup.mp h1
  · intro e he
    exact asap_dep E n c0 e he (hwf e he).1 (hwf e he).2

theorem le_sink_of_dep (E : List Edge) (n : Nat) (c : Nat → Int)
    (hwf : ∀ e ∈ E, e.src < e.tgt ∧ e.tgt ≤ n + 1)
    (hout : ∀ v ≤ n, ∃ e ∈ E, e.src = v)
    (hdep : ∀ e ∈ E, c e.src + e.weight ≤ c e.tgt) :
    ∀ v ≤ n + 1, c v ≤ c (n + 1) := by
  have key : ∀ k, ∀ v, v ≤ n + 1 → n + 1 - v ≤ k → c v ≤ c (n + 1) := by
    intro k
    induction k with
    | zero =>
      intro v hv hk
      obtain rfl : v = n + 1 := by omega
      exact le_rfl
    | succ k ih =>
      intro v hv hk
      by_cases hvn : v = n + 1
      · subst hvn
        exact le_rfl
      · obtain ⟨e, he, hs⟩ := hout v (by omega)
        obtain ⟨h1, h2⟩ := hwf e he
        have hd := hdep e he
        have h3 : c e.tgt ≤ c (n + 1) := ih e.tgt h2 (by omega)
        have h4 : (0 : Int) ≤ e.weight := Int.ofNat_nonneg e.weight
        rw [hs] at hd
        omega
  exact fun v hv => key (n + 1) v hv (by omega)

theorem insertLt_perm (lt : α → α → Bool) (x : α) :
    ∀ (l : List α), (insertLt lt x l).Perm (x :: l) := by
  intro l
  induction l with
  | nil => exact List.Perm.refl _
  | cons y ys ih =>
    show (if lt y x then y :: insertLt lt x ys else x :: y :: ys).Perm (x :: y :: ys)
    by_cases h : lt y x
    · rw [if_pos h]
      exact (ih.cons y).trans (List.Perm.swap x y ys)
    · rw [if_neg h]

theorem stableSortBy_perm (lt : α → α → Bool) :
    ∀ (l : List α), (stableSortBy lt l).Perm l := by
  intro l
  induction l with
  | nil => exact List.Perm.refl _
  | cons x xs ih =>
    show (insertLt lt x (stableSortBy lt xs)).Perm (x :: xs)
    exact (insertLt_perm lt x (stableSortBy lt xs)).trans (ih.cons x)

theorem sort_by_cycle_perm (c : Nat → Int) (circ : List Nat) :
    (sort_by_cycle c circ).Perm circ :=
  stableSortBy_perm _ circ

/-- C5: the uniform pass never extends the schedule.  SINK's cycle after
`schedule_alap_uniform` equals the pre-uniform ASAP SINK cycle (the pass
never touches it), and every gate's completion cycle
`cycle + ceil(float(duration)/cycle_time)` stays bounded by that SINK
cycle, because a move is only legal when the new completion cycle exceeds
neither `cycle_count + 1` nor any out-neighbor's cycle. -/
theorem C5_uniform_never_extends (E : List Edge) (n : Nat) (dur : Nat → Nat)
    (ct : Nat) (c0 : Nat → Int) (maxcR : Int) (fuel : Nat)
    (hwf : ∀ e ∈ E, e.src < e.tgt ∧ e.tgt ≤ n + 1)
    (hW : ∀ e ∈ E, (e.weight : Int) = fweight (dur e.src) ct)
    (hout : ∀ v ≤ n, ∃ e ∈ E, e.src = v) :
    ((schedule_alap_uniform E n dur ct c0 maxcR fuel).1.cyc (n + 1)
        = asapCycles E n c0 (n + 1))
    ∧ (∀ v, 1 ≤ v → v ≤ n →
        (schedule_alap_uniform E n dur ct c0 maxcR fuel).1.cyc v
          + (fweight (dur v) ct : Int)
        ≤ asapCycles E n c0 (n + 1)) := by
  have hinv := schedule_alap_uniform_inv E n dur ct c0 maxcR fuel hwf hW
  have hsink := hinv.frame (n + 1) (Or.inr le_rfl)
  refine ⟨hsink, ?_⟩
  intro v h1 h2
  obtain ⟨e, he, hs⟩ := hout v h2
  have hd := hinv.dep e he
  have hW2 := hW e he
  have hle := le_sink_of_dep E n _ hwf hout hinv.dep e.tgt (hwf e he).2
  rw [hs] at hd hW2
  rw [hsink] at hle
  omega

theorem C5_uniform_never_extends_witness :
    (∀ e ∈ C4graph, e.src < e.tgt ∧ e.tgt ≤ 1 + 1)
    ∧ (((schedule_alap_uniform C4graph 1 (nodeDur [xGate]) 1 (fun _ => 0) 1000 10).1.cyc (1 + 1)
        = asapCycles C4graph 1 (fun _ => 0) (1 + 1))
      ∧ (∀ v, 1 ≤ v → v ≤ 1 →
          (schedule_alap_uniform C4graph 1 (nodeDur [xGate]) 1 (fun _ => 0) 1000 10).1.cyc v
            + (fweight (nodeDur [xGate] v) 1 : Int)
          ≤ asapCycles C4graph 1 (fun _ => 0) (1 + 1))) :=
  ⟨by decide,
    C5_uniform_never_extends C4graph 1 (nodeDur [xGate]) 1 (fun _ => 0) 1000 10
      (by decide) (by decide)
      (fun v h2 => by
        have hv : v = 0 ∨ v = 1 := by omega
        rcases hv with rfl | rfl <;> decide)⟩

/-- C10: the uniform pass mutates only cycle attributes and the circuit
order: its output circuit is a permutation of the input circuit (each move
transfers one gate between two bundles, and the final stable sort by cycle
permutes), and in general `sort_by_cycle` permutes any circuit.  The gates'
other fields live in the untouched gate list, which the pass never
modifies. -/
theorem C10_uniform_permutes (E : List Edge) (n : Nat) (dur : Nat → Nat)
    (ct : Nat) (c0 : Nat → Int) (maxcR : Int) (fuel : Nat) :
    ((schedule_alap_uniform E n dur ct c0 maxcR fuel).2.Perm (countup n))
    ∧ ∀ (c : Nat → Int) (circ : List Nat), (sort_by_cycle c circ).Perm circ := by
  exact ⟨sort_by_cycle_perm _ _, fun c circ => sort_by_cycle_perm c circ⟩

/-! ## The scheduling entry points (`schedule_kernel`, `rcschedule_kernel`,
`rcschedule`)

`FATAL` aborts the program; it is embedded as `Except.error`.  The relevant
option values are carried in `Opts`.  The non-resource-constrained entry
dispatches on `scheduler_uniform` *before* inspecting `scheduler`, then sets
the kernel's `cycles_valid`; the resource-constrained entry only accepts
`ASAP`/`ALAP` and leaves the flag to its caller `rcschedule`, which skips
empty circuits entirely.  (`rcRun` running out of fuel is reported as an
error too; the source loops unboundedly there.) -/

structure Opts where
  scheduler : String
  scheduler_uniform : String
  scheduler_commute : String
  prescheduler : String
deriving DecidableEq, Repr

structure Kernel where
  c : List SGate
  qubit_count : Nat
  creg_count : Nat
  cycles_valid : Bool
deriving DecidableEq, Repr

/-- `schedule_kernel`: uniform scheduling when `scheduler_uniform` is
`yes`, else ASAP or ALAP by the `scheduler` option, else fatal; on success
the circuit is replaced by the rescheduled one and `cycles_valid` is set. -/
def schedule_kernel (opts : Opts) (k : Kernel) (ct : Nat) (S MAXC maxcR : Int)
    (fuel : Nat) : Except String Kernel :=
  let commute := opts.scheduler_commute = "yes"
  let E := buildGraph commute k.c k.qubit_count k.creg_count ct
  let n := k.c.length
  if opts.scheduler_uniform = "yes" then
    let r := schedule_alap_uniform E n (nodeDur k.c) ct (fun _ => 0) maxcR fuel
    Except.ok { k with c := r.2.map (nodeGate k.c), cycles_valid := true }
  else if opts.scheduler = "ASAP" then
    let c := asapCycles E n (fun _ => 0)
    Except.ok
      { k with
        c := (sort_by_cycle c (countup n)).map (nodeGate k.c),
        cycles_valid := true }
  else if opts.scheduler = "ALAP" then
    let c := alapCycles S MAXC E n (fun _ => 0)
    Except.ok
      { k with
        c := (sort_by_cycle c (countup n)).map (nodeGate k.c),
        cycles_valid := true }
  else
    Except.error "Not supported scheduler option"

/-- `rcschedule_kernel`: only `ASAP` and `ALAP` are accepted; anything else
is fatal.  The kernel's `cycles_valid` flag is *not* touched here. -/
def rcschedule_kernel {ρ : Type} (opts : Opts) (k : Kernel) (iface : RMIface ρ)
    (r0 : ρ) (ct : Nat) (maxc sinkc : Int) (critLT : Bool → Nat → Nat → Bool)
    (fuel : Nat) : Except String Kernel :=
  let commute := opts.scheduler_commute = "yes"
  let E := buildGraph commute k.c k.qubit_count k.creg_count ct
  let env : RCEnv ρ := { iface := iface, E := E, ckt := k.c, critLT := critLT,
                         maxc := maxc, sinkc := sinkc }
  if opts.scheduler = "ASAP" then
    match rcScheduleCycles env true (fun _ => 0) r0 fuel with
    | some c =>
      Except.ok { k with c := (sort_by_cycle c (countup k.c.length)).map (nodeGate k.c) }
    | none => Except.error "scheduling loop did not terminate within fuel"
  else if opts.scheduler = "ALAP" then
    match rcScheduleCycles env false (fun _ => 0) r0 fuel with
    | some c =>
      Except.ok { k with c := (sort_by_cycle c (countup k.c.length)).map (nodeGate k.c) }
    | none => Except.error "scheduling loop did not terminate within fuel"
  else
    Except.error "Not supported scheduler option"

/-- `rcschedule`: schedule each kernel of the program, skipping kernels
with empty circuits entirely; `cycles_valid` is set right after the
per-kernel call — so only for non-empty circuits. -/
def rcschedule {ρ : Type} (opts : Opts) (iface : RMIface ρ) (r0 : ρ) (ct : Nat)
    (maxc sinkc : Int) (critLT : Bool → Nat → Nat → Bool) (fuel : Nat) :
    List Kernel → Except String (List Kernel)
  | [] => Except.ok []
  | k :: rest =>
    (if k.c.isEmpty then Except.ok k
     else (rcschedule_kernel opts k iface r0 ct maxc sinkc critLT fuel).map
       (fun k2 => { k2 with cycles_valid := true })).bind
      (fun k2 => (rcschedule opts iface r0 ct maxc sinkc critLT fuel rest).map
        (fun ks => k2 :: ks))

/-- `schedule`: the non-resource-constrained program entry; a no-op unless
the prescheduler option is on. -/
def schedule (opts : Opts) (ct : Nat) (S MAXC maxcR : Int) (fuel : Nat) :
    List Kernel → Except String (List Kernel)
  | [] => Except.ok []
  | k :: rest =>
    if opts.prescheduler = "yes" then
      (schedule_kernel opts k ct S MAXC maxcR fuel).bind
        (fun k2 => (schedule opts ct S MAXC maxcR fuel rest).map (fun ks => k2 :: ks))
    else Except.ok (k :: rest)

/-! ### Claims C7 and C8: error handling of the entry points -/

def badOpts : Opts :=
  { scheduler := "XYZ", scheduler_uniform := "yes", scheduler_commute := "no",
    prescheduler := "yes" }

def kern1 : Kernel :=
  { c := [xGate], qubit_count := 1, creg_count := 0, cycles_valid := false }

def emptyKern : Kernel :=
  { c := [], qubit_count := 1, creg_count := 0, cycles_valid := false }

/-- With `scheduler = "XYZ"` (unknown) but `scheduler_uniform = "yes"`,
`schedule_kernel` does *not* fail: the uniform branch is taken before the
scheduler option is inspected, and a schedule is produced.  This refutes
the claim that every scheduler value other than ASAP/ALAP is fatal at both
entry points. -/
theorem C7_counterexample :
    (schedule_kernel badOpts kern1 1 10 1000 1000 10).toOption
      = some { kern1 with c := [xGate], cycles_valid := true } := by
  decide

/-- C7 (amended): an unknown `scheduler` value is fatal at the
resource-constrained entry unconditionally; at the non-resource-constrained
entry it is fatal only when `scheduler_uniform` is not `yes` — with
`scheduler_uniform = "yes"` the uniform pass runs and succeeds regardless
of the `scheduler` value. -/
theorem C7_unknown_scheduler_fatal :
    (∀ {ρ : Type} (opts : Opts) (k : Kernel) (iface : RMIface ρ) (r0 : ρ)
        (ct : Nat) (maxc sinkc : Int) (critLT : Bool → Nat → Nat → Bool) (fuel : Nat),
        opts.scheduler ≠ "ASAP" → opts.scheduler ≠ "ALAP" →
        rcschedule_kernel opts k iface r0 ct maxc sinkc critLT fuel
          = Except.error "Not supported scheduler option")
    ∧ (∀ (opts : Opts) (k : Kernel) (ct : Nat) (S MAXC maxcR : Int) (fuel : Nat),
        opts.scheduler ≠ "ASAP" → opts.scheduler ≠ "ALAP" →
        opts.scheduler_uniform ≠ "yes" →
        schedule_kernel opts k ct S MAXC maxcR fuel
          = Except.error "Not supported scheduler option")
    ∧ (∀ (opts : Opts) (k : Kernel) (ct : Nat) (S MAXC maxcR : Int) (fuel : Nat),
        opts.scheduler_uniform = "yes" →
        ∃ k2, schedule_kernel opts k ct S MAXC maxcR fuel = Except.ok k2) := by
  refine ⟨?_, ?_, ?_⟩
  · intro ρ opts k iface r0 ct maxc sinkc critLT fuel h1 h2
    unfold rcschedule_kernel
    rw [if_neg h1, if_neg h2]
  · intro opts k ct S MAXC maxcR fuel h1 h2 h3
    unfold schedule_kernel
    rw [if_neg h3, if_neg h1, if_neg h2]
  · intro opts k ct S MAXC maxcR fuel h
    unfold schedule_kernel
    rw [if_pos h]
    exact ⟨_, rfl⟩

/-- `rcschedule` on a program consisting of one kernel with an empty
circuit succeeds but leaves that kernel — including its false
`cycles_valid` flag — untouched, because empty circuits are skipped before
the flag assignment.  This refutes the claim that every successful
scheduling run sets `cycles_valid`. -/
theorem C8_counterexample :
    (rcschedule { scheduler := "ASAP", scheduler_uniform := "no",
                  scheduler_commute := "no", prescheduler := "yes" }
        blockIface () 1 1000 10 (fun _ _ _ => false) 50 [emptyKern]).toOption
      = some [emptyKern]
    ∧ emptyKern.cycles_valid = false := by
  constructor <;> decide

/-- C8 (amended): a successful `schedule_kernel` always returns the kernel
with `cycles_valid = true`, including for empty circuits; a successful
`rcschedule` returns each kernel with a non-empty circuit with
`cycles_valid = true` but returns kernels with empty circuits completely
unchanged. -/
theorem C8_cycles_valid_flag :
    (∀ (opts : Opts) (k : Kernel) (ct : Nat) (S MAXC maxcR : Int) (fuel : Nat)
        (k2 : Kernel),
        schedule_kernel opts k ct S MAXC maxcR fuel = Except.ok k2 →
        k2.cycles_valid = true)
    ∧ (∀ {ρ : Type} (opts : Opts) (iface : RMIface ρ) (r0 : ρ) (ct : Nat)
        (maxc sinkc : Int) (critLT : Bool → Nat → Nat → Bool) (fuel : Nat)
        (kernels ks : List Kernel),
        rcschedule opts iface r0 ct maxc sinkc critLT fuel kernels = Except.ok ks →
        List.Forall₂ (fun k k2 => (k.c.isEmpty = true → k2 = k)
          ∧ (k.c.isEmpty = false → k2.cycles_valid = true)) kernels ks) := by
  constructor
  · intro opts k ct S MAXC maxcR fuel k2 h
    unfold schedule_kernel at h
    dsimp only at h
    by_cases h1 : opts.scheduler_uniform = "yes"
    · rw [if_pos h1] at h
      rw [← Except.ok.inj h]
    · rw [if_neg h1] at h
      by_cases h2 : opts.scheduler = "ASAP"
      · rw [if_pos h2] at h
        rw [← Except.ok.inj h]
      · rw [if_neg h2] at h
        by_cases h3 : opts.scheduler = "ALAP"
        · rw [if_pos h3] at h
          rw [← Except.ok.inj h]
        · rw [if_neg h3] at h
          exact absurd h (by simp)
  · intro ρ opts iface r0 ct maxc sinkc critLT fuel kernels
    induction kernels with
    | nil =>
      intro ks h
      unfold rcschedule at h
      obtain rfl : ([] : List Kernel) = ks := Except.ok.inj h
      exact List.Forall₂.nil
    | cons k rest ih =>
      intro ks h
      unfold rcschedule at h
      by_cases hemp : k.c.isEmpty
      · rw [if_pos hemp] at h
        replace h : (rcschedule opts iface r0 ct maxc sinkc critLT fuel rest).map
            (fun ks => k :: ks) = Except.ok ks := h
        cases hr : rcschedule opts iface r0 ct maxc sinkc critLT fuel rest with
        | error e =>
          rw [hr] at h
          exact absurd h (by simp [Except.map])
        | ok ks2 =>
          rw [hr] at h
          replace h : Except.ok (k :: ks2) = Except.ok ks := h
          obtain rfl := Except.ok.inj h
          refine List.Forall₂.cons ⟨fun _ => rfl, ?_⟩ (ih ks2 hr)
          intro hc
          rw [hemp] at hc
          exact absurd hc (by simp)
      · rw [if_neg hemp] at h
        cases hk : rcschedule_kernel opts k iface r0 ct maxc sinkc critLT fuel with
        | error e =>
          rw [hk] at h
          exact absurd h (by simp [Except.map, Except.bind])
        | ok k2 =>
          rw [hk] at h
          replace h : (rcschedule opts iface r0 ct maxc sinkc critLT fuel rest).map
              (fun ks => { k2 with cycles_valid := true } :: ks) = Except.ok ks := h
          cases hr : rcschedule opts iface r0 ct maxc sinkc critLT fuel rest with
          | error e =>
            rw [hr] at h
            exact absurd h (by simp [Except.map])
          | ok ks2 =>
            rw [hr] at h
            replace h : Except.ok ({ k2 with cycles_valid := true } :: ks2)
                = Except.ok ks := h
            obtain rfl := Except.ok.inj h
            refine List.Forall₂.cons ⟨?_, fun _ => rfl⟩ (ih ks2 hr)
            intro hc
            rw [hc] at hemp
            exact absurd rfl hemp

/-! ## Deep criticality (`Scheduler::criticality_lessthan`)

The recursion of `criticality_lessthan` descends along the dependence graph
in the scheduling direction; it gets explicit fuel here.  `ckey` computes,
with the same fuel, the node's entire tie-breaking key — remaining value,
and where dependences exist the critical dependence value, the number of
maximally-critical dependences, and recursively the key of the deepest
one — and `keyLt` compares two such keys lexicographically.  The
comparison function is proved equal to the key comparison, which is a
strict weak order. -/

/-- `Scheduler::get_depending_nodes`: the directly depending nodes in arc
order, duplicates dropped keeping first occurrences. -/
def dedupFO (l : List Nat) : List Nat :=
  l.foldl (fun acc x => if x ∈ acc then acc else acc ++ [x]) []

def get_depending_nodes (E : List Edge) (dir : Bool) (n : Nat) : List Nat :=
  if dir then dedupFO (succs E n) else dedupFO (preds E n)

/-- `Scheduler::criticality_lessthan` with explicit fuel: equal nodes are
not less; then compare remaining values; then empty dependence sets; then
the largest remaining value among dependences; then the number of
dependences attaining it; finally recurse on the most critical
dependences. -/
def criticality_lessthan (E : List Edge) (r : Nat → Int) (dir : Bool) :
    Nat → Nat → Nat → Bool
  | 0, _, _ => false
  | fuel + 1, n1, n2 =>
    if n1 = n2 then false
    else if r n1 < r n2 then true
    else if r n2 < r n1 then false
    else
      let ln1 := get_depending_nodes E dir n1
      let ln2 := get_depending_nodes E dir n2
      if ln2.isEmpty then false
      else if ln1.isEmpty then true
      else
        let ln1s := stableSortBy (fun a b => decide (r a < r b)) ln1
        let ln2s := stableSortBy (fun a b => decide (r a < r b)) ln2
        let crit1 := r (ln1s.getLastD 0)
        let crit2 := r (ln2s.getLastD 0)
        if crit1 < crit2 then true
        else if crit2 < crit1 then false
        else
          let ln1f := ln1s.filter (fun m => decide (¬r m < crit1))
          let ln2f := ln2s.filter (fun m => decide (¬r m < crit2))
          if ln1f.length < ln2f.length then true
          else if ln2f.length < ln1f.length then false
          else
            criticality_lessthan E r dir fuel
              ((stableSortBy (criticality_lessthan E r dir fuel) ln1f).getLastD 0)
              ((stableSortBy (criticality_lessthan E r dir fuel) ln2f).getLastD 0)

/-- The tie-breaking key of a node: its remaining value alone when it has
no dependences, else additionally the critical dependence value, the
count of maximally-critical dependences, and the key of the deepest one. -/
inductive CritKey where
  | leaf : Int → CritKey
  | node : Int → Int → Nat → CritKey → CritKey
deriving DecidableEq, Repr

def kr : CritKey → Int
  | .leaf r => r
  | .node r _ _ _ => r

/-- Lexicographic comparison of tie-breaking keys, mirroring the branch
structure of `criticality_lessthan`. -/
def keyLt : CritKey → CritKey → Bool
  | .leaf r1, k2 =>
    if r1 < kr k2 then true
    else if kr k2 < r1 then false
    else
      match k2 with
      | .leaf _ => false
      | .node _ _ _ _ => true
  | .node r1 c1 s1 t1, k2 =>
    if r1 < kr k2 then true
    else if kr k2 < r1 then false
    else
      match k2 with
      | .leaf _ => false
      | .node _ c2 s2 t2 =>
        if c1 < c2 then true
        else if c2 < c1 then false
        else if s1 < s2 then true
        else if s2 < s1 then false
        else keyLt t1 t2

/-- The key of a node, computed with the same fuel discipline as
`criticality_lessthan`. -/
def ckey (E : List Edge) (r : Nat → Int) (dir : Bool) : Nat → Nat → CritKey
  | 0, n => .leaf (r n)
  | fuel + 1, n =>
    let ln := get_depending_nodes E dir n
    if ln.isEmpty then .leaf (r n)
    else
      let lns := stableSortBy (fun a b => decide (r a < r b)) ln
      let crit := r (lns.getLastD 0)
      let lnf := lns.filter (fun m => decide (¬r m < crit))
      .node (r n) crit lnf.length
        (ckey E r dir fuel
          ((stableSortBy (fun a b => keyLt (ckey E r dir fuel a) (ckey E r dir fuel b))
            lnf).getLastD 0))

/-! ### List facts about the sorting and deduplication helpers -/

theorem mem_insertLt {lt : α → α → Bool} {x a : α} :
    ∀ {l : List α}, a ∈ insertLt lt x l ↔ a = x ∨ a ∈ l := by
  intro l
  induction l with
  | nil => simp [insertLt]
  | cons y ys ih =>
    show a ∈ (if lt y x then y :: insertLt lt x ys else x :: y :: ys) ↔ _
    by_cases h : lt y x
    · rw [if_pos h]
      simp only [List.mem_cons, ih]
      tauto
    · rw [if_neg h]
      simp only [List.mem_cons]

theorem mem_stableSortBy {lt : α → α → Bool} {a : α} :
    ∀ {l : List α}, a ∈ stableSortBy lt l ↔ a ∈ l :=
  fun {l} => (stableSortBy_perm lt l).mem_iff

theorem getLastD_irrel : ∀ (l : List α) (d1 d2 : α), l ≠ [] →
    l.getLastD d1 = l.getLastD d2 := by
  intro l d1 d2 h
  cases l with
  | nil => exact absurd rfl h
  | cons x xs => simp only [List.getLastD_cons]

theorem getLastD_mem : ∀ (l : List α) (d : α), l ≠ [] → l.getLastD d ∈ l := by
  intro l
  induction l with
  | nil => intro d h; exact absurd rfl h
  | cons x xs ih =>
    intro d _
    cases xs with
    | nil => simp
    | cons y ys =>
      rw [List.getLastD_cons]
      exact List.mem_cons_of_mem x (ih x (by simp))

theorem insertLt_pairwise (r : Nat → Int) (x : Nat) :
    ∀ (l : List Nat), l.Pairwise (fun a b => r a ≤ r b) →
      (insertLt (fun a b => decide (r a < r b)) x l).Pairwise (fun a b => r a ≤ r b) := by
  intro l
  induction l with
  | nil => simp [insertLt]
  | cons y ys ih =>
    intro hp
    rw [List.pairwise_cons] at hp
    show (if (decide (r y < r x)) then y :: insertLt (fun a b => decide (r a < r b)) x ys
      else x :: y :: ys).Pairwise (fun a b => r a ≤ r b)
    by_cases h : r y < r x
    · rw [if_pos (by simpa using h)]
      rw [List.pairwise_cons]
      refine ⟨?_, ih hp.2⟩
      intro b hb
      rcases mem_insertLt.mp hb with rfl | hb
      · omega
      · exact hp.1 b hb
    · rw [if_neg (by simpa using h)]
      rw [List.pairwise_cons]
      refine ⟨?_, List.pairwise_cons.mpr hp⟩
      intro b hb
      rcases List.mem_cons.mp hb with rfl | hb
      · omega
      · have := hp.1 b hb
        omega

theorem stableSortBy_pairwise (r : Nat → Int) :
    ∀ (l : List Nat),
      (stableSortBy (fun a b => decide (r a < r b)) l).Pairwise (fun a b => r a ≤ r b) := by
  intro l
  induction l with
  | nil => simp [stableSortBy]
  | cons x xs ih =>
    show (insertLt (fun a b => decide (r a < r b)) x
      (stableSortBy (fun a b => decide (r a < r b)) xs)).Pairwise _
    exact insertLt_pairwise r x _ ih

theorem pairwise_le_last (r : Nat → Int) :
    ∀ (l : List Nat), l.Pairwise (fun a b => r a ≤ r b) →
      ∀ m ∈ l, r m ≤ r (l.getLastD 0) := by
  intro l
  induction l with
  | nil => intro _ m hm; cases hm
  | cons x xs ih =>
    intro hp m hm
    rw [List.pairwise_cons] at hp
    cases xs with
    | nil =>
      simp only [List.mem_singleton] at hm
      subst hm
      exact le_rfl
    | cons y ys =>
      rw [List.getLastD_cons, getLastD_irrel (y :: ys) x 0 (by simp)]
      rcases List.mem_cons.mp hm with rfl | hm
      · exact le_trans (hp.1 _ (getLastD_mem (y :: ys) 0 (by simp))) le_rfl
      · exact ih hp.2 m hm

/-- Every member of an r-sorted nonempty list is bounded by its last
element. -/
theorem sorted_le_last (r : Nat → Int) (l : List Nat) (m : Nat) (hm : m ∈ l) :
    r m ≤ r ((stableSortBy (fun a b => decide (r a < r b)) l).getLastD 0) :=
  pairwise_le_last r _ (stableSortBy_pairwise r l)
    m (mem_stableSortBy.mpr hm)

theorem insertLt_congr {f g : α → α → Bool} {x : α} :
    ∀ {l : List α}, (∀ b ∈ l, f b x = g b x) → insertLt f x l = insertLt g x l := by
  intro l
  induction l with
  | nil => intro _; rfl
  | cons y ys ih =>
    intro h
    show (if f y x then y :: insertLt f x ys else x :: y :: ys)
      = (if g y x then y :: insertLt g x ys else x :: y :: ys)
    rw [h y (by simp)]
    by_cases hg : g y x
    · rw [if_pos hg, if_pos hg, ih (fun b hb => h b (by simp [hb]))]
    · rw [if_neg hg, if_neg hg]

theorem stableSortBy_congr {f g : α → α → Bool} :
    ∀ {l : List α}, (∀ a ∈ l, ∀ b ∈ l, f a b = g a b) →
      stableSortBy f l = stableSortBy g l := by
  intro l
  induction l with
  | nil => intro _; rfl
  | cons x xs ih =>
    intro h
    show insertLt f x (stableSortBy f xs) = insertLt g x (stableSortBy g xs)
    rw [ih (fun a ha b hb => h a (by simp [ha]) b (by simp [hb]))]
    refine insertLt_congr ?_
    intro b hb
    exact h b (by simp [mem_stableSortBy.mp hb]) x (by simp)

/-- Membership in the first-occurrence deduplication. -/
theorem mem_dedupFO {a : Nat} : ∀ {l : List Nat}, a ∈ dedupFO l ↔ a ∈ l := by
  have key : ∀ (l : List Nat) (acc : List Nat),
      a ∈ l.foldl (fun acc x => if x ∈ acc then acc else acc ++ [x]) acc
        ↔ a ∈ acc ∨ a ∈ l := by
    intro l
    induction l with
    | nil => simp
    | cons x xs ih =>
      intro acc
      rw [List.foldl_cons]
      by_cases hx : x ∈ acc
      · rw [if_pos hx, ih]
        constructor
        · rintro (h | h)
          · exact Or.inl h
          · exact Or.inr (by simp [h])
        · rintro (h | h)
          · exact Or.inl h
          · rcases List.mem_cons.mp h with rfl | h
            · exact Or.inl hx
            · exact Or.inr h
      · rw [if_neg hx, ih]
        simp only [List.mem_append, List.mem_singleton, List.mem_cons]
        tauto
  intro l
  rw [dedupFO, key l []]
  simp

/-! ### The key comparison is a strict weak order -/

theorem keyLt_leaf_leaf (r1 r2 : Int) :
    keyLt (.leaf r1) (.leaf r2) = decide (r1 < r2) := by
  show (if r1 < r2 then true else if r2 < r1 then false else false) = decide (r1 < r2)
  by_cases h : r1 < r2
  · rw [if_pos h, decide_eq_true h]
  · rw [if_neg h, decide_eq_false h]
    by_cases h2 : r2 < r1
    · rw [if_pos h2]
    · rw [if_neg h2]

theorem keyLt_leaf_node (r1 r2 : Int) (c : Int) (s : Nat) (t : CritKey) :
    keyLt (.leaf r1) (.node r2 c s t) = decide (r1 ≤ r2) := by
  show (if r1 < r2 then true else if r2 < r1 then false else true) = decide (r1 ≤ r2)
  by_cases h : r1 < r2
  · rw [if_pos h, decide_eq_true (by omega)]
  · rw [if_neg h]
    by_cases h2 : r2 < r1
    · rw [if_pos h2, decide_eq_false (by omega)]
    · rw [if_neg h2, decide_eq_true (by omega)]

theorem keyLt_node_leaf (r1 : Int) (c : Int) (s : Nat) (t : CritKey) (r2 : Int) :
    keyLt (.node r1 c s t) (.leaf r2) = decide (r1 < r2) := by
  show (if r1 < r2 then true else if r2 < r1 then false else false) = decide (r1 < r2)
  by_cases h : r1 < r2
  · rw [if_pos h, decide_eq_true h]
  · rw [if_neg h, decide_eq_false h]
    by_cases h2 : r2 < r1
    · rw [if_pos h2]
    · rw [if_neg h2]

theorem keyLt_node_node (r1 c1 : Int) (s1 : Nat) (t1 : CritKey)
    (r2 c2 : Int) (s2 : Nat) (t2 : CritKey) :
    keyLt (.node r1 c1 s1 t1) (.node r2 c2 s2 t2)
      = (if r1 < r2 then true else if r2 < r1 then false
         else if c1 < c2 then true else if c2 < c1 then false
         else if s1 < s2 then true else if s2 < s1 then false
         else keyLt t1 t2) := rfl

theorem keyLt_node_node_iff {r1 c1 : Int} {s1 : Nat} {t1 : CritKey}
    {r2 c2 : Int} {s2 : Nat} {t2 : CritKey} :
    keyLt (.node r1 c1 s1 t1) (.node r2 c2 s2 t2) = true
      ↔ r1 < r2 ∨ (r1 = r2 ∧ (c1 < c2 ∨ (c1 = c2 ∧ (s1 < s2
          ∨ (s1 = s2 ∧ keyLt t1 t2 = true))))) := by
  rw [keyLt_node_node]
  by_cases h1 : r1 < r2
  · rw [if_pos h1]
    simp [h1]
  · rw [if_neg h1]
    by_cases h2 : r2 < r1
    · rw [if_pos h2]
      constructor
      · intro h
        exact absurd h (by simp)
      · intro h
        rcases h with h | ⟨h, _⟩ <;> omega
    · rw [if_neg h2]
      have hr : r1 = r2 := by omega
      subst hr
      by_cases h3 : c1 < c2
      · rw [if_pos h3]
        simp [h3]
      · rw [if_neg h3]
        by_cases h4 : c2 < c1
        · rw [if_pos h4]
          constructor
          · intro h
            exact absurd h (by simp)
          · intro h
            rcases h with h | ⟨_, h | ⟨h, _⟩⟩ <;> omega
        · rw [if_neg h4]
          have hc : c1 = c2 := by omega
          subst hc
          by_cases h5 : s1 < s2
          · rw [if_pos h5]
            simp [h5]
          · rw [if_neg h5]
            by_cases h6 : s2 < s1
            · rw [if_pos h6]
              constructor
              · intro h
                exact absurd h (by simp)
              · intro h
                rcases h with h | ⟨_, h | ⟨_, h | ⟨h, _⟩⟩⟩ <;> omega
            · rw [if_neg h6]
              have hs : s1 = s2 := by omega
              subst hs
              constructor
              · intro h
                exact Or.inr ⟨rfl, Or.inr ⟨rfl, Or.inr ⟨rfl, h⟩⟩⟩
              · intro h
                rcases h with h | ⟨_, h | ⟨_, h | ⟨_, h⟩⟩⟩
                · omega
                · omega
                · omega
                · exact h

theorem keyLt_irrefl : ∀ (k : CritKey), keyLt k k = false := by
  intro k
  induction k with
  | leaf r => rw [keyLt_leaf_leaf, decide_eq_false (lt_irrefl r)]
  | node r c s t ih =>
    rw [keyLt_node_node, if_neg (lt_irrefl r), if_neg (lt_irrefl r),
      if_neg (lt_irrefl c), if_neg (lt_irrefl c),
      if_neg (lt_irrefl s), if_neg (lt_irrefl s)]
    exact ih

theorem keyLt_kr_le : ∀ (k1 k2 : CritKey), keyLt k1 k2 = true → kr k1 ≤ kr k2 := by
  intro k1 k2 h
  cases k1 with
  | leaf r1 =>
    cases k2 with
    | leaf r2 =>
      rw [keyLt_leaf_leaf] at h
      have := of_decide_eq_true h
      show r1 ≤ r2
      omega
    | node r2 c2 s2 t2 =>
      rw [keyLt_leaf_node] at h
      exact of_decide_eq_true h
  | node r1 c1 s1 t1 =>
    cases k2 with
    | leaf r2 =>
      rw [keyLt_node_leaf] at h
      have := of_decide_eq_true h
      show r1 ≤ r2
      omega
    | node r2 c2 s2 t2 =>
      rcases keyLt_node_node_iff.mp h with h2 | ⟨h2, _⟩
      · show r1 ≤ r2
        omega
      · show r1 ≤ r2
        omega

theorem keyLt_trans : ∀ (k1 k2 k3 : CritKey),
    keyLt k1 k2 = true → keyLt k2 k3 = true → keyLt k1 k3 = true := by
  intro k1
  induction k1 with
  | leaf r1 =>
    intro k2 k3 h12 h23
    have hr12 := keyLt_kr_le _ _ h12
    have hr23 := keyLt_kr_le _ _ h23
    cases k3 with
    | leaf r3 =>
      rw [keyLt_leaf_leaf]
      cases k2 with
      | leaf r2 =>
        rw [keyLt_leaf_leaf] at h12
        have := of_decide_eq_true h12
        exact decide_eq_true (by
          show r1 < r3
          have : kr (CritKey.leaf r2) ≤ kr (CritKey.leaf r3) := hr23
          simp only [kr] at this
          omega)
      | node r2 c2 s2 t2 =>
        rw [keyLt_node_leaf] at h23
        have h2 := of_decide_eq_true h23
        simp only [kr] at hr12
        exact decide_eq_true (by show r1 < r3; omega)
    | node r3 c3 s3 t3 =>
      rw [keyLt_leaf_node]
      simp only [kr] at hr12 hr23
      exact decide_eq_true (by show r1 ≤ r3; omega)
  | node r1 c1 s1 t1 ih =>
    intro k2 k3 h12 h23
    have hr12 := keyLt_kr_le _ _ h12
    have hr23 := keyLt_kr_le _ _ h23
    cases k3 with
    | leaf r3 =>
      rw [keyLt_node_leaf]
      cases k2 with
      | leaf r2 =>
        rw [keyLt_node_leaf] at h12
        rw [keyLt_leaf_leaf] at h23
        have h2 := of_decide_eq_true h12
        have h3 := of_decide_eq_true h23
        exact decide_eq_true (by show r1 < r3; omega)
      | node r2 c2 s2 t2 =>
        rw [keyLt_node_leaf] at h23
        have h3 := of_decide_eq_true h23
        simp only [kr] at hr12
        exact decide_eq_true (by show r1 < r3; omega)
    | node r3 c3 s3 t3 =>
      cases k2 with
      | leaf r2 =>
        rw [keyLt_node_leaf] at h12
        rw [keyLt_leaf_node] at h23
        have h2 := of_decide_eq_true h12
        have h3 := of_decide_eq_true h23
        exact keyLt_node_node_iff.mpr (Or.inl (by omega))
      | node r2 c2 s2 t2 =>
        rcases keyLt_node_node_iff.mp h12 with h2 | ⟨h2, hcs2⟩
        · refine keyLt_node_node_iff.mpr (Or.inl ?_)
          simp only [kr] at hr23
          omega
        · rcases keyLt_node_node_iff.mp h23 with h3 | ⟨h3, hcs3⟩
          · exact keyLt_node_node_iff.mpr (Or.inl (by omega))
          · refine keyLt_node_node_iff.mpr (Or.inr ⟨by omega, ?_⟩)
            rcases hcs2 with hc2 | ⟨hc2, hss2⟩
            · rcases hcs3 with hc3 | ⟨hc3, _⟩
              · exact Or.inl (by omega)
              · exact Or.inl (by omega)
            · rcases hcs3 with hc3 | ⟨hc3, hss3⟩
              · exact Or.inl (by omega)
              · refine Or.inr ⟨by omega, ?_⟩
                rcases hss2 with hs2 | ⟨hs2, ht2⟩
                · rcases hss3 with hs3 | ⟨hs3, _⟩
                  · exact Or.inl (by omega)
                  · exact Or.inl (by omega)
                · rcases hss3 with hs3 | ⟨hs3, ht3⟩
                  · exact Or.inl (by omega)
                  · exact Or.inr ⟨by omega, ih t2 t3 ht2 ht3⟩

theorem keyLt_connex : ∀ (k1 k2 : CritKey), k1 ≠ k2 →
    keyLt k1 k2 = true ∨ keyLt k2 k1 = true := by
  intro k1
  induction k1 with
  | leaf r1 =>
    intro k2 hne
    cases k2 with
    | leaf r2 =>
      have hr : r1 ≠ r2 := fun h => hne (by rw [h])
      rw [keyLt_leaf_leaf, keyLt_leaf_leaf]
      rcases lt_trichotomy r1 r2 with h | h | h
      · exact Or.inl (decide_eq_true h)
      · exact absurd h hr
      · exact Or.inr (decide_eq_true h)
    | node r2 c2 s2 t2 =>
      rw [keyLt_leaf_node, keyLt_node_leaf]
      by_cases h : r1 ≤ r2
      · exact Or.inl (decide_eq_true h)
      · exact Or.inr (decide_eq_true (by omega))
  | node r1 c1 s1 t1 ih =>
    intro k2 hne
    cases k2 with
    | leaf r2 =>
      rw [keyLt_leaf_node, keyLt_node_leaf]
      by_cases h : r1 < r2
      · exact Or.inl (decide_eq_true h)
      · exact Or.inr (decide_eq_true (by omega))
    | node r2 c2 s2 t2 =>
      by_cases hr : r1 = r2
      · by_cases hc : c1 = c2
        · by_cases hs : s1 = s2
          · have hts : t1 ≠ t2 := by
              intro h
              exact hne (by rw [hr, hc, hs, h])
            rcases ih t2 hts with h | h
            · exact Or.inl (keyLt_node_node_iff.mpr
                (Or.inr ⟨hr, Or.inr ⟨hc, Or.inr ⟨hs, h⟩⟩⟩))
            · exact Or.inr (keyLt_node_node_iff.mpr
                (Or.inr ⟨hr.symm, Or.inr ⟨hc.symm, Or.inr ⟨hs.symm, h⟩⟩⟩))
          · rcases Nat.lt_or_ge s1 s2 with h | h
            · exact Or.inl (keyLt_node_node_iff.mpr
                (Or.inr ⟨hr, Or.inr ⟨hc, Or.inl h⟩⟩))
            · exact Or.inr (keyLt_node_node_iff.mpr
                (Or.inr ⟨hr.symm, Or.inr ⟨hc.symm, Or.inl (by omega)⟩⟩))
        · rcases lt_trichotomy c1 c2 with h | h | h
          · exact Or.inl (keyLt_node_node_iff.mpr (Or.inr ⟨hr, Or.inl h⟩))
          · exact absurd h hc
          · exact Or.inr (keyLt_node_node_iff.mpr (Or.inr ⟨hr.symm, Or.inl h⟩))
      · rcases lt_trichotomy r1 r2 with h | h | h
        · exact Or.inl (keyLt_node_node_iff.mpr (Or.inl h))
        · exact absurd h hr
        · exact Or.inr (keyLt_node_node_iff.mpr (Or.inl h))

theorem keyLt_asymm (k1 k2 : CritKey) (h : keyLt k1 k2 = true) :
    keyLt k2 k1 = false := by
  cases h2 : keyLt k2 k1 with
  | false => rfl
  | true =>
    have := keyLt_trans k1 k2 k1 h h2
    rw [keyLt_irrefl] at this
    exact absurd this (by simp)

theorem keyLt_eq_of_incomp (k1 k2 : CritKey)
    (h1 : keyLt k1 k2 = false) (h2 : keyLt k2 k1 = false) : k1 = k2 := by
  by_contra hne
  rcases keyLt_connex k1 k2 hne with h | h
  · rw [h1] at h
    exact absurd h (by simp)
  · rw [h2] at h
    exact absurd h (by simp)

theorem kr_ckey (E : List Edge) (r : Nat → Int) (dir : Bool) :
    ∀ (fuel n : Nat), kr (ckey E r dir fuel n) = r n := by
  intro fuel n
  cases fuel with
  | zero => rfl
  | succ f =>
    rw [ckey]
    dsimp only
    by_cases h : (get_depending_nodes E dir n).isEmpty
    · rw [if_pos h]
      rfl
    · rw [if_neg h]
      rfl

/-- Every member of the filtered dependence list has the critical remaining
value. -/
theorem mem_filtered_rem (r : Nat → Int) (l : List Nat) (m : Nat)
    (hm : m ∈ (stableSortBy (fun a b => decide (r a < r b)) l).filter
      (fun m => decide (¬r m
        < r ((stableSortBy (fun a b => decide (r a < r b)) l).getLastD 0)))) :
    r m = r ((stableSortBy (fun a b => decide (r a < r b)) l).getLastD 0) := by
  obtain ⟨h1, h2⟩ := List.mem_filter.mp hm
  have h3 := of_decide_eq_true h2
  have h4 := sorted_le_last r l m (mem_stableSortBy.mp h1)
  omega

/-- The filtered dependence list of a nonempty dependence list is
nonempty. -/
theorem filtered_ne (r : Nat → Int) (l : List Nat) (hne : ¬l.isEmpty = true) :
    ¬((stableSortBy (fun a b => decide (r a < r b)) l).filter
      (fun m => decide (¬r m
        < r ((stableSortBy (fun a b => decide (r a < r b)) l).getLastD 0)))).isEmpty
        = true := by
  have hl : l ≠ [] := by
    intro h
    rw [h] at hne
    exact hne rfl
  have hs : stableSortBy (fun a b => decide (r a < r b)) l ≠ [] := by
    intro h
    have := (stableSortBy_perm (fun a b => decide (r a < r b)) l).length_eq
    rw [h] at this
    exact hl (List.length_eq_zero.mp this.symm)
  have hlast := getLastD_mem _ 0 hs
  have hmem : (stableSortBy (fun a b => decide (r a < r b)) l).getLastD 0
      ∈ (stableSortBy (fun a b => decide (r a < r b)) l).filter
        (fun m => decide (¬r m
          < r ((stableSortBy (fun a b => decide (r a < r b)) l).getLastD 0))) :=
    List.mem_filter.mpr ⟨hlast, decide_eq_true (lt_irrefl _)⟩
  intro h
  rw [List.isEmpty_iff] at h
  rw [h] at hmem
  exact absurd hmem (by simp)

theorem crit_eq_keyLt (E : List Edge) (r : Nat → Int) (dir : Bool) :
    ∀ (fuel n1 n2 : Nat), r n1 = r n2 →
      criticality_lessthan E r dir fuel n1 n2
        = keyLt (ckey E r dir fuel n1) (ckey E r dir fuel n2) := by
  intro fuel
  induction fuel with
  | zero =>
    intro n1 n2 hr
    show false = keyLt (.leaf (r n1)) (.leaf (r n2))
    rw [keyLt_leaf_leaf, hr, decide_eq_false (lt_irrefl _)]
  | succ fuel ih =>
    intro n1 n2 hr
    by_cases hEqn : n1 = n2
    · subst hEqn
      rw [keyLt_irrefl]
      rw [criticality_lessthan, if_pos rfl]
    · rw [criticality_lessthan, ckey, ckey]
      rw [if_neg hEqn, if_neg (by omega), if_neg (by omega)]
      dsimp only
      by_cases h2 : (get_depending_nodes E dir n2).isEmpty
      · rw [if_pos h2, if_pos h2]
        by_cases h1 : (get_depending_nodes E dir n1).isEmpty
        · rw [if_pos h1, keyLt_leaf_leaf, hr, decide_eq_false (lt_irrefl _)]
        · rw [if_neg h1, keyLt_node_leaf, hr, decide_eq_false (lt_irrefl _)]
      · rw [if_neg h2, if_neg h2]
        by_cases h1 : (get_depending_nodes E dir n1).isEmpty
        · rw [if_pos h1, if_pos h1, keyLt_leaf_node, decide_eq_true (by omega)]
        · rw [if_neg h1, if_neg h1, keyLt_node_node]
          rw [if_neg (by omega : ¬r n1 < r n2), if_neg (by omega : ¬r n2 < r n1)]
          by_cases hcc : r ((stableSortBy (fun a b => decide (r a < r b))
              (get_depending_nodes E dir n1)).getLastD 0)
            < r ((stableSortBy (fun a b => decide (r a < r b))
              (get_depending_nodes E dir n2)).getLastD 0)
          · rw [if_pos hcc, if_pos hcc]
          · rw [if_neg hcc, if_neg hcc]
            by_cases hcc2 : r ((stableSortBy (fun a b => decide (r a < r b))
                (get_depending_nodes E dir n2)).getLastD 0)
              < r ((stableSortBy (fun a b => decide (r a < r b))
                (get_depending_nodes E dir n1)).getLastD 0)
            · rw [if_pos hcc2, if_pos hcc2]
            · rw [if_neg hcc2, if_neg hcc2]
              have hceq : r ((stableSortBy (fun a b => decide (r a < r b))
                  (get_depending_nodes E dir n1)).getLastD 0)
                = r ((stableSortBy (fun a b => decide (r a < r b))
                  (get_depending_nodes E dir n2)).getLastD 0) := by omega
              by_cases hll : ((stableSortBy (fun a b => decide (r a < r b))
                  (get_depending_nodes E dir n1)).filter
                    (fun m => decide (¬r m < r ((stableSortBy (fun a b => decide (r a < r b))
                      (get_depending_nodes E dir n1)).getLastD 0)))).length
                < ((stableSortBy (fun a b => decide (r a < r b))
                  (get_depending_nodes E dir n2)).filter
                    (fun m => decide (¬r m < r ((stableSortBy (fun a b => decide (r a < r b))
                      (get_depending_nodes E dir n2)).getLastD 0)))).length
              · rw [if_pos hll, if_pos hll]
              · rw [if_neg hll, if_neg hll]
                by_cases hll2 : ((stableSortBy (fun a b => decide (r a < r b))
                    (get_depending_nodes E dir n2)).filter
                      (fun m => decide (¬r m < r ((stableSortBy (fun a b => decide (r a < r b))
                        (get_depending_nodes E dir n2)).getLastD 0)))).length
                  < ((stableSortBy (fun a b => decide (r a < r b))
                    (get_depending_nodes E dir n1)).filter
                      (fun m => decide (¬r m < r ((stableSortBy (fun a b => decide (r a < r b))
                        (get_depending_nodes E dir n1)).getLastD 0)))).length
                · rw [if_pos hll2, if_pos hll2]
                · rw [if_neg hll2, if_neg hll2]
                  -- the deep recursive comparison
                  have hsort1 : stableSortBy (criticality_lessthan E r dir fuel)
                      ((stableSortBy (fun a b => decide (r a < r b))
                        (get_depending_nodes E dir n1)).filter
                          (fun m => decide (¬r m < r ((stableSortBy
                            (fun a b => decide (r a < r b))
                            (get_depending_nodes E dir n1)).getLastD 0))))
                      = stableSortBy (fun a b =>
                          keyLt (ckey E r dir fuel a) (ckey E r dir fuel b))
                        ((stableSortBy (fun a b => decide (r a < r b))
                          (get_depending_nodes E dir n1)).filter
                            (fun m => decide (¬r m < r ((stableSortBy
                              (fun a b => decide (r a < r b))
                              (get_depending_nodes E dir n1)).getLastD 0)))) := by
                    refine stableSortBy_congr ?_
                    intro a ha b hb
                    have hra := mem_filtered_rem r _ a ha
                    have hrb := mem_filtered_rem r _ b hb
                    exact ih a b (by omega)
                  have hsort2 : stableSortBy (criticality_lessthan E r dir fuel)
                      ((stableSortBy (fun a b => decide (r a < r b))
                        (get_depending_nodes E dir n2)).filter
                          (fun m => decide (¬r m < r ((stableSortBy
                            (fun a b => decide (r a < r b))
                            (get_depending_nodes E dir n2)).getLastD 0))))
                      = stableSortBy (fun a b =>
                          keyLt (ckey E r dir fuel a) (ckey E r dir fuel b))
                        ((stableSortBy (fun a b => decide (r a < r b))
                          (get_depending_nodes E dir n2)).filter
                            (fun m => decide (¬r m < r ((stableSortBy
                              (fun a b => decide (r a < r b))
                              (get_depending_nodes E dir n2)).getLastD 0)))) := by
                    refine stableSortBy_congr ?_
                    intro a ha b hb
                    have hra := mem_filtered_rem r _ a ha
                    have hrb := mem_filtered_rem r _ b hb
                    exact ih a b (by omega)
                  rw [hsort1, hsort2]
                  refine ih _ _ ?_
                  have hm1 : (stableSortBy (fun a b =>
                      keyLt (ckey E r dir fuel a) (ckey E r dir fuel b))
                      ((stableSortBy (fun a b => decide (r a < r b))
                        (get_depending_nodes E dir n1)).filter
                          (fun m => decide (¬r m < r ((stableSortBy
                            (fun a b => decide (r a < r b))
                            (get_depending_nodes E dir n1)).getLastD 0))))).getLastD 0
                      ∈ (stableSortBy (fun a b => decide (r a < r b))
                        (get_depending_nodes E dir n1)).filter
                          (fun m => decide (¬r m < r ((stableSortBy
                            (fun a b => decide (r a < r b))
                            (get_depending_nodes E dir n1)).getLastD 0))) := by
                    refine mem_stableSortBy.mp (getLastD_mem _ 0 ?_)
                    intro hq
                    have hne := filtered_ne r (get_depending_nodes E dir n1) h1
                    have hperm := stableSortBy_perm (fun a b =>
                      keyLt (ckey E r dir fuel a) (ckey E r dir fuel b))
                      ((stableSortBy (fun a b => decide (r a < r b))
                        (get_depending_nodes E dir n1)).filter
                          (fun m => decide (¬r m < r ((stableSortBy
                            (fun a b => decide (r a < r b))
                            (get_depending_nodes E dir n1)).getLastD 0))))
                    rw [hq] at hperm
                    have hlen := hperm.length_eq
                    simp only [List.length_nil] at hlen
                    rw [List.isEmpty_iff] at hne
                    exact hne (List.length_eq_zero.mp hlen.symm)
                  have hm2 : (stableSortBy (fun a b =>
                      keyLt (ckey E r dir fuel a) (ckey E r dir fuel b))
                      ((stableSortBy (fun a b => decide (r a < r b))
                        (get_depending_nodes E dir n2)).filter
                          (fun m => decide (¬r m < r ((stableSortBy
                            (fun a b => decide (r a < r b))
                            (get_depending_nodes E dir n2)).getLastD 0))))).getLastD 0
                      ∈ (stableSortBy (fun a b => decide (r a < r b))
                        (get_depending_nodes E dir n2)).filter
                          (fun m => decide (¬r m < r ((stableSortBy
                            (fun a b => decide (r a < r b))
                            (get_depending_nodes E dir n2)).getLastD 0))) := by
                    refine mem_stableSortBy.mp (getLastD_mem _ 0 ?_)
                    intro hq
                    have hne := filtered_ne r (get_depending_nodes E dir n2) h2
                    have hperm := stableSortBy_perm (fun a b =>
                      keyLt (ckey E r dir fuel a) (ckey E r dir fuel b))
                      ((stableSortBy (fun a b => decide (r a < r b))
                        (get_depending_nodes E dir n2)).filter
                          (fun m => decide (¬r m < r ((stableSortBy
                            (fun a b => decide (r a < r b))
                            (get_depending_nodes E dir n2)).getLastD 0))))
                    rw [hq] at hperm
                    have hlen := hperm.length_eq
                    simp only [List.length_nil] at hlen
                    rw [List.isEmpty_iff] at hne
                    exact hne (List.length_eq_zero.mp hlen.symm)
                  have hra := mem_filtered_rem r (get_depending_nodes E dir n1) _ hm1
                  have hrb := mem_filtered_rem r (get_depending_nodes E dir n2) _ hm2
                  omega

theorem keyLt_of_kr_lt (k1 k2 : CritKey) (h : kr k1 < kr k2) : keyLt k1 k2 = true := by
  cases k1 with
  | leaf r1 =>
    cases k2 with
    | leaf r2 =>
      simp only [kr] at h
      rw [keyLt_leaf_leaf]
      exact decide_eq_true h
    | node r2 c2 s2 t2 =>
      simp only [kr] at h
      rw [keyLt_leaf_node]
      exact decide_eq_true (by omega)
  | node r1 c1 s1 t1 =>
    cases k2 with
    | leaf r2 =>
      simp only [kr] at h
      rw [keyLt_node_leaf]
      exact decide_eq_true h
    | node r2 c2 s2 t2 =>
      simp only [kr] at h
      rw [keyLt_node_node, if_pos h]

theorem keyLt_false_of_kr_lt (k1 k2 : CritKey) (h : kr k2 < kr k1) :
    keyLt k1 k2 = false := by
  cases k1 with
  | leaf r1 =>
    cases k2 with
    | leaf r2 =>
      simp only [kr] at h
      rw [keyLt_leaf_leaf]
      exact decide_eq_false (by omega)
    | node r2 c2 s2 t2 =>
      simp only [kr] at h
      rw [keyLt_leaf_node]
      exact decide_eq_false (by omega)
  | node r1 c1 s1 t1 =>
    cases k2 with
    | leaf r2 =>
      simp only [kr] at h
      rw [keyLt_node_leaf]
      exact decide_eq_false (by omega)
    | node r2 c2 s2 t2 =>
      simp only [kr] at h
      rw [keyLt_node_node, if_neg (by omega : ¬r1 < r2), if_pos h]

/-- With at least one unit of fuel, the comparison agrees with the key
comparison on every pair of nodes. -/
theorem crit_eq_keyLt_pos (E : List Edge) (r : Nat → Int) (dir : Bool)
    (fuel : Nat) (n1 n2 : Nat) :
    criticality_lessthan E r dir (fuel + 1) n1 n2
      = keyLt (ckey E r dir (fuel + 1) n1) (ckey E r dir (fuel + 1) n2) := by
  by_cases hr : r n1 = r n2
  · exact crit_eq_keyLt E r dir (fuel + 1) n1 n2 hr
  · have hEqn : n1 ≠ n2 := fun hq => hr (by rw [hq])
    rw [criticality_lessthan, if_neg hEqn]
    by_cases hlt : r n1 < r n2
    · have hk : kr (ckey E r dir (fuel + 1) n1) < kr (ckey E r dir (fuel + 1) n2) := by
        rw [kr_ckey, kr_ckey]
        exact hlt
      rw [if_pos hlt, keyLt_of_kr_lt _ _ hk]
    · have hgt : r n2 < r n1 := by omega
      have hk : kr (ckey E r dir (fuel + 1) n2) < kr (ckey E r dir (fuel + 1) n1) := by
        rw [kr_ckey, kr_ckey]
        exact hgt
      rw [if_neg hlt, if_pos hgt, keyLt_false_of_kr_lt _ _ hk]

/-- Nodes without dependences keep a leaf key at every fuel. -/
theorem ckey_empty (E : List Edge) (r : Nat → Int) (dir : Bool) (n : Nat)
    (h : (get_depending_nodes E dir n).isEmpty = true) :
    ∀ fuel, ckey E r dir fuel n = .leaf (r n) := by
  intro fuel
  cases fuel with
  | zero => rfl
  | succ f =>
    rw [ckey]
    dsimp only
    rw [if_pos h]

/-- On a graph where each dependence strictly decreases a measure, the key
stabilizes once the fuel reaches the measure. -/
theorem ckey_stable (E : List Edge) (r : Nat → Int) (dir : Bool) (μ : Nat → Nat)
    (hμ : ∀ n, ∀ m ∈ get_depending_nodes E dir n, μ m < μ n) :
    ∀ (k n : Nat), μ n ≤ k → ∀ f1 f2, μ n ≤ f1 → μ n ≤ f2 →
      ckey E r dir f1 n = ckey E r dir f2 n := by
  intro k
  induction k with
  | zero =>
    intro n hk f1 f2 _ _
    have hemp : (get_depending_nodes E dir n).isEmpty = true := by
      cases hq : get_depending_nodes E dir n with
      | nil => rfl
      | cons m rest =>
        have := hμ n m (by rw [hq]; simp)
        omega
    rw [ckey_empty E r dir n hemp, ckey_empty E r dir n hemp]
  | succ k ih =>
    intro n hk f1 f2 h1 h2
    by_cases hemp : (get_depending_nodes E dir n).isEmpty = true
    · rw [ckey_empty E r dir n hemp, ckey_empty E r dir n hemp]
    · have hμn : 1 ≤ μ n := by
        cases hq : get_depending_nodes E dir n with
        | nil => exact absurd (by rw [hq]; rfl) hemp
        | cons m rest =>
          have := hμ n m (by rw [hq]; simp)
          omega
      cases f1 with
      | zero => omega
      | succ g1 =>
        cases f2 with
        | zero => omega
        | succ g2 =>
          rw [ckey, ckey]
          dsimp only
          rw [if_neg hemp, if_neg hemp]
          have hmemμ : ∀ m ∈ (stableSortBy (fun a b => decide (r a < r b))
              (get_depending_nodes E dir n)).filter
                (fun m => decide (¬r m < r ((stableSortBy
                  (fun a b => decide (r a < r b))
                  (get_depending_nodes E dir n)).getLastD 0))), μ m < μ n := by
            intro m hm
            exact hμ n m (mem_stableSortBy.mp (List.mem_filter.mp hm).1)
          have hsorts : stableSortBy (fun a b =>
              keyLt (ckey E r dir g1 a) (ckey E r dir g1 b))
              ((stableSortBy (fun a b => decide (r a < r b))
                (get_depending_nodes E dir n)).filter
                  (fun m => decide (¬r m < r ((stableSortBy
                    (fun a b => decide (r a < r b))
                    (get_depending_nodes E dir n)).getLastD 0))))
              = stableSortBy (fun a b =>
                  keyLt (ckey E r dir g2 a) (ckey E r dir g2 b))
                ((stableSortBy (fun a b => decide (r a < r b))
                  (get_depending_nodes E dir n)).filter
                    (fun m => decide (¬r m < r ((stableSortBy
                      (fun a b => decide (r a < r b))
                      (get_depending_nodes E dir n)).getLastD 0)))) := by
            refine stableSortBy_congr ?_
            intro a ha b hb
            have hμa := hmemμ a ha
            have hμb := hmemμ b hb
            rw [ih a (by omega) g1 g2 (by omega) (by omega),
              ih b (by omega) g1 g2 (by omega) (by omega)]
          rw [hsorts]
          congr 1
          have hlast : (stableSortBy (fun a b =>
              keyLt (ckey E r dir g2 a) (ckey E r dir g2 b))
              ((stableSortBy (fun a b => decide (r a < r b))
                (get_depending_nodes E dir n)).filter
                  (fun m => decide (¬r m < r ((stableSortBy
                    (fun a b => decide (r a < r b))
                    (get_depending_nodes E dir n)).getLastD 0))))).getLastD 0
              ∈ (stableSortBy (fun a b => decide (r a < r b))
                (get_depending_nodes E dir n)).filter
                  (fun m => decide (¬r m < r ((stableSortBy
                    (fun a b => decide (r a < r b))
                    (get_depending_nodes E dir n)).getLastD 0))) := by
            refine mem_stableSortBy.mp (getLastD_mem _ 0 ?_)
            intro hq
            have hne := filtered_ne r (get_depending_nodes E dir n) hemp
            have hperm := stableSortBy_perm (fun a b =>
              keyLt (ckey E r dir g2 a) (ckey E r dir g2 b))
              ((stableSortBy (fun a b => decide (r a < r b))
                (get_depending_nodes E dir n)).filter
                  (fun m => decide (¬r m < r ((stableSortBy
                    (fun a b => decide (r a < r b))
                    (get_depending_nodes E dir n)).getLastD 0))))
            rw [hq] at hperm
            have hlen := hperm.length_eq
            simp only [List.length_nil] at hlen
            rw [List.isEmpty_iff] at hne
            exact hne (List.length_eq_zero.mp hlen.symm)
          have hμl := hmemμ _ hlast
          exact ih _ (by omega) g1 g2 (by omega) (by omega)

/-- C6: for every dependence graph, remaining map and scheduling direction,
`criticality_lessthan` is a strict weak order at every fuel — irreflexive,
asymmetric, transitive, and with transitive incomparability — and its
recursive tie-breaking terminates on every DAG: on a graph with ascending
arcs over nodes `0..nn+1` the comparison is fuel-independent once the fuel
reaches `nn+2`, because the recursion strictly descends along the DAG. -/
theorem C6_criticality_strict_weak_order (E : List Edge) (r : Nat → Int)
    (dir : Bool) (fuel : Nat) :
    (∀ n, criticality_lessthan E r dir fuel n n = false)
    ∧ (∀ n1 n2, criticality_lessthan E r dir fuel n1 n2 = true →
        criticality_lessthan E r dir fuel n2 n1 = false)
    ∧ (∀ n1 n2 n3, criticality_lessthan E r dir fuel n1 n2 = true →
        criticality_lessthan E r dir fuel n2 n3 = true →
        criticality_lessthan E r dir fuel n1 n3 = true)
    ∧ (∀ n1 n2 n3,
        criticality_lessthan E r dir fuel n1 n2 = false →
        criticality_lessthan E r dir fuel n2 n1 = false →
        criticality_lessthan E r dir fuel n2 n3 = false →
        criticality_lessthan E r dir fuel n3 n2 = false →
        criticality_lessthan E r dir fuel n1 n3 = false
          ∧ criticality_lessthan E r dir fuel n3 n1 = false)
    ∧ (∀ (nn : Nat), (∀ e ∈ E, e.src < e.tgt ∧ e.tgt ≤ nn + 1) →
        ∀ n1 n2, n1 ≤ nn + 1 → n2 ≤ nn + 1 → ∀ f1 f2, nn + 2 ≤ f1 → nn + 2 ≤ f2 →
          criticality_lessthan E r dir f1 n1 n2
            = criticality_lessthan E r dir f2 n1 n2) := by
  refine ⟨?_, ?_, ?_, ?_, ?_⟩
  · intro n
    cases fuel with
    | zero => rfl
    | succ f => rw [criticality_lessthan, if_pos rfl]
  · intro n1 n2 h
    cases fuel with
    | zero => exact absurd h (by simp [criticality_lessthan])
    | succ f =>
      rw [crit_eq_keyLt_pos] at h ⊢
      exact keyLt_asymm _ _ h
  · intro n1 n2 n3 h1 h2
    cases fuel with
    | zero => exact absurd h1 (by simp [criticality_lessthan])
    | succ f =>
      rw [crit_eq_keyLt_pos] at h1 h2 ⊢
      exact keyLt_trans _ _ _ h1 h2
  · intro n1 n2 n3 h12 h21 h23 h32
    cases fuel with
    | zero => exact ⟨rfl, rfl⟩
    | succ f =>
      rw [crit_eq_keyLt_pos] at h12 h21 h23 h32 ⊢
      rw [crit_eq_keyLt_pos]
      have e12 := keyLt_eq_of_incomp _ _ h12 h21
      have e23 := keyLt_eq_of_incomp _ _ h23 h32
      rw [e12, e23, keyLt_irrefl]
      exact ⟨rfl, rfl⟩
  · intro nn hwf n1 n2 hn1 hn2 f1 f2 hf1 hf2
    cases f1 with
    | zero => omega
    | succ g1 =>
      cases f2 with
      | zero => omega
      | succ g2 =>
        rw [crit_eq_keyLt_pos, crit_eq_keyLt_pos]
        cases dir
        · have hμ : ∀ n, ∀ m ∈ get_depending_nodes E false n, m < n := by
            intro n m hm
            rw [get_depending_nodes, if_neg Bool.false_ne_true, mem_dedupFO] at hm
            obtain ⟨e, he, ht, hs⟩ := mem_preds.mp hm
            have := (hwf e he).1
            omega
          have hs1 := ckey_stable E r false (fun n => n) hμ n1 n1 le_rfl
            (g1 + 1) (g2 + 1) (by show n1 ≤ g1 + 1; omega) (by show n1 ≤ g2 + 1; omega)
          have hs2 := ckey_stable E r false (fun n => n) hμ n2 n2 le_rfl
            (g1 + 1) (g2 + 1) (by show n2 ≤ g1 + 1; omega) (by show n2 ≤ g2 + 1; omega)
          rw [hs1, hs2]
        · have hμ : ∀ n, ∀ m ∈ get_depending_nodes E true n,
              nn + 2 - m < nn + 2 - n := by
            intro n m hm
            rw [get_depending_nodes, if_pos rfl, mem_dedupFO] at hm
            obtain ⟨e, he, hs, ht⟩ := mem_succs.mp hm
            obtain ⟨hw1, hw2⟩ := hwf e he
            omega
          have hs1 := ckey_stable E r true (fun n => nn + 2 - n) hμ (nn + 2) n1
            (by show nn + 2 - n1 ≤ nn + 2; omega) (g1 + 1) (g2 + 1)
            (by show nn + 2 - n1 ≤ g1 + 1; omega)
            (by show nn + 2 - n1 ≤ g2 + 1; omega)
          have hs2 := ckey_stable E r true (fun n => nn + 2 - n) hμ (nn + 2) n2
            (by show nn + 2 - n2 ≤ nn + 2; omega) (g1 + 1) (g2 + 1)
            (by show nn + 2 - n2 ≤ g1 + 1; omega)
            (by show nn + 2 - n2 ≤ g2 + 1; omega)
          rw [hs1, hs2]

/-! ### Claim C1: every pass honors every arc -/

/-- C1: for every schedule produced by any of the scheduling passes — ASAP,
ALAP, their resource-constrained variants (whenever the loop terminates),
and the uniform pass — and every arc `u→v` of weight `w` of the dependence
graph, the final cycle assignment satisfies `cycle u + w ≤ cycle v`. -/
theorem C1_dependences_preserved {ρ : Type} (env : RCEnv ρ) (ct : Nat)
    (S MAXC maxcR : Int) (c0 : Nat → Int) (r0 : ρ) (fuel : Nat)
    (hwf : ∀ e ∈ env.E, e.src < e.tgt ∧ e.tgt ≤ env.ckt.length + 1)
    (hW : ∀ e ∈ env.E, (e.weight : Int) = fweight (nodeDur env.ckt e.src) ct)
    (hin : ∀ v, 1 ≤ v → v ≤ env.ckt.length + 1 → ∃ e ∈ env.E, e.tgt = v)
    (hout : ∀ v ≤ env.ckt.length, ∃ e ∈ env.E, e.src = v) :
    (∀ e ∈ env.E, asapCycles env.E env.ckt.length c0 e.src + e.weight
        ≤ asapCycles env.E env.ckt.length c0 e.tgt)
    ∧ (∀ e ∈ env.E, alapCycles S MAXC env.E env.ckt.length c0 e.src + e.weight
        ≤ alapCycles S MAXC env.E env.ckt.length c0 e.tgt)
    ∧ (∀ fin : RCSt ρ, rcRun env true fuel (init_available env true c0 r0) = some fin →
        ∀ e ∈ env.E, fin.cyc e.src + e.weight ≤ fin.cyc e.tgt)
    ∧ (∀ fin : RCSt ρ, rcRun env false fuel (init_available env false c0 r0) = some fin →
        ∀ e ∈ env.E, (fin.cyc e.src - fin.cyc 0) + e.weight
          ≤ fin.cyc e.tgt - fin.cyc 0)
    ∧ (∀ e ∈ env.E,
        (schedule_alap_uniform env.E env.ckt.length (nodeDur env.ckt) ct c0 maxcR
          fuel).1.cyc e.src + e.weight
        ≤ (schedule_alap_uniform env.E env.ckt.length (nodeDur env.ckt) ct c0 maxcR
          fuel).1.cyc e.tgt) := by
  refine ⟨?_, ?_, ?_, ?_, ?_⟩
  · intro e he
    exact asap_dep env.E env.ckt.length c0 e he (hwf e he).1 (hwf e he).2
  · intro e he
    exact alap_dep S MAXC env.E env.ckt.length c0 e he (hwf e he).1 (hwf e he).2
  · intro fin hrun
    exact rcRun_fwd_dep env env.ckt.length c0 r0 fuel fin hwf hin hrun
  · intro fin hrun e he
    have := (rcRun_bwd_dep env c0 r0 fuel fin hwf hin hout hrun).1 e he
    omega
  · intro e he
    exact (schedule_alap_uniform_inv env.E env.ckt.length (nodeDur env.ckt) ct c0
      maxcR fuel hwf hW).dep e he

theorem C1_dependences_preserved_witness :
    ((∀ e ∈ C4env.E, e.src < e.tgt ∧ e.tgt ≤ C4env.ckt.length + 1)
      ∧ ∀ e ∈ C4env.E, (e.weight : Int) = fweight (nodeDur C4env.ckt e.src) 1)
    ∧ ((∀ e ∈ C4env.E, asapCycles C4env.E C4env.ckt.length (fun _ => 0) e.src + e.weight
          ≤ asapCycles C4env.E C4env.ckt.length (fun _ => 0) e.tgt)
      ∧ (∀ e ∈ C4env.E,
          alapCycles 10 1000 C4env.E C4env.ckt.length (fun _ => 0) e.src + e.weight
          ≤ alapCycles 10 1000 C4env.E C4env.ckt.length (fun _ => 0) e.tgt)
      ∧ (∀ fin : RCSt Unit,
          rcRun C4env true 50 (init_available C4env true (fun _ => 0) ()) = some fin →
          ∀ e ∈ C4env.E, fin.cyc e.src + e.weight ≤ fin.cyc e.tgt)
      ∧ (∀ fin : RCSt Unit,
          rcRun C4env false 50 (init_available C4env false (fun _ => 0) ()) = some fin →
          ∀ e ∈ C4env.E, (fin.cyc e.src - fin.cyc 0) + e.weight
            ≤ fin.cyc e.tgt - fin.cyc 0)
      ∧ (∀ e ∈ C4env.E,
          (schedule_alap_uniform C4env.E C4env.ckt.length (nodeDur C4env.ckt) 1
            (fun _ => 0) 1000 50).1.cyc e.src + e.weight
          ≤ (schedule_alap_uniform C4env.E C4env.ckt.length (nodeDur C4env.ckt) 1
            (fun _ => 0) 1000 50).1.cyc e.tgt)) :=
  ⟨⟨by decide, by decide⟩,
    C1_dependences_preserved C4env 1 10 1000 1000 (fun _ => 0) () 50
      (by decide) (by decide)
      (fun v h1 h2 => by
        have hv : v = 1 ∨ v = 2 := by
          simp only [C4env, List.length_singleton] at h2
          omega
        rcases hv with rfl | rfl <;> decide)
      (fun v h2 => by
        have hv : v = 0 ∨ v = 1 := by
          simp only [C4env, List.length_singleton] at h2
          omega
        rcases hv with rfl | rfl <;> decide)⟩

end QL
